import Mathlib

/-!
Verification development for the dialogue-forge repository.

The development shallowly embeds three layers of the source:

1. the game-state / condition layer (`WebGameState.evaluate_condition`,
   `WebGameState.grant_condition`, `WebGameState.execute_command` from
   `dialogue_forge/web/app.py`, and `GameState.evaluate_condition` from
   `dialogue_forge/cli/play_cmd.py`);
2. the traversal engine (`find_valid_path_to_node`,
   `find_random_path_to_node`, `find_exploratory_path_to_node` and the
   replay walk of the `/api/replay-path` route, all from
   `dialogue_forge/web/app.py`);
3. the parser and validator (`DialogueParser.parse_lines`,
   `DialogueParser._parse_node`, `DialogueParser._read_multiline_quoted_text`,
   `DialogueParser.validate` from `dialogue_forge/parser/parser.py`).

Conditions are embedded as an abstract-syntax type `Cond` whose constructors
stand for the strings of the condition grammar; the evaluators are embedded
as functions on `Cond` that reproduce, case by case, what the Python
rewrite-then-`eval` pipeline does on the corresponding strings, including
the swallowed exceptions.  The parser is embedded directly on lists of
characters.
-/

namespace DialogueForge

/-! ## Python values and the game state -/

/-- A value stored in `WebGameState.variables` / `GameState.variables`.
`execute_command`'s `set` and `grant_condition`'s `==` branch store booleans,
integers (Python `int`, unbounded) or raw strings; nothing else is ever
written into the mapping. -/
inductive PyVal where
  | bool (b : Bool)
  | int (n : Int)
  | str (s : String)
  deriving DecidableEq, Repr

/-- Association-list lookup, first binding wins (Python `dict` access:
keys are unique in a real dict, so the first binding is the binding). -/
def alookup (k : String) : List (String × PyVal) → Option PyVal
  | [] => none
  | (k', v) :: rest => if k' = k then some v else alookup k rest

/-- Association-list update modelling Python `d[k] = v`: an existing key
keeps its position and gets the new value, a new key is appended at the end
(Python dicts preserve the insertion position of a key across updates). -/
def aset (k : String) (v : PyVal) : List (String × PyVal) → List (String × PyVal)
  | [] => [(k, v)]
  | (k', v') :: rest => if k' = k then (k', v) :: rest else (k', v') :: aset k v rest

/-- Python `set.add`: no-op when the element is present, otherwise insert. -/
def addSet (x : String) (l : List String) : List String :=
  if x ∈ l then l else l ++ [x]

/-- Python `set.discard`: remove the element if present. -/
def delSet (x : String) (l : List String) : List String :=
  l.filter (fun y => y ≠ x)

/-- `WebGameState` (web/app.py lines 20-45): a mapping of variable name to
value, an inventory set and a companion set.  The two sets are modelled as
duplicate-free lists. -/
structure WebGameState where
  /-- the `variables` mapping (`vars` here: `variables` is a Lean keyword) -/
  vars : List (String × PyVal) := []
  inventory : List String := []
  companions : List String := []
  deriving DecidableEq, Repr

/-- `GameState` (cli/play_cmd.py lines 51-58): same data plus the set of
visited nodes (which the condition evaluator never reads). -/
structure GameState where
  /-- the `variables` mapping (`vars` here: `variables` is a Lean keyword) -/
  vars : List (String × PyVal) := []
  inventory : List String := []
  companions : List String := []
  visited_nodes : List String := []
  deriving DecidableEq, Repr

/-! ## The condition grammar

`Cond` is the abstract syntax of the condition strings that both
`evaluate_condition` implementations interpret and that
`grant_condition` pattern-matches on:

* `flag x`       stands for the bare identifier string `x`;
* `neg x`        stands for `!x`;
* `hasItem i`    stands for `has_item:i`;
* `companion n`  stands for `companion:n`;
* `lt/le/gt/ge x n` stand for `x < n`, `x <= n`, `x > n`, `x >= n`
  with `n` a digit literal (the grant regexes use `(\d+)`);
* `eqB x b`      stands for `x == true` / `x == false`;
* `eqI x n`      stands for `x == n` with `n` an integer literal;
* `eqS x lit`    stands for `x == lit` with `lit` a bare word that is
  neither `true`/`false` (case-insensitively) nor parseable as an integer
  (those cases are `eqB`/`eqI`);
* `neq x lit`    stands for `x != lit`;
* `and a b`      stands for `a && b`;
* `or a b`       stands for `a || b`.

Identifiers (`x`, `i`, `n`, `lit`) stand for ordinary `\w+` names that are
not Python keywords; a keyword identifier would make the rewritten string a
syntax error, which is outside the scope of this embedding. -/
inductive Cond where
  | flag (x : String)
  | neg (x : String)
  | hasItem (item : String)
  | companion (name : String)
  | lt (x : String) (n : Nat)
  | le (x : String) (n : Nat)
  | gt (x : String) (n : Nat)
  | ge (x : String) (n : Nat)
  | eqB (x : String) (b : Bool)
  | eqI (x : String) (n : Int)
  | eqS (x : String) (lit : String)
  | neq (x : String) (lit : String)
  | and (a b : Cond)
  | or (a b : Cond)
  deriving DecidableEq, Repr

/-- `true` when the rendered condition string contains `!=`.  Both
evaluators run `condition.replace("!", "not ")` first, which turns `!=`
into `not =`; the resulting string is a Python syntax error, `eval` raises,
the `except` clause swallows it and the evaluator returns `False`. -/
def Cond.containsNeq : Cond → Bool
  | .neq _ _ => true
  | .and a b | .or a b => a.containsNeq || b.containsNeq
  | _ => false

/-- The variables matched by the web evaluator's `re.findall(r"not\s+(\w+)",
condition)` after the rewrite: exactly the operands of `!`. -/
def Cond.negVars : Cond → List String
  | .neg x => [x]
  | .and a b | .or a b => a.negVars ++ b.negVars
  | _ => []

/-- All identifier occurrences that the rewritten string presents in *name*
position (evaluated by Python's name lookup).  Used by the CLI evaluator's
`re.findall(r"\b([a-zA-Z_]\w*)\b", condition)` defaulting pass: item and
companion names are rewritten into quoted string literals and are never
evaluated as names, so they are not listed. -/
def Cond.nameOccs : Cond → List String
  | .flag x | .neg x => [x]
  | .lt x _ | .le x _ | .gt x _ | .ge x _ => [x]
  | .eqI x _ => [x]
  | .eqB x b => [x, if b then "true" else "false"]
  | .eqS x lit => [x, lit]
  | .neq x lit => [x, lit]
  | .hasItem _ | .companion _ => []
  | .and a b | .or a b => a.nameOccs ++ b.nameOccs

/-! ## Evaluation

Evaluation works over runtime values `RVal`: either a stored `PyVal` or one
of the two set objects that the evaluation context binds to the names
`inventory` and `companions` (web/app.py lines 61-66, play_cmd.py
lines 85-90).  `Option` models a raised-and-caught exception: `none` means
`eval` raised (`NameError`, `TypeError`, ...) and the evaluator returns
`False`. -/
inductive RVal where
  | ofVal (v : PyVal)
  | set (elems : List String)
  deriving DecidableEq, Repr

/-- Python truthiness of a runtime value. -/
def truthy : RVal → Bool
  | .ofVal (.bool b) => b
  | .ofVal (.int n) => decide (n ≠ 0)
  | .ofVal (.str t) => decide (t ≠ "")
  | .set l => decide (l ≠ [])

/-- Numeric view used by Python's comparison operators: `bool` is a
subclass of `int` (`True` is `1`), strings and sets are not numbers. -/
def PyVal.asNum : PyVal → Option Int
  | .bool b => some (if b then 1 else 0)
  | .int n => some n
  | .str _ => none

/-- Numeric view of a runtime value (sets are not numbers, comparing one
with an `int` raises `TypeError`). -/
def RVal.asNum : RVal → Option Int
  | .ofVal v => v.asNum
  | .set _ => none

/-- Python `==` between two runtime values: numbers compare numerically
(`True == 1`), strings compare as strings, sets as sets, and any
cross-type comparison is `False` (never an error). -/
def pyEq : RVal → RVal → Bool
  | .ofVal a, .ofVal b =>
    match a.asNum, b.asNum with
    | some m, some n => decide (m = n)
    | _, _ =>
      match a, b with
      | .str s, .str t => decide (s = t)
      | _, _ => false
  | .set l, .set m => l.all (fun x => x ∈ m) && m.all (fun x => x ∈ l)
  | _, _ => false

/-- Python `x in v` for a string literal `x`: substring test on a string,
membership on a set, `TypeError` (modelled `none`) on anything else. -/
def pyIn (x : String) : RVal → Option Bool
  | .ofVal (.str t) => some (substrB x.toList t.toList)
  | .ofVal _ => none
  | .set l => some (decide (x ∈ l))
where
  /-- `needle` occurs as a contiguous run inside `hay`. -/
  substrB (needle hay : List Char) : Bool :=
    prefixAt needle hay || (match hay with | [] => false | _ :: t => substrB needle t)
  /-- `needle` is an initial run of `hay`. -/
  prefixAt : List Char → List Char → Bool
    | [], _ => true
    | _ :: _, [] => false
    | a :: as, b :: bs => a = b && prefixAt as bs

/-- Name lookup in the evaluation context
`{"inventory": ..., "companions": ..., **variables}` (plus any defaulted
names already merged into `vars`): the variable mapping shadows the two
built-in set bindings; an unbound name is a `NameError` (`none`). -/
def lookupName (vars : List (String × PyVal)) (inv comps : List String)
    (x : String) : Option RVal :=
  match alookup x vars with
  | some v => some (.ofVal v)
  | none =>
    if x = "inventory" then some (.set inv)
    else if x = "companions" then some (.set comps)
    else none

/-- One comparison `x ⊙ n` between the name `x` and an integer literal:
`NameError` if `x` is unbound, `TypeError` if its value is not a number. -/
def cmpName (vars : List (String × PyVal)) (inv comps : List String)
    (x : String) (test : Int → Bool) : Option RVal := do
  let r ← lookupName vars inv comps x
  let m ← r.asNum
  pure (.ofVal (.bool (test m)))

/-- Runtime evaluation of the rewritten condition string, shared by both
evaluators; `vars` is the context after any defaulting pass.  `and` / `or`
short-circuit exactly as Python's `and` / `or` do, and return the deciding
operand's value. -/
def evalRun (vars : List (String × PyVal)) (inv comps : List String) :
    Cond → Option RVal
  | .flag x => lookupName vars inv comps x
  | .neg x => do
      let r ← lookupName vars inv comps x
      pure (.ofVal (.bool (!truthy r)))
  | .hasItem item => do
      let r ← lookupName vars inv comps "inventory"
      let b ← pyIn item r
      pure (.ofVal (.bool b))
  | .companion n => do
      let r ← lookupName vars inv comps "companions"
      let b ← pyIn n r
      pure (.ofVal (.bool b))
  | .lt x n => cmpName vars inv comps x (fun m => decide (m < (n : Int)))
  | .le x n => cmpName vars inv comps x (fun m => decide (m ≤ (n : Int)))
  | .gt x n => cmpName vars inv comps x (fun m => decide ((n : Int) < m))
  | .ge x n => cmpName vars inv comps x (fun m => decide ((n : Int) ≤ m))
  | .eqB x b => do
      let l ← lookupName vars inv comps x
      let r ← lookupName vars inv comps (if b then "true" else "false")
      pure (.ofVal (.bool (pyEq l r)))
  | .eqI x n => do
      let l ← lookupName vars inv comps x
      pure (.ofVal (.bool (pyEq l (.ofVal (.int n)))))
  | .eqS x lit => do
      let l ← lookupName vars inv comps x
      let r ← lookupName vars inv comps lit
      pure (.ofVal (.bool (pyEq l r)))
  | .neq _ _ => none
  | .and a b => do
      let va ← evalRun vars inv comps a
      if truthy va then evalRun vars inv comps b else pure va
  | .or a b => do
      let va ← evalRun vars inv comps a
      if truthy va then pure va else evalRun vars inv comps b

/-- The web evaluator's defaulting pass (web/app.py lines 68-73): when the
rewritten condition contains `not `, every `not`-operand that is bound
neither in the context nor to the two built-in set names is defaulted to
`False`. -/
def ctxDefaultsW (s : WebGameState) (c : Cond) : List (String × PyVal) :=
  c.negVars.foldl
    (fun vars v =>
      if (alookup v vars).isSome || v = "inventory" || v = "companions" then vars
      else vars ++ [(v, .bool false)])
    s.vars

/-- `WebGameState.evaluate_condition` (web/app.py lines 47-78) on a
condition of the grammar: rewrite (a condition containing `!=` becomes a
syntax error and yields `False`), default the `not`-operands, evaluate,
coerce to truthiness, and swallow any exception as `False`. -/
def evalCondW (s : WebGameState) (c : Cond) : Bool :=
  if c.containsNeq then false
  else
    match evalRun (ctxDefaultsW s c) s.inventory s.companions c with
    | some r => truthy r
    | none => false

/-- `evaluate_condition`'s leading guard `if not condition: return True`:
an absent (`None`) or empty condition is always true.  `Option.none` here
models both. -/
def evalCondOptW (s : WebGameState) : Option Cond → Bool
  | none => true
  | some c => evalCondW s c

/-- The CLI evaluator's reserved words (play_cmd.py lines 94-105). -/
def cliReserved : List String :=
  ["inventory", "companions", "in", "and", "or", "not", "True", "False", "true", "false"]

/-- The CLI evaluator's defaulting pass (play_cmd.py lines 106-115): every
identifier occurring in name position that is not already bound and not a
reserved word is defaulted to `False`. -/
def ctxDefaultsC (s : GameState) (c : Cond) : List (String × PyVal) :=
  c.nameOccs.foldl
    (fun vars v =>
      if (alookup v vars).isSome || v ∈ cliReserved then vars
      else vars ++ [(v, .bool false)])
    s.vars

/-- `GameState.evaluate_condition` (cli/play_cmd.py lines 60-133): same
pipeline as the web evaluator but with the all-names defaulting pass. -/
def evalCondC (s : GameState) (c : Cond) : Bool :=
  if c.containsNeq then false
  else
    match evalRun (ctxDefaultsC s c) s.inventory s.companions c with
    | some r => truthy r
    | none => false

/-- The CLI evaluator's `None` / empty guard (play_cmd.py lines 71-72). -/
def evalCondOptC (s : GameState) : Option Cond → Bool
  | none => true
  | some c => evalCondC s c

/-! ## Granting

`WebGameState.grant_condition` (web/app.py lines 80-178) first splits the
raw string on `&&` and grants every part, then (for a part without `&&`)
splits on `||` and grants only the first operand, and finally runs one
atom through its regex cascade.  On the flat rendering of a `Cond` the
atoms that end up granted are therefore: the first atom of the whole
string, plus the atom immediately following every `&&` (each `&&`
initiates a new split part, whose own first `||`-operand is its leading
atom). -/

/-- The atoms `grant_condition` touches, in the order it touches them:
splitting `a && b` on `&&` separates `a`'s parts from `b`'s, so both
sides' granted atoms are granted; in `a || b` the flat string's `||` at
the junction glues `b`'s leading `&&`-part onto `a`'s trailing one, so
`b`'s first granted atom is skipped. -/
def Cond.grantedAtoms : Cond → List Cond
  | .and a b => a.grantedAtoms ++ b.grantedAtoms
  | .or a b => a.grantedAtoms ++ b.grantedAtoms.tail
  | c => [c]

/-- The regex cascade of `grant_condition` on a single atom
(web/app.py lines 104-178), in source order.  The comparison branches
read `current = self.variables.get(var_name, 0)` and re-assign only when
`current` is not a number (`isinstance(current, (int, float))` is true
for `bool`) or fails the comparison. -/
def grantAtom (s : WebGameState) : Cond → WebGameState
  | .hasItem item => { s with inventory := addSet item s.inventory }
  | .companion n => { s with companions := addSet n s.companions }
  | .neg x => { s with vars := aset x (.bool false) s.vars }
  | .ge x n =>
    match ((alookup x s.vars).getD (.int 0)).asNum with
    | none => { s with vars := aset x (.int n) s.vars }
    | some m => if m < (n : Int) then { s with vars := aset x (.int n) s.vars } else s
  | .gt x n =>
    match ((alookup x s.vars).getD (.int 0)).asNum with
    | none => { s with vars := aset x (.int (n + 1)) s.vars }
    | some m =>
      if m ≤ (n : Int) then { s with vars := aset x (.int (n + 1)) s.vars } else s
  | .le x n =>
    match ((alookup x s.vars).getD (.int 0)).asNum with
    | none => { s with vars := aset x (.int n) s.vars }
    | some m => if (n : Int) < m then { s with vars := aset x (.int n) s.vars } else s
  | .lt x n =>
    match ((alookup x s.vars).getD (.int 0)).asNum with
    | none => { s with vars := aset x (.int ((n : Int) - 1)) s.vars }
    | some m =>
      if (n : Int) ≤ m then { s with vars := aset x (.int ((n : Int) - 1)) s.vars } else s
  | .eqB x b => { s with vars := aset x (.bool b) s.vars }
  | .eqI x n => { s with vars := aset x (.int n) s.vars }
  | .eqS x lit => { s with vars := aset x (.str lit) s.vars }
  | .flag x => { s with vars := aset x (.bool true) s.vars }
  | .neq _ _ => s
  | .and _ _ | .or _ _ => s

/-- `WebGameState.grant_condition` on a condition of the grammar. -/
def grantW (s : WebGameState) (c : Cond) : WebGameState :=
  c.grantedAtoms.foldl grantAtom s

/-- `grant_condition`'s `None` / empty guard (web/app.py lines 88-89). -/
def grantOptW (s : WebGameState) : Option Cond → WebGameState
  | none => s
  | some c => grantW s c

/-! ## Commands

`WebGameState.execute_command` (web/app.py lines 180-241) splits the
command string on whitespace and dispatches on the head word.  `Cmd` is the
abstract syntax of the outcomes of that parse: `set x v` stands for
`set x = raw` with `v` the stored value (`true`/`false` → booleans, an
integer literal → `int`, anything else → the raw string); `add`/`sub`
carry the integer argument (a command whose `parts[3]` fails `int()` hits
the `except ValueError: pass` and is a `nop`); commands with too few parts
or an unknown head word fall through every branch and are `nop`s.

`add`/`sub` read `current = self.variables.get(var_name, 0)` and then run
`current + amount` *inside* a `try` that only catches `ValueError`: when
`current` is a string this raises an uncaught `TypeError`, modelled as
`Except.error`. -/
inductive Cmd where
  | set (x : String) (v : PyVal)
  | add (x : String) (n : Int)
  | sub (x : String) (n : Int)
  | giveItem (item : String)
  | removeItem (item : String)
  | addCompanion (name : String)
  | removeCompanion (name : String)
  | nop
  deriving DecidableEq, Repr

/-- `execute_command(cmd, skip_if_exists)`.  `Except.error` is the
uncaught `TypeError` of `add`/`sub` on a string-valued variable. -/
def executeCommandE (s : WebGameState) (skip : Bool) : Cmd → Except Unit WebGameState
  | .set x v =>
    if skip && (alookup x s.vars).isSome then .ok s
    else .ok { s with vars := aset x v s.vars }
  | .add x n =>
    match (alookup x s.vars).getD (.int 0) with
    | .str _ => .error ()
    | .bool b => .ok { s with vars := aset x (.int ((if b then 1 else 0) + n)) s.vars }
    | .int m => .ok { s with vars := aset x (.int (m + n)) s.vars }
  | .sub x n =>
    match (alookup x s.vars).getD (.int 0) with
    | .str _ => .error ()
    | .bool b => .ok { s with vars := aset x (.int ((if b then 1 else 0) - n)) s.vars }
    | .int m => .ok { s with vars := aset x (.int (m - n)) s.vars }
  | .giveItem i => .ok { s with inventory := addSet i s.inventory }
  | .removeItem i => .ok { s with inventory := delSet i s.inventory }
  | .addCompanion n => .ok { s with companions := addSet n s.companions }
  | .removeCompanion n => .ok { s with companions := delSet n s.companions }
  | .nop => .ok s

/-- Run a list of commands in order (`skip_if_exists` is never set by the
traversal engine or the replay route). -/
def execCmdsE (s : WebGameState) : List Cmd → Except Unit WebGameState
  | [] => .ok s
  | c :: rest =>
    match executeCommandE s false c with
    | .error e => .error e
    | .ok s' => execCmdsE s' rest

/-! ## The traversal engine's view of a dialogue

The engine (web/app.py lines 244-709) consumes a parsed `Dialogue`; it
reads, per node: the choice list (target and condition), the command list,
the trigger list (only `triggers[0].condition` is ever used, plus emptiness
of the list), the `is_end` flag, and `len(node.lines)` (the explore mode's
score).  Conditions and commands appear here in their abstract syntax. -/

structure ETrigger where
  trigger_type : String
  target : String
  condition : Option Cond := none
  deriving DecidableEq, Repr

structure EChoice where
  target : String
  condition : Option Cond := none
  deriving DecidableEq, Repr

structure ENode where
  /-- `len(node.lines)` — the only thing the engine reads from the lines -/
  linesCount : Nat := 0
  choices : List EChoice := []
  commands : List Cmd := []
  triggers : List ETrigger := []
  is_end : Bool := false
  deriving DecidableEq, Repr

/-- The `dialogue.nodes` dict as an insertion-ordered association list,
plus `start_node` and the `[state]` commands. -/
structure EDialogue where
  start_node : String
  nodes : List (String × ENode) := []
  initial_state : List Cmd := []
  deriving DecidableEq, Repr

/-- `dialogue.nodes[k]` / `k in dialogue.nodes`. -/
def lookupNode (k : String) : List (String × ENode) → Option ENode
  | [] => none
  | (k', v) :: rest => if k' = k then some v else lookupNode k rest

/-! ## State signatures and visited sets

A frontier entry is keyed by
`(node, frozenset(inventory), frozenset(companions), frozenset(variables.items()))`
(web/app.py lines 317-323).  Frozensets compare as sets, so signature
equality compares the underlying lists up to membership. -/

structure Sig where
  node : String
  inv : List String
  comps : List String
  vars : List (String × PyVal)
  deriving Repr

/-- Set equality of two lists. -/
def sameSetL {α : Type} [DecidableEq α] (l m : List α) : Bool :=
  l.all (fun x => x ∈ m) && m.all (fun x => x ∈ l)

/-- Equality of signatures as Python compares the 4-tuples of frozensets. -/
def sigEq (a b : Sig) : Bool :=
  a.node = b.node && sameSetL a.inv b.inv && sameSetL a.comps b.comps
    && sameSetL a.vars b.vars

/-- The signature of a state at a node. -/
def mkSig (n : String) (s : WebGameState) : Sig :=
  ⟨n, s.inventory, s.companions, s.vars⟩

/-- `state_sig in visited`. -/
def inVisited (visited : List Sig) (sg : Sig) : Bool :=
  visited.any (fun t => sigEq t sg)

/-- A frontier entry `(current_node, path, state, used_triggers)`. -/
structure BEntry where
  node : String
  path : List String
  state : WebGameState
  used : List String
  deriving Repr

/-- The outcome of a traversal call.  `found p st` is Python's
`return path, state`; `exhausted` is every `return None, None`;
`stErr` is an uncaught exception escaping `execute_command`; `fuelOut`
marks that the modelled loop ran out of fuel (the Python loop would
simply have kept running). -/
inductive PathRes where
  | found (path : List String) (st : WebGameState)
  | exhausted
  | stErr
  | fuelOut
  deriving DecidableEq, Repr

/-! ## `find_valid_path_to_node` — breadth-first search
(web/app.py lines 244-361) -/

/-- Outcome of one entry's choice loop: an in-loop `return path, state`,
an uncaught exception, or the updated queue and visited set. -/
inductive StepOut where
  | ret (p : List String) (st : WebGameState)
  | err
  | cont (queue : List BEntry) (visited : List Sig)

/-- The `for choice in node.choices` loop of the BFS (lines 297-327):
skip unsatisfied conditions; a satisfied choice to `"END"` returns
immediately when the target is `"END"` and is skipped otherwise; a
satisfied choice to a real node runs that node's commands on a copy of
the state and enqueues the successor unless its signature is visited. -/
def bfsChoices (d : EDialogue) (target : String) (e : BEntry) :
    List EChoice → List BEntry → List Sig → StepOut
  | [], queue, visited => .cont queue visited
  | ch :: rest, queue, visited =>
    if !evalCondOptW e.state ch.condition then bfsChoices d target e rest queue visited
    else if ch.target = "END" then
      if target = "END" then .ret (e.path ++ ["END"]) e.state
      else bfsChoices d target e rest queue visited
    else
      match lookupNode ch.target d.nodes with
      | none => bfsChoices d target e rest queue visited
      | some nnode =>
        match execCmdsE e.state nnode.commands with
        | .error _ => .err
        | .ok st' =>
          let sg := mkSig ch.target st'
          if inVisited visited sg then bfsChoices d target e rest queue visited
          else
            bfsChoices d target e rest
              (queue ++ [⟨ch.target, e.path ++ [ch.target], st', e.used⟩])
              (visited ++ [sg])

/-- The trigger-jump loop run at an `@end` node (lines 330-358): for each
trigger-bearing node not yet used on this path, take its *first* trigger
(the inner loop `break`s after one iteration), grant the trigger's
condition on a copy of the state, run the trigger node's commands, and
enqueue unless the signature is visited. -/
def bfsJumps (d : EDialogue) (e : BEntry) :
    List (String × ENode) → List BEntry → List Sig →
    Except Unit (List BEntry × List Sig)
  | [], queue, visited => .ok (queue, visited)
  | (tid, tnode) :: rest, queue, visited =>
    if tid ∈ e.used then bfsJumps d e rest queue visited
    else
      match tnode.triggers with
      | [] => bfsJumps d e rest queue visited
      | trg :: _ =>
        match execCmdsE (grantOptW e.state trg.condition) tnode.commands with
        | .error _ => .error ()
        | .ok st2 =>
          let sg := mkSig tid st2
          if inVisited visited sg then bfsJumps d e rest queue visited
          else
            bfsJumps d e rest (queue ++ [⟨tid, e.path ++ [tid], st2, e.used ++ [tid]⟩])
              (visited ++ [sg])

/-- The `while queue` loop (lines 285-358): pop from the front, return if
the popped node is the target, skip nodes absent from the dialogue,
otherwise expand choices and (for `@end` nodes) trigger jumps.  The fuel
argument is an artifact of the embedding; the Python loop has no bound. -/
def bfsLoop (d : EDialogue) (target : String) (tnodes : List (String × ENode)) :
    Nat → List BEntry → List Sig → PathRes
  | 0, _, _ => .fuelOut
  | _ + 1, [], _ => .exhausted
  | fuel + 1, e :: qrest, visited =>
    if e.node = target then .found e.path e.state
    else
      match lookupNode e.node d.nodes with
      | none => bfsLoop d target tnodes fuel qrest visited
      | some node =>
        match bfsChoices d target e node.choices qrest visited with
        | .ret p st => .found p st
        | .err => .stErr
        | .cont q1 v1 =>
          if node.is_end then
            match bfsJumps d e tnodes q1 v1 with
            | .error _ => .stErr
            | .ok (q2, v2) => bfsLoop d target tnodes fuel q2 v2
          else bfsLoop d target tnodes fuel q1 v1

/-- The nodes that carry at least one trigger, in dict order
(lines 271-274). -/
def triggerNodes (d : EDialogue) : List (String × ENode) :=
  d.nodes.filter (fun p => !p.2.triggers.isEmpty)

/-- Shared preamble of the three policies (lines 253-283 / 373-400 /
482-510): build the initial state from `[state]` commands; target equal to
start returns the one-node path after running the start node's commands;
a target that is neither a node nor `"END"` fails; otherwise run the start
node's commands and seed the frontier.  Note the initial visited signature
is built with two *empty* frozensets regardless of the actual initial
inventory and companions (lines 283/400/510).  Returns the seed
`(state, entry, visited)` or a terminal result. -/
def enginePrep (d : EDialogue) (target : String) :
    PathRes ⊕ (BEntry × List Sig) :=
  match execCmdsE ⟨[], [], []⟩ d.initial_state with
  | .error _ => .inl .stErr
  | .ok st0 =>
    if target = d.start_node then
      match lookupNode target d.nodes with
      | some n =>
        match execCmdsE st0 n.commands with
        | .error _ => .inl .stErr
        | .ok st => .inl (.found [target] st)
      | none => .inl (.found [target] st0)
    else if lookupNode target d.nodes = none ∧ target ≠ "END" then .inl .exhausted
    else
      match
        (match lookupNode d.start_node d.nodes with
         | some sn => execCmdsE st0 sn.commands
         | none => .ok st0) with
      | .error _ => .inl .stErr
      | .ok st1 =>
        .inr (⟨d.start_node, [d.start_node], st1, []⟩,
          [⟨d.start_node, [], [], st1.vars⟩])

/-- `find_valid_path_to_node` with explicit fuel. -/
def findValidPathE (fuel : Nat) (d : EDialogue) (target : String) : PathRes :=
  match enginePrep d target with
  | .inl r => r
  | .inr (e0, v0) => bfsLoop d target (triggerNodes d) fuel [e0] v0

/-! ## `find_random_path_to_node` — randomized depth-first search
(web/app.py lines 364-468)

`random.shuffle` is modelled by an oracle giving, for the `k`-th shuffle
call, the permutation to apply (an arbitrary index list; an invalid one is
ignored, which applies the identity — itself a possible shuffle outcome).
Every run of the Python function corresponds to some oracle and every
oracle describes a possible run. -/

/-- Apply a permutation given as a list of indices; invalid data leaves
the list unchanged. -/
def applyPerm {α : Type} (perm : List Nat) (l : List α) : List α :=
  if perm.length = l.length ∧ perm.Nodup ∧ ∀ i ∈ perm, i < l.length then
    perm.filterMap (fun i => l[i]?)
  else l

/-- Outcome of collecting `next_states` for one popped entry. -/
inductive CollectOut where
  | ret (p : List String) (st : WebGameState)
  | err
  | cont (nexts : List (String × WebGameState × List String))

/-- The choice half of `next_states` collection (lines 417-433). -/
def dfsChoices (d : EDialogue) (target : String) (e : BEntry) :
    List EChoice → List (String × WebGameState × List String) → CollectOut
  | [], acc => .cont acc
  | ch :: rest, acc =>
    if !evalCondOptW e.state ch.condition then dfsChoices d target e rest acc
    else if ch.target = "END" then
      if target = "END" then .ret (e.path ++ ["END"]) e.state
      else dfsChoices d target e rest acc
    else
      match lookupNode ch.target d.nodes with
      | none => dfsChoices d target e rest acc
      | some nnode =>
        match execCmdsE e.state nnode.commands with
        | .error _ => .err
        | .ok st' => dfsChoices d target e rest (acc ++ [(ch.target, st', e.used)])

/-- The trigger-jump half of `next_states` collection (lines 436-451). -/
def dfsJumps (d : EDialogue) (e : BEntry) :
    List (String × ENode) → List (String × WebGameState × List String) →
    Except Unit (List (String × WebGameState × List String))
  | [], acc => .ok acc
  | (tid, tnode) :: rest, acc =>
    if tid ∈ e.used then dfsJumps d e rest acc
    else
      match tnode.triggers with
      | [] => dfsJumps d e rest acc
      | trg :: _ =>
        match execCmdsE (grantOptW e.state trg.condition) tnode.commands with
        | .error _ => .error ()
        | .ok st2 => dfsJumps d e rest (acc ++ [(tid, st2, e.used ++ [tid])])

/-- Push the shuffled `next_states` (lines 456-466): Python appends and
pops from the end of `stack`; the model's stack head is the top, so each
append becomes a cons and the last-pushed element is popped first. -/
def dfsPush (e : BEntry) :
    List (String × WebGameState × List String) → List BEntry → List Sig →
    List BEntry × List Sig
  | [], stack, visited => (stack, visited)
  | (n, st, us) :: rest, stack, visited =>
    let sg := mkSig n st
    if inVisited visited sg then dfsPush e rest stack visited
    else dfsPush e rest (⟨n, e.path ++ [n], st, us⟩ :: stack) (visited ++ [sg])

/-- The `while stack` loop of the randomized DFS (lines 402-466);
`k` counts the shuffle calls made so far. -/
def dfsLoop (d : EDialogue) (target : String) (tnodes : List (String × ENode))
    (oracle : Nat → List Nat) :
    Nat → Nat → List BEntry → List Sig → PathRes
  | 0, _, _, _ => .fuelOut
  | _ + 1, _, [], _ => .exhausted
  | fuel + 1, k, e :: srest, visited =>
    if e.node = target then .found e.path e.state
    else
      match lookupNode e.node d.nodes with
      | none => dfsLoop d target tnodes oracle fuel k srest visited
      | some node =>
        match dfsChoices d target e node.choices [] with
        | .ret p st => .found p st
        | .err => .stErr
        | .cont acc1 =>
          match (if node.is_end then dfsJumps d e tnodes acc1 else .ok acc1) with
          | .error _ => .stErr
          | .ok acc2 =>
            let (stack', visited') := dfsPush e (applyPerm (oracle k) acc2) srest visited
            dfsLoop d target tnodes oracle fuel (k + 1) stack' visited'

/-- `find_random_path_to_node` with explicit fuel and shuffle oracle. -/
def findRandomPathE (fuel : Nat) (oracle : Nat → List Nat) (d : EDialogue)
    (target : String) : PathRes :=
  match enginePrep d target with
  | .inl r => r
  | .inr (e0, v0) => dfsLoop d target (triggerNodes d) oracle fuel 0 [e0] v0

/-! ## `find_exploratory_path_to_node` — score-biased depth-first search
(web/app.py lines 471-607)

The `random.random() * 3` jitter draws are modelled by an oracle giving
the `k`-th draw as a rational, and the final `random.choice` by a single
picked index.  The loop is bounded by the source's own
`max_iterations = 10000`; the collected-path cap is the source's 20. -/

/-- A collected `(path, state)` pair. -/
abbrev EPath := List String × WebGameState

/-- A scored candidate `(score, next_node, new_state, new_used)`. -/
abbrev Scored := ℚ × String × WebGameState × List String

/-- The scored choice loop (lines 536-561).  A satisfied choice to `"END"`
*appends* `path + ["END"]` to `all_paths` when the target is `"END"` and
continues; a satisfied choice to a real node scores
`2·lines + choices + commands + jitter` and runs the node's commands.
Returns the updated jitter counter, candidates and collected paths. -/
def expChoices (d : EDialogue) (target : String) (e : BEntry) (oj : Nat → ℚ) :
    List EChoice → Nat → List Scored → List EPath →
    Except Unit (Nat × List Scored × List EPath)
  | [], k, acc, paths => .ok (k, acc, paths)
  | ch :: rest, k, acc, paths =>
    if !evalCondOptW e.state ch.condition then expChoices d target e oj rest k acc paths
    else if ch.target = "END" then
      if target = "END" then
        expChoices d target e oj rest k acc (paths ++ [(e.path ++ ["END"], e.state)])
      else expChoices d target e oj rest k acc paths
    else
      match lookupNode ch.target d.nodes with
      | none => expChoices d target e oj rest k acc paths
      | some nnode =>
        let score : ℚ := 2 * nnode.linesCount + nnode.choices.length
          + nnode.commands.length + oj k
        match execCmdsE e.state nnode.commands with
        | .error _ => .error ()
        | .ok st' =>
          expChoices d target e oj rest (k + 1)
            (acc ++ [(score, ch.target, st', e.used)]) paths

/-- The scored trigger-jump loop (lines 564-583): first trigger only,
score `2·lines + choices + 5 + jitter` (no command term). -/
def expJumps (d : EDialogue) (e : BEntry) (oj : Nat → ℚ) :
    List (String × ENode) → Nat → List Scored →
    Except Unit (Nat × List Scored)
  | [], k, acc => .ok (k, acc)
  | (tid, tnode) :: rest, k, acc =>
    if tid ∈ e.used then expJumps d e oj rest k acc
    else
      match tnode.triggers with
      | [] => expJumps d e oj rest k acc
      | trg :: _ =>
        match execCmdsE (grantOptW e.state trg.condition) tnode.commands with
        | .error _ => .error ()
        | .ok st2 =>
          let score : ℚ := 2 * tnode.linesCount + tnode.choices.length + 5 + oj k
          expJumps d e oj rest (k + 1) (acc ++ [(score, tid, st2, e.used ++ [tid])])

/-- Insert into an ascending-by-score list, after equal scores (so the
fold below is a stable ascending sort, extensionally equal to Python's
stable `list.sort(key=lambda x: x[0])`). -/
def insAsc (x : Scored) : List Scored → List Scored
  | [] => [x]
  | y :: rest => if x.1 < y.1 then x :: y :: rest else y :: insAsc x rest

/-- Stable ascending sort by score (line 586). -/
def sortAsc (l : List Scored) : List Scored :=
  l.foldl (fun acc x => insAsc x acc) []

/-- Push the sorted candidates (lines 588-598); identical logic to
`dfsPush` but without a preceding shuffle. -/
def expPush (e : BEntry) :
    List Scored → List BEntry → List Sig → List BEntry × List Sig
  | [], stack, visited => (stack, visited)
  | (_, n, st, us) :: rest, stack, visited =>
    let sg := mkSig n st
    if inVisited visited sg then expPush e rest stack visited
    else expPush e rest (⟨n, e.path ++ [n], st, us⟩ :: stack) (visited ++ [sg])

/-- The bounded `while stack and iterations < max_iterations` loop
(lines 516-598); the fuel *is* the source's remaining iteration budget.
A popped target appends `(path, state)` to `all_paths` and continues,
breaking at 20 collected paths. -/
def expLoop (d : EDialogue) (target : String) (tnodes : List (String × ENode))
    (oj : Nat → ℚ) :
    Nat → Nat → List BEntry → List Sig → List EPath →
    Except Unit (List EPath)
  | 0, _, _, _, paths => .ok paths
  | _ + 1, _, [], _, paths => .ok paths
  | fuel + 1, k, e :: srest, visited, paths =>
    if e.node = target then
      let paths' := paths ++ [(e.path, e.state)]
      if 20 ≤ paths'.length then .ok paths'
      else expLoop d target tnodes oj fuel k srest visited paths'
    else
      match lookupNode e.node d.nodes with
      | none => expLoop d target tnodes oj fuel k srest visited paths
      | some node =>
        match expChoices d target e oj node.choices k [] paths with
        | .error _ => .error ()
        | .ok (k1, acc1, paths1) =>
          match (if node.is_end then expJumps d e oj tnodes k1 acc1 else .ok (k1, acc1)) with
          | .error _ => .error ()
          | .ok (k2, acc2) =>
            let (stack', visited') := expPush e (sortAsc acc2) srest visited
            expLoop d target tnodes oj fuel k2 stack' visited' paths1

/-- Insert into a descending-by-path-length list, after equal lengths
(stable, matching `all_paths.sort(key=lambda x: len(x[0]), reverse=True)`,
which keeps the original order of equal keys). -/
def insDesc (x : EPath) : List EPath → List EPath
  | [] => [x]
  | y :: rest =>
    if y.1.length < x.1.length then x :: y :: rest else y :: insDesc x rest

/-- Stable descending sort by path length (line 604). -/
def sortDesc (l : List EPath) : List EPath :=
  l.foldl (fun acc x => insDesc x acc) []

/-- `find_exploratory_path_to_node`: run the bounded search, then pick —
via the `pick` oracle — one path from the longest half
(`all_paths[: max(1, len(all_paths) // 2)]` after the descending sort). -/
def findExplorePathE (oj : Nat → ℚ) (pick : Nat) (d : EDialogue)
    (target : String) : PathRes :=
  match enginePrep d target with
  | .inl r => r
  | .inr (e0, v0) =>
    match expLoop d target (triggerNodes d) oj 10000 0 [e0] v0 [] with
    | .error _ => .stErr
    | .ok paths =>
      if paths.isEmpty then .exhausted
      else
        let tophalf := (sortDesc paths).take (max 1 (paths.length / 2))
        match tophalf[pick % tophalf.length]? with
        | some (p, st) => .found p st
        | none => .exhausted

/-! ## The replay walk (web/app.py `/api/replay-path`, lines 1067-1123)

The route walks a recorded path: unknown node ids are skipped, each known
node's commands are executed, and when the next path element matches some
choice's target whose condition does not currently hold, the condition is
granted.  An uncaught exception (the `add`/`sub` `TypeError`) makes the
route return an error response instead of `(path, state)`. -/

/-- The choice-matching half of one replay step (lines 1106-1116): when
the path continues, the first choice whose target is the next path
element has its condition granted if it does not currently hold. -/
def replayStepState (node : ENode) (st1 : WebGameState) : List String → WebGameState
  | [] => st1
  | nxt :: _ =>
    match node.choices.find? (fun ch => ch.target = nxt) with
    | none => st1
    | some ch =>
      match ch.condition with
      | none => st1
      | some c => if evalCondW st1 c then st1 else grantW st1 c

/-- The `for i, node_id in enumerate(path)` walk (lines 1095-1116). -/
def replayWalk (d : EDialogue) : WebGameState → List String →
    Except Unit WebGameState
  | st, [] => .ok st
  | st, nid :: rest =>
    match lookupNode nid d.nodes with
    | none => replayWalk d st rest
    | some node =>
      match execCmdsE st node.commands with
      | .error _ => .error ()
      | .ok st1 => replayWalk d (replayStepState node st1 rest) rest

/-- The whole route body: an empty path is rejected with an error response
(line 1080-1081); otherwise initialize from `[state]` and walk. -/
def replayPathE (d : EDialogue) (path : List String) :
    Except Unit (List String × WebGameState) :=
  if path.isEmpty then .error ()
  else
    match execCmdsE ⟨[], [], []⟩ d.initial_state with
    | .error _ => .error ()
    | .ok st0 =>
      match replayWalk d st0 path with
      | .error _ => .error ()
      | .ok st => .ok (path, st)

/-! ## Association-list lemmas -/

theorem alookup_append_left {k : String} {l1 l2 : List (String × PyVal)} {v : PyVal}
    (h : alookup k l1 = some v) : alookup k (l1 ++ l2) = some v := by
  induction l1 with
  | nil => simp [alookup] at h
  | cons p rest ih =>
    simp only [alookup, List.cons_append] at h ⊢
    split at h
    · next heq => simp [heq] at h ⊢; exact h
    · next heq => simp only [heq, if_false] at h ⊢; exact ih h

theorem alookup_append_none {k : String} {l1 l2 : List (String × PyVal)}
    (h : alookup k l1 = none) : alookup k (l1 ++ l2) = alookup k l2 := by
  induction l1 with
  | nil => simp
  | cons p rest ih =>
    simp only [alookup, List.cons_append] at h ⊢
    split at h
    · exact absurd h (by simp)
    · next heq => simp only [heq, if_false]; exact ih h

theorem alookup_aset_self (k : String) (v : PyVal) (l : List (String × PyVal)) :
    alookup k (aset k v l) = some v := by
  induction l with
  | nil => simp [aset, alookup]
  | cons p rest ih =>
    by_cases h : p.1 = k
    · simp [aset, alookup, h]
    · simp [aset, alookup, h, ih]

theorem alookup_aset_ne {k k' : String} (hne : k ≠ k') (v : PyVal)
    (l : List (String × PyVal)) : alookup k (aset k' v l) = alookup k l := by
  have hke : ¬(k' = k) := fun h => hne h.symm
  induction l with
  | nil => simp [aset, alookup, hke]
  | cons p rest ih =>
    by_cases h : p.1 = k'
    · simp [aset, alookup, h, hke]
    · simp only [aset, if_neg h, alookup, ih]

theorem mem_addSet_self (x : String) (l : List String) : x ∈ addSet x l := by
  by_cases h : x ∈ l <;> simp [addSet, h]

theorem mem_addSet_of_mem {x : String} (y : String) {l : List String}
    (h : x ∈ l) : x ∈ addSet y l := by
  by_cases hy : y ∈ l <;> simp [addSet, hy, h]

/-- `ctxDefaultsW` only appends fresh default bindings after the variable
mapping, and never binds the names `inventory` or `companions`. -/
theorem ctxDefaultsW_extras (s : WebGameState) (c : Cond) :
    ∃ extras, ctxDefaultsW s c = s.vars ++ extras ∧
      alookup "inventory" extras = none ∧ alookup "companions" extras = none := by
  unfold ctxDefaultsW
  generalize c.negVars = vs
  induction vs generalizing s with
  | nil => exact ⟨[], by simp [alookup]⟩
  | cons v rest ih =>
    simp only [List.foldl_cons]
    by_cases hskip : (alookup v s.vars).isSome = true ∨ v = "inventory" ∨ v = "companions"
    · have : (if (alookup v s.vars).isSome || v = "inventory" || v = "companions"
          then s.vars else s.vars ++ [(v, PyVal.bool false)]) = s.vars := by
        rcases hskip with h | h | h <;> simp [h]
      rw [this]; exact ih s
    · push_neg at hskip
      obtain ⟨h1, h2, h3⟩ := hskip
      have : (if (alookup v s.vars).isSome || v = "inventory" || v = "companions"
          then s.vars else s.vars ++ [(v, PyVal.bool false)])
          = s.vars ++ [(v, PyVal.bool false)] := by
        simp [h1, h2, h3]
      rw [this]
      obtain ⟨extras, heq, hinv, hcomp⟩ :=
        ih { s with vars := s.vars ++ [(v, PyVal.bool false)] }
      refine ⟨(v, PyVal.bool false) :: extras, ?_, ?_, ?_⟩
      · simpa [List.append_assoc] using heq
      · simpa [alookup, h2] using hinv
      · simpa [alookup, h3] using hcomp

/-! ## Grant-then-evaluate machinery (claim C1)

`grantOkB` collects sufficient, decidable conditions under which
`grant_condition(c)` followed by `evaluate_condition(c)` yields true; the
excluded cases genuinely fail on the code (see the C1 counterexample). -/

/-- The variable a variable atom's grant writes. -/
def varSubject : Cond → Option String
  | .flag x | .neg x | .lt x _ | .le x _ | .gt x _ | .ge x _
  | .eqB x _ | .eqI x _ | .eqS x _ | .neq x _ => some x
  | _ => none

/-- An identifier that does not shadow the two built-in context names. -/
def plainB (x : String) : Bool := !(x = "inventory" || x = "companions")

/-- `x` currently has a value in the variable mapping. -/
def hasKeyB (x : String) (s : WebGameState) : Bool := (alookup x s.vars).isSome

/-- Grant-then-evaluate succeeds for this single atom in this state:
`<`/`<=` need the variable present (grant is a no-op on an absent
variable that already satisfies the comparison against the default 0,
after which evaluation hits an unbound name), `>=` additionally works
when the bound is at least 1, and `== true/false`, `==` with a string
literal and `!=` always fail (the literal is evaluated as a Python
name, or the rewrite breaks the syntax). -/
def atomOkB (s : WebGameState) : Cond → Bool
  | .flag x => plainB x
  | .neg x => plainB x
  | .hasItem _ => !hasKeyB "inventory" s
  | .companion _ => !hasKeyB "companions" s
  | .gt x _ => plainB x
  | .ge x n => plainB x && (hasKeyB x s || decide (1 ≤ n))
  | .lt x n => plainB x && (hasKeyB x s || decide (n = 0))
  | .le x _ => plainB x && hasKeyB x s
  | .eqI x _ => plainB x
  | _ => false

/-- Not an `&&` / `||` node. -/
def isAtomB : Cond → Bool
  | .and _ _ | .or _ _ => false
  | _ => true

/-- The two atoms' grants do not write the same variable. -/
def clashFreeB (a b : Cond) : Bool :=
  match varSubject a, varSubject b with
  | some x, some y => decide (x ≠ y)
  | _, _ => true

/-- No `&&` anywhere (an `&&` inside the second `||` operand would be
granted too, because `grant_condition` splits on `&&` before `||`). -/
def noAndB : Cond → Bool
  | .and _ _ => false
  | .or a b => noAndB a && noAndB b
  | _ => true

/-- The hypothesis of the amended claim C1: a good atom; a conjunction of
two good atoms granting distinct variables; or a disjunction whose first
operand is a good atom and whose second operand contains no `&&` and no
`!=`. -/
def grantOkB (s : WebGameState) : Cond → Bool
  | .and a b =>
    isAtomB a && isAtomB b && atomOkB s a && atomOkB (grantAtom s a) b && clashFreeB a b
  | .or a b => isAtomB a && atomOkB s a && noAndB b && !b.containsNeq
  | c => atomOkB s c

/-- What the grant of a good atom establishes in the state: exactly the
facts that make the atom evaluate true. -/
def Est : Cond → WebGameState → Prop
  | .flag x, s => ∃ v, alookup x s.vars = some v ∧ truthy (.ofVal v) = true
  | .neg x, s => ∃ v, alookup x s.vars = some v ∧ truthy (.ofVal v) = false
  | .hasItem i, s => i ∈ s.inventory ∧ alookup "inventory" s.vars = none
  | .companion n, s => n ∈ s.companions ∧ alookup "companions" s.vars = none
  | .lt x n, s => ∃ v m, alookup x s.vars = some v ∧ v.asNum = some m ∧ m < (n : Int)
  | .le x n, s => ∃ v m, alookup x s.vars = some v ∧ v.asNum = some m ∧ m ≤ (n : Int)
  | .gt x n, s => ∃ v m, alookup x s.vars = some v ∧ v.asNum = some m ∧ (n : Int) < m
  | .ge x n, s => ∃ v m, alookup x s.vars = some v ∧ v.asNum = some m ∧ (n : Int) ≤ m
  | .eqI x n, s => alookup x s.vars = some (.int n)
  | _, _ => False

theorem grantAtom_est {s : WebGameState} {a : Cond} (h : atomOkB s a = true) :
    Est a (grantAtom s a) := by
  cases a with
  | flag x => exact ⟨.bool true, alookup_aset_self x _ _, rfl⟩
  | neg x => exact ⟨.bool false, alookup_aset_self x _ _, rfl⟩
  | hasItem i =>
    refine ⟨mem_addSet_self i _, ?_⟩
    show alookup "inventory" s.vars = none
    simp only [atomOkB, hasKeyB, Bool.not_eq_true'] at h
    exact Option.not_isSome_iff_eq_none.mp (by simp [h])
  | companion n =>
    refine ⟨mem_addSet_self n _, ?_⟩
    show alookup "companions" s.vars = none
    simp only [atomOkB, hasKeyB, Bool.not_eq_true'] at h
    exact Option.not_isSome_iff_eq_none.mp (by simp [h])
  | ge x n =>
    simp only [atomOkB, Bool.and_eq_true, Bool.or_eq_true, hasKeyB, decide_eq_true_eq] at h
    show Est (.ge x n) _
    simp only [grantAtom]
    split
    · exact ⟨.int n, n, alookup_aset_self x _ _, rfl, le_refl _⟩
    · rename_i m hcur
      split
      · exact ⟨.int n, n, alookup_aset_self x _ _, rfl, le_refl _⟩
      · rename_i hlt
        push_neg at hlt
        rcases hx : alookup x s.vars with _ | v
        · exfalso
          rw [hx] at hcur
          simp only [Option.getD_none, PyVal.asNum, Option.some.injEq] at hcur
          rcases h.2 with hk | hn
          · rw [hx] at hk; simp at hk
          · omega
        · rw [hx] at hcur
          exact ⟨v, m, hx, hcur, hlt⟩
  | gt x n =>
    show Est (.gt x n) _
    simp only [grantAtom]
    split
    · exact ⟨.int ((n : Int) + 1), (n : Int) + 1, alookup_aset_self x _ _, rfl, by omega⟩
    · rename_i m hcur
      split
      · exact ⟨.int ((n : Int) + 1), (n : Int) + 1, alookup_aset_self x _ _, rfl, by omega⟩
      · rename_i hle
        push_neg at hle
        rcases hx : alookup x s.vars with _ | v
        · exfalso
          rw [hx] at hcur
          simp only [Option.getD_none, PyVal.asNum, Option.some.injEq] at hcur
          omega
        · rw [hx] at hcur
          exact ⟨v, m, hx, hcur, hle⟩
  | lt x n =>
    simp only [atomOkB, Bool.and_eq_true, Bool.or_eq_true, hasKeyB, decide_eq_true_eq] at h
    show Est (.lt x n) _
    simp only [grantAtom]
    split
    · exact ⟨.int ((n : Int) - 1), (n : Int) - 1, alookup_aset_self x _ _, rfl, by omega⟩
    · rename_i m hcur
      split
      · exact ⟨.int ((n : Int) - 1), (n : Int) - 1, alookup_aset_self x _ _, rfl, by omega⟩
      · rename_i hge
        push_neg at hge
        rcases hx : alookup x s.vars with _ | v
        · exfalso
          rw [hx] at hcur
          simp only [Option.getD_none, PyVal.asNum, Option.some.injEq] at hcur
          rcases h.2 with hk | hn
          · rw [hx] at hk; simp at hk
          · omega
        · rw [hx] at hcur
          exact ⟨v, m, hx, hcur, hge⟩
  | le x n =>
    simp only [atomOkB, Bool.and_eq_true, hasKeyB] at h
    show Est (.le x n) _
    simp only [grantAtom]
    split
    · exact ⟨.int n, n, alookup_aset_self x _ _, rfl, le_refl _⟩
    · rename_i m hcur
      split
      · exact ⟨.int n, n, alookup_aset_self x _ _, rfl, le_refl _⟩
      · rename_i hgt
        push_neg at hgt
        rcases hx : alookup x s.vars with _ | v
        · exfalso; rw [hx] at h; simp at h
        · rw [hx] at hcur
          exact ⟨v, m, hx, hcur, hgt⟩
  | eqI x n => exact alookup_aset_self x _ _
  | eqB x b => simp [atomOkB] at h
  | eqS x lit => simp [atomOkB] at h
  | neq x lit => simp [atomOkB] at h
  | and a b => simp [atomOkB] at h
  | or a b => simp [atomOkB] at h

/-- An established atom evaluates to a truthy value under the context
`s.vars` extended by any defaulted bindings that avoid the two built-in
names. -/
theorem est_eval {a : Cond} {s : WebGameState} (hest : Est a s)
    {extras : List (String × PyVal)}
    (hinv : alookup "inventory" extras = none)
    (hcomp : alookup "companions" extras = none) :
    ∃ r, evalRun (s.vars ++ extras) s.inventory s.companions a = some r ∧
      truthy r = true := by
  cases a with
  | flag x =>
    obtain ⟨v, hx, ht⟩ := hest
    exact ⟨.ofVal v, by simp [evalRun, lookupName, alookup_append_left hx], ht⟩
  | neg x =>
    obtain ⟨v, hx, ht⟩ := hest
    refine ⟨.ofVal (.bool true), ?_, rfl⟩
    simp [evalRun, lookupName, alookup_append_left hx, Option.bind, ht]
  | hasItem i =>
    obtain ⟨hmem, hnone⟩ := hest
    refine ⟨.ofVal (.bool true), ?_, rfl⟩
    simp [evalRun, lookupName, alookup_append_none hnone, hinv, pyIn, hmem]
  | companion n =>
    obtain ⟨hmem, hnone⟩ := hest
    refine ⟨.ofVal (.bool true), ?_, rfl⟩
    simp [evalRun, lookupName, alookup_append_none hnone, hcomp, pyIn, hmem]
  | lt x n =>
    obtain ⟨v, m, hx, hnum, hrel⟩ := hest
    refine ⟨.ofVal (.bool true), ?_, rfl⟩
    simp [evalRun, cmpName, lookupName, alookup_append_left hx, RVal.asNum, hnum, hrel]
  | le x n =>
    obtain ⟨v, m, hx, hnum, hrel⟩ := hest
    refine ⟨.ofVal (.bool true), ?_, rfl⟩
    simp [evalRun, cmpName, lookupName, alookup_append_left hx, RVal.asNum, hnum, hrel]
  | gt x n =>
    obtain ⟨v, m, hx, hnum, hrel⟩ := hest
    refine ⟨.ofVal (.bool true), ?_, rfl⟩
    simp [evalRun, cmpName, lookupName, alookup_append_left hx, RVal.asNum, hnum, hrel]
  | ge x n =>
    obtain ⟨v, m, hx, hnum, hrel⟩ := hest
    refine ⟨.ofVal (.bool true), ?_, rfl⟩
    simp [evalRun, cmpName, lookupName, alookup_append_left hx, RVal.asNum, hnum, hrel]
  | eqI x n =>
    refine ⟨.ofVal (.bool true), ?_, rfl⟩
    simp [evalRun, lookupName, alookup_append_left hest, pyEq, PyVal.asNum]
  | eqB x b => exact absurd hest (by simp [Est])
  | eqS x lit => exact absurd hest (by simp [Est])
  | neq x lit => exact absurd hest (by simp [Est])
  | and a b => exact absurd hest (by simp [Est])
  | or a b => exact absurd hest (by simp [Est])

/-- Establishment survives a write to a different, plain variable. -/
theorem est_aset {a : Cond} {s : WebGameState} (hest : Est a s) {y : String}
    (v : PyVal) (hsub : ∀ x, varSubject a = some x → y ≠ x)
    (hy : plainB y = true) :
    Est a { s with vars := aset y v s.vars } := by
  simp only [plainB, Bool.not_eq_true', Bool.or_eq_false_iff, decide_eq_false_iff_not] at hy
  cases a with
  | flag x =>
    obtain ⟨w, hx, ht⟩ := hest
    exact ⟨w, by rw [show (alookup x (aset y v s.vars)) = alookup x s.vars from
      alookup_aset_ne (fun h => hsub x rfl h.symm) v s.vars]; exact hx, ht⟩
  | neg x =>
    obtain ⟨w, hx, ht⟩ := hest
    exact ⟨w, by rw [alookup_aset_ne (fun h => hsub x rfl h.symm) v s.vars]; exact hx, ht⟩
  | hasItem i =>
    obtain ⟨hmem, hnone⟩ := hest
    refine ⟨hmem, ?_⟩
    rw [alookup_aset_ne (fun h => hy.1 (h.symm)) v s.vars]
    exact hnone
  | companion n =>
    obtain ⟨hmem, hnone⟩ := hest
    refine ⟨hmem, ?_⟩
    rw [alookup_aset_ne (fun h => hy.2 (h.symm)) v s.vars]
    exact hnone
  | lt x n =>
    obtain ⟨w, m, hx, hnum, hrel⟩ := hest
    exact ⟨w, m, by rw [alookup_aset_ne (fun h => hsub x rfl h.symm) v s.vars]; exact hx,
      hnum, hrel⟩
  | le x n =>
    obtain ⟨w, m, hx, hnum, hrel⟩ := hest
    exact ⟨w, m, by rw [alookup_aset_ne (fun h => hsub x rfl h.symm) v s.vars]; exact hx,
      hnum, hrel⟩
  | gt x n =>
    obtain ⟨w, m, hx, hnum, hrel⟩ := hest
    exact ⟨w, m, by rw [alookup_aset_ne (fun h => hsub x rfl h.symm) v s.vars]; exact hx,
      hnum, hrel⟩
  | ge x n =>
    obtain ⟨w, m, hx, hnum, hrel⟩ := hest
    exact ⟨w, m, by rw [alookup_aset_ne (fun h => hsub x rfl h.symm) v s.vars]; exact hx,
      hnum, hrel⟩
  | eqI x n =>
    rw [show Est (.eqI x n) _ = _ from rfl]
    show alookup x (aset y v s.vars) = some (.int n)
    rw [alookup_aset_ne (fun h => hsub x rfl h.symm) v s.vars]
    exact hest
  | eqB x b => exact absurd hest (by simp [Est])
  | eqS x lit => exact absurd hest (by simp [Est])
  | neq x lit => exact absurd hest (by simp [Est])
  | and a b => exact absurd hest (by simp [Est])
  | or a b => exact absurd hest (by simp [Est])

/-- Establishment survives adding an item to the inventory. -/
theorem est_addInv {a : Cond} {s : WebGameState} (hest : Est a s) (i : String) :
    Est a { s with inventory := addSet i s.inventory } := by
  cases a <;> first
    | exact hest
    | exact hest.elim
    | exact ⟨mem_addSet_of_mem i hest.1, hest.2⟩

/-- Establishment survives adding a companion. -/
theorem est_addComp {a : Cond} {s : WebGameState} (hest : Est a s) (n : String) :
    Est a { s with companions := addSet n s.companions } := by
  cases a <;> first
    | exact hest
    | exact hest.elim
    | exact ⟨mem_addSet_of_mem n hest.1, hest.2⟩

/-- Establishment of `a` survives granting a clash-free good atom `b`. -/
theorem est_grantAtom {a b : Cond} {s : WebGameState} (hest : Est a s)
    (hb : atomOkB s b = true) (hcf : clashFreeB a b = true) :
    Est a (grantAtom s b) := by
  have hsub : ∀ x y, varSubject a = some x → varSubject b = some y → y ≠ x := by
    intro x y hx hy heq
    rw [clashFreeB, hx, hy] at hcf
    simp at hcf
    exact hcf (heq ▸ rfl)
  cases b with
  | flag y =>
    simp only [atomOkB] at hb
    exact est_aset hest _ (fun x hx => hsub x y hx rfl) hb
  | neg y =>
    simp only [atomOkB] at hb
    exact est_aset hest _ (fun x hx => hsub x y hx rfl) hb
  | hasItem i => exact est_addInv hest i
  | companion n => exact est_addComp hest n
  | ge y n =>
    simp only [atomOkB, Bool.and_eq_true] at hb
    show Est a (grantAtom s (.ge y n))
    simp only [grantAtom]
    split
    · exact est_aset hest _ (fun x hx => hsub x y hx rfl) hb.1
    · split
      · exact est_aset hest _ (fun x hx => hsub x y hx rfl) hb.1
      · exact hest
  | gt y n =>
    simp only [atomOkB] at hb
    show Est a (grantAtom s (.gt y n))
    simp only [grantAtom]
    split
    · exact est_aset hest _ (fun x hx => hsub x y hx rfl) hb
    · split
      · exact est_aset hest _ (fun x hx => hsub x y hx rfl) hb
      · exact hest
  | lt y n =>
    simp only [atomOkB, Bool.and_eq_true] at hb
    show Est a (grantAtom s (.lt y n))
    simp only [grantAtom]
    split
    · exact est_aset hest _ (fun x hx => hsub x y hx rfl) hb.1
    · split
      · exact est_aset hest _ (fun x hx => hsub x y hx rfl) hb.1
      · exact hest
  | le y n =>
    simp only [atomOkB, Bool.and_eq_true] at hb
    show Est a (grantAtom s (.le y n))
    simp only [grantAtom]
    split
    · exact est_aset hest _ (fun x hx => hsub x y hx rfl) hb.1
    · split
      · exact est_aset hest _ (fun x hx => hsub x y hx rfl) hb.1
      · exact hest
  | eqI y n =>
    simp only [atomOkB] at hb
    exact est_aset hest _ (fun x hx => hsub x y hx rfl) hb
  | eqB y v => simp [atomOkB] at hb
  | eqS y lit => simp [atomOkB] at hb
  | neq y lit => simp [atomOkB] at hb
  | and p q => simp [atomOkB] at hb
  | or p q => simp [atomOkB] at hb

/-- A good atom is not a `!=` atom. -/
theorem atomOk_containsNeq {s : WebGameState} {c : Cond}
    (h : atomOkB s c = true) : c.containsNeq = false := by
  cases c <;> simp_all [atomOkB, Cond.containsNeq]

theorem grantedAtoms_of_atom {c : Cond} (h : isAtomB c = true) :
    c.grantedAtoms = [c] := by
  cases c <;> simp_all [isAtomB, Cond.grantedAtoms]

theorem grantedAtoms_noAnd {c : Cond} (h : noAndB c = true) :
    ∃ h₀, c.grantedAtoms = [h₀] := by
  induction c with
  | and a b => simp [noAndB] at h
  | or a b iha ihb =>
    simp only [noAndB, Bool.and_eq_true] at h
    obtain ⟨ha, hla⟩ := iha h.1
    obtain ⟨hb, hlb⟩ := ihb h.2
    exact ⟨ha, by simp [Cond.grantedAtoms, hla, hlb]⟩
  | _ => exact ⟨_, rfl⟩

/-- Established truth of the whole condition at a state: evaluation after
the defaulting pass is truthy. -/
theorem evalCondW_of_est {c : Cond} {s : WebGameState}
    (hneq : c.containsNeq = false) (hest : Est c s) : evalCondW s c = true := by
  obtain ⟨extras, heq, hinv, hcomp⟩ := ctxDefaultsW_extras s c
  obtain ⟨r, hr, ht⟩ := est_eval hest hinv hcomp
  unfold evalCondW
  rw [hneq, if_neg (by simp), heq, hr]
  exact ht

/-- A conjunction of two established atoms evaluates true. -/
theorem evalCondW_and_of_est {a b : Cond} {s' : WebGameState}
    (hna : a.containsNeq = false) (hnb : b.containsNeq = false)
    (ha : Est a s') (hb : Est b s') : evalCondW s' (.and a b) = true := by
  obtain ⟨extras, heq, hinv, hcomp⟩ := ctxDefaultsW_extras s' (.and a b)
  obtain ⟨ra, hra, hta⟩ := est_eval ha hinv hcomp
  obtain ⟨rb, hrb, htb⟩ := est_eval hb hinv hcomp
  unfold evalCondW
  rw [show (Cond.and a b).containsNeq = false by simp [Cond.containsNeq, hna, hnb],
    if_neg (by simp), heq]
  have hand : evalRun (s'.vars ++ extras) s'.inventory s'.companions (.and a b)
      = some rb := by
    rw [show evalRun (s'.vars ++ extras) s'.inventory s'.companions (.and a b)
        = (evalRun (s'.vars ++ extras) s'.inventory s'.companions a).bind
          (fun va => if truthy va then
            evalRun (s'.vars ++ extras) s'.inventory s'.companions b
          else pure va) from rfl]
    rw [hra]
    simp [hta, hrb]
  rw [hand]
  exact htb

/-- A disjunction whose first operand is established evaluates true
(Python's `or` short-circuits, so the second operand is never
evaluated). -/
theorem evalCondW_or_of_est {a b : Cond} {s' : WebGameState}
    (hna : a.containsNeq = false) (hnb : b.containsNeq = false)
    (ha : Est a s') : evalCondW s' (.or a b) = true := by
  obtain ⟨extras, heq, hinv, hcomp⟩ := ctxDefaultsW_extras s' (.or a b)
  obtain ⟨ra, hra, hta⟩ := est_eval ha hinv hcomp
  unfold evalCondW
  rw [show (Cond.or a b).containsNeq = false by simp [Cond.containsNeq, hna, hnb],
    if_neg (by simp), heq]
  have hor : evalRun (s'.vars ++ extras) s'.inventory s'.companions (.or a b)
      = some ra := by
    rw [show evalRun (s'.vars ++ extras) s'.inventory s'.companions (.or a b)
        = (evalRun (s'.vars ++ extras) s'.inventory s'.companions a).bind
          (fun va => if truthy va then pure va
          else evalRun (s'.vars ++ extras) s'.inventory s'.companions b) from rfl]
    rw [hra]
    simp [hta]
  rw [hor]
  exact hta

/-- Grant-then-evaluate for a single good atom. -/
theorem grant_eval_atom {s : WebGameState} {c : Cond} (hA : isAtomB c = true)
    (hok : atomOkB s c = true) : evalCondW (grantW s c) c = true := by
  rw [show grantW s c = grantAtom s c from by
    unfold grantW; rw [grantedAtoms_of_atom hA]; rfl]
  exact evalCondW_of_est (atomOk_containsNeq hok) (grantAtom_est hok)

/-- **C1 (counterexample).**  The claim as stated fails: on the empty
state, `grant_condition("gold < 10")` is a no-op (the default 0 already
satisfies `0 < 10`, so the `<` branch does not assign), and
`evaluate_condition("gold < 10")` then hits an unbound name and returns
false — not true. -/
theorem claim_C1_counterexample :
    evalCondW (grantW ⟨[], [], []⟩ (.lt "gold" 10)) (.lt "gold" 10) = false := by
  decide

/-- **C1 (amended).**  `grant_condition(c)` followed immediately by
`evaluate_condition(c)` on the same state returns true for: a bare flag,
a negation `!x`, `has_item:X`, `companion:X`, `x > N`, `x == N` with an
integer literal (on every state whose variables do not shadow the names
`inventory`/`companions`); `x >= N` when `x` is present or `N ≥ 1`;
`x < N` when `x` is present or `N = 0`; `x <= N` when `x` is present;
an `&&` of two such atoms granting distinct variables; and an `||` whose
first operand is such an atom and whose second operand contains no `&&`
and no `!=`.  The excluded forms genuinely fail on the code: `<`/`<=` on
an absent variable (see the counterexample), `== true/false` and `==`
with a string literal (the literal is evaluated as an unbound Python
name), `!=` anywhere (the `!`→`not ` rewrite breaks the syntax), an `&&`
inside the second `||` operand (its follower is granted too), and
conflicting conjuncts over one variable. -/
theorem claim_C1_amended (s : WebGameState) (c : Cond)
    (h : grantOkB s c = true) : evalCondW (grantW s c) c = true := by
  cases c with
  | and a b =>
    simp only [grantOkB, Bool.and_eq_true] at h
    obtain ⟨⟨⟨⟨hAa, hAb⟩, ha⟩, hb⟩, hcf⟩ := h
    rw [show grantW s (.and a b) = grantAtom (grantAtom s a) b from by
      unfold grantW
      rw [show (Cond.and a b).grantedAtoms = [a, b] from by
        show a.grantedAtoms ++ b.grantedAtoms = [a, b]
        rw [grantedAtoms_of_atom hAa, grantedAtoms_of_atom hAb]; rfl]
      rfl]
    exact evalCondW_and_of_est (atomOk_containsNeq ha) (atomOk_containsNeq hb)
      (est_grantAtom (grantAtom_est ha) hb hcf) (grantAtom_est hb)
  | or a b =>
    simp only [grantOkB, Bool.and_eq_true, Bool.not_eq_true'] at h
    obtain ⟨⟨⟨hAa, ha⟩, hnb⟩, hbneq⟩ := h
    obtain ⟨h0, hb0⟩ := grantedAtoms_noAnd hnb
    rw [show grantW s (.or a b) = grantAtom s a from by
      unfold grantW
      rw [show (Cond.or a b).grantedAtoms = [a] from by
        show a.grantedAtoms ++ b.grantedAtoms.tail = [a]
        rw [grantedAtoms_of_atom hAa, hb0]; rfl]
      rfl]
    exact evalCondW_or_of_est (atomOk_containsNeq ha) hbneq (grantAtom_est ha)
  | flag x => exact grant_eval_atom rfl h
  | neg x => exact grant_eval_atom rfl h
  | hasItem i => exact grant_eval_atom rfl h
  | companion n => exact grant_eval_atom rfl h
  | lt x n => exact grant_eval_atom rfl h
  | le x n => exact grant_eval_atom rfl h
  | gt x n => exact grant_eval_atom rfl h
  | ge x n => exact grant_eval_atom rfl h
  | eqB x b => exact grant_eval_atom rfl h
  | eqI x n => exact grant_eval_atom rfl h
  | eqS x l => exact grant_eval_atom rfl h
  | neq x l => exact grant_eval_atom rfl h

/-- **C1 (witness).**  A concrete instance of the amended claim: granting
`brave && has_item:sword` on the empty state makes it evaluate true. -/
theorem claim_C1_witness :
    grantOkB ⟨[], [], []⟩ (.and (.flag "brave") (.hasItem "sword")) = true ∧
    evalCondW (grantW ⟨[], [], []⟩ (.and (.flag "brave") (.hasItem "sword")))
      (.and (.flag "brave") (.hasItem "sword")) = true :=
  ⟨by decide, claim_C1_amended _ _ (by decide)⟩

/-- **C2 (counterexample).**  The claim's own example fails on the web
evaluator: `gold < 10` against a state with no `gold` variable evaluates
false, not true (the unbound name raises inside `eval` and the exception
is swallowed as `False`). -/
theorem claim_C2_counterexample :
    evalCondW ⟨[], [], []⟩ (.lt "gold" 10) = false := by decide

/-- **C2 (amended).**  An identifier absent from the state is treated as
false when used as a bare truthy check by *both* evaluators, and neither
raises (all exceptions are swallowed as false).  But the as-0-in-numeric-
comparisons behaviour holds only in the CLI evaluator, which defaults
every undefined identifier to `False` (numerically 0), so `x < N` there
evaluates to `0 < N`; in the web evaluator, which defaults only negated
identifiers, a comparison on an undefined identifier evaluates to false
(`gold < 10` with no `gold` is false). -/
theorem claim_C2_amended (sW : WebGameState) (sC : GameState) (x : String)
    (n : Nat) (hW : alookup x sW.vars = none) (hC : alookup x sC.vars = none)
    (hres : x ∉ cliReserved) :
    evalCondW sW (.flag x) = false ∧
    evalCondC sC (.flag x) = false ∧
    evalCondW sW (.lt x n) = false ∧
    evalCondC sC (.lt x n) = decide ((0 : Int) < (n : Int)) := by
  have hxi : x ≠ "inventory" := fun h => hres (by rw [h]; simp [cliReserved])
  have hxc : x ≠ "companions" := fun h => hres (by rw [h]; simp [cliReserved])
  refine ⟨?_, ?_, ?_, ?_⟩
  · simp [evalCondW, Cond.containsNeq, ctxDefaultsW, Cond.negVars, evalRun,
      lookupName, hW, hxi, hxc]
  · simp [evalCondC, Cond.containsNeq, ctxDefaultsC, Cond.nameOccs, hC, hres,
      evalRun, lookupName, alookup_append_none hC, alookup, truthy]
  · simp [evalCondW, Cond.containsNeq, ctxDefaultsW, Cond.negVars, evalRun,
      cmpName, lookupName, hW, hxi, hxc]
  · simp [evalCondC, Cond.containsNeq, ctxDefaultsC, Cond.nameOccs, hC, hres,
      evalRun, cmpName, lookupName, alookup_append_none hC, alookup,
      RVal.asNum, PyVal.asNum, truthy]

/-- **C2 (witness).**  The amended claim at `x = "gold"`, `N = 10` on
empty states: the web comparison is false, the CLI comparison is
`0 < 10 = true`. -/
theorem claim_C2_witness :
    evalCondW ⟨[], [], []⟩ (.flag "gold") = false ∧
    evalCondC ⟨[], [], [], []⟩ (.flag "gold") = false ∧
    evalCondW ⟨[], [], []⟩ (.lt "gold" 10) = false ∧
    evalCondC ⟨[], [], [], []⟩ (.lt "gold" 10) = decide ((0 : Int) < ((10 : Nat) : Int)) :=
  claim_C2_amended ⟨[], [], []⟩ ⟨[], [], [], []⟩ "gold" 10 rfl rfl (by decide)

/-- **C5.**  The `!=` comparison operator is *not* supported by either
condition evaluator: both first run `condition.replace("!", "not ")`,
which rewrites `x != L` into the syntactically invalid `x not = 5`-style
string; `eval` raises `SyntaxError`, the handler swallows it, and the
condition evaluates false for every state — including states where the
variable differs from the literal, where the claim requires true.  The
parser's own `CONDITION_OPERATORS` table and the spec both list `!=` as a
valid operator, so the evaluator contradicts the code's declared intent. -/
theorem claim_C5_neq_always_false (sW : WebGameState) (sC : GameState)
    (x lit : String) :
    evalCondW sW (.neq x lit) = false ∧ evalCondC sC (.neq x lit) = false := by
  constructor <;> simp [evalCondW, evalCondC, Cond.containsNeq]

/-- **C9.**  A `None` or empty condition evaluates true in both the web
and the CLI evaluator (`if not condition: return True`), so a choice or
dialogue line carrying no condition is always followable/shown whatever
the state's variables, inventory and companions are. -/
theorem claim_C9_no_condition_true (sW : WebGameState) (sC : GameState) :
    evalCondOptW sW none = true ∧ evalCondOptC sC none = true := ⟨rfl, rfl⟩

/-! ## Replay safety (claim C4)

The only raise that can escape the replay walk is the `add`/`sub`
`TypeError` on a string-valued variable (everything else is guarded or
swallowed).  `replaySafeB` rules out string values ever reaching an
`add`/`sub` target: no `set` stores a string and no granted condition
stores one (`x == lit` with a non-numeric, non-boolean literal grants a
raw string). -/

/-- The value is not a Python string. -/
def PyVal.nonStr : PyVal → Bool
  | .str _ => false
  | _ => true

/-- Every stored variable value is a boolean or an integer. -/
def SFL (l : List (String × PyVal)) : Bool := l.all (fun p => p.2.nonStr)

/-- A command that never stores a string. -/
def cmdSafeB : Cmd → Bool
  | .set _ v => v.nonStr
  | _ => true

/-- A condition whose grant never stores a string: none of the atoms the
grant touches is an `== string-literal` atom. -/
def condGrantSafeB : Option Cond → Bool
  | none => true
  | some c => c.grantedAtoms.all (fun a => match a with | .eqS _ _ => false | _ => true)

/-- A dialogue whose replay can never hit the `add`/`sub` `TypeError`:
all `set` commands store booleans/integers and all choice conditions
grant only booleans/integers. -/
def replaySafeB (d : EDialogue) : Bool :=
  d.initial_state.all cmdSafeB &&
  d.nodes.all (fun p =>
    p.2.commands.all cmdSafeB &&
    p.2.choices.all (fun ch => condGrantSafeB ch.condition))

theorem SFL_aset {l : List (String × PyVal)} (h : SFL l = true) {v : PyVal}
    (hv : v.nonStr = true) (k : String) : SFL (aset k v l) = true := by
  induction l with
  | nil => simp [aset, SFL, hv]
  | cons p rest ih =>
    simp only [SFL, List.all_cons, Bool.and_eq_true] at h
    by_cases hk : p.1 = k
    · simp [aset, hk, SFL, hv, h.2]
    · have := ih h.2
      simp only [SFL] at this
      simp [aset, hk, SFL, h.1, this]

theorem SFL_aset_int {l : List (String × PyVal)} (h : SFL l = true)
    (k : String) (n : Int) : SFL (aset k (.int n) l) = true :=
  SFL_aset h (by rfl) k

theorem SFL_aset_bool {l : List (String × PyVal)} (h : SFL l = true)
    (k : String) (b : Bool) : SFL (aset k (.bool b) l) = true :=
  SFL_aset h (by rfl) k

theorem alookup_nonStr {l : List (String × PyVal)} (h : SFL l = true)
    {x : String} {v : PyVal} (hx : alookup x l = some v) : v.nonStr = true := by
  induction l with
  | nil => simp [alookup] at hx
  | cons p rest ih =>
    simp only [SFL, List.all_cons, Bool.and_eq_true] at h
    simp only [alookup] at hx
    split at hx
    · cases hx; exact h.1
    · exact ih h.2 hx

/-- A safe command executes without error on a string-free state and
keeps it string-free. -/
theorem executeCommandE_safe {s : WebGameState} (h : SFL s.vars = true)
    {c : Cmd} (hc : cmdSafeB c = true) :
    ∃ s', executeCommandE s false c = .ok s' ∧ SFL s'.vars = true := by
  cases c with
  | set x v =>
    exact ⟨{ s with vars := aset x v s.vars }, by simp [executeCommandE],
      SFL_aset h hc x⟩
  | add x n =>
    rcases hx : alookup x s.vars with _ | v
    · exact ⟨{ s with vars := aset x (.int (0 + n)) s.vars },
        by simp [executeCommandE, hx], SFL_aset_int h x _⟩
    · have hv := alookup_nonStr h hx
      cases v with
      | bool b =>
        exact ⟨{ s with vars := aset x (.int ((if b then 1 else 0) + n)) s.vars },
          by simp [executeCommandE, hx], SFL_aset_int h x _⟩
      | int m =>
        exact ⟨{ s with vars := aset x (.int (m + n)) s.vars },
          by simp [executeCommandE, hx], SFL_aset_int h x _⟩
      | str t => simp [PyVal.nonStr] at hv
  | sub x n =>
    rcases hx : alookup x s.vars with _ | v
    · exact ⟨{ s with vars := aset x (.int (0 - n)) s.vars },
        by simp [executeCommandE, hx], SFL_aset_int h x _⟩
    · have hv := alookup_nonStr h hx
      cases v with
      | bool b =>
        exact ⟨{ s with vars := aset x (.int ((if b then 1 else 0) - n)) s.vars },
          by simp [executeCommandE, hx], SFL_aset_int h x _⟩
      | int m =>
        exact ⟨{ s with vars := aset x (.int (m - n)) s.vars },
          by simp [executeCommandE, hx], SFL_aset_int h x _⟩
      | str t => simp [PyVal.nonStr] at hv
  | giveItem i => exact ⟨_, rfl, h⟩
  | removeItem i => exact ⟨_, rfl, h⟩
  | addCompanion n => exact ⟨_, rfl, h⟩
  | removeCompanion n => exact ⟨_, rfl, h⟩
  | nop => exact ⟨_, rfl, h⟩

/-- A list of safe commands executes without error on a string-free
state and keeps it string-free. -/
theorem execCmdsE_safe {s : WebGameState} (h : SFL s.vars = true)
    {cs : List Cmd} (hcs : cs.all cmdSafeB = true) :
    ∃ s', execCmdsE s cs = .ok s' ∧ SFL s'.vars = true := by
  induction cs generalizing s with
  | nil => exact ⟨s, rfl, h⟩
  | cons c rest ih =>
    simp only [List.all_cons, Bool.and_eq_true] at hcs
    obtain ⟨s1, hs1, hsf1⟩ := executeCommandE_safe h hcs.1
    obtain ⟨s2, hs2, hsf2⟩ := ih hsf1 hcs.2
    exact ⟨s2, by simp [execCmdsE, hs1, hs2], hsf2⟩

/-- A grant-safe atom keeps the variable mapping string-free. -/
theorem grantAtom_SFL {s : WebGameState} (h : SFL s.vars = true) {a : Cond}
    (ha : (match a with | .eqS _ _ => false | _ => true) = true) :
    SFL (grantAtom s a).vars = true := by
  cases a with
  | eqS x lit => simp at ha
  | flag x => exact SFL_aset_bool h x true
  | neg x => exact SFL_aset_bool h x false
  | hasItem i => exact h
  | companion n => exact h
  | eqB x b => exact SFL_aset_bool h x b
  | eqI x n => exact SFL_aset_int h x n
  | neq x lit => exact h
  | and p q => exact h
  | or p q => exact h
  | ge x n =>
    show SFL (grantAtom s (.ge x n)).vars = true
    simp only [grantAtom]
    split
    · exact SFL_aset_int h x _
    · split
      · exact SFL_aset_int h x _
      · exact h
  | gt x n =>
    show SFL (grantAtom s (.gt x n)).vars = true
    simp only [grantAtom]
    split
    · exact SFL_aset_int h x _
    · split
      · exact SFL_aset_int h x _
      · exact h
  | lt x n =>
    show SFL (grantAtom s (.lt x n)).vars = true
    simp only [grantAtom]
    split
    · exact SFL_aset_int h x _
    · split
      · exact SFL_aset_int h x _
      · exact h
  | le x n =>
    show SFL (grantAtom s (.le x n)).vars = true
    simp only [grantAtom]
    split
    · exact SFL_aset_int h x _
    · split
      · exact SFL_aset_int h x _
      · exact h

/-- A grant-safe condition keeps the variable mapping string-free. -/
theorem grantW_SFL {s : WebGameState} (h : SFL s.vars = true) {c : Cond}
    (hc : condGrantSafeB (some c) = true) : SFL (grantW s c).vars = true := by
  simp only [condGrantSafeB] at hc
  unfold grantW
  generalize hl : c.grantedAtoms = l at hc
  clear hl
  induction l generalizing s with
  | nil => exact h
  | cons a rest ih =>
    simp only [List.all_cons, Bool.and_eq_true] at hc
    exact ih (grantAtom_SFL h hc.1) hc.2

/-- `lookupNode` finds an actual entry of the node list. -/
theorem lookupNode_mem {k : String} {l : List (String × ENode)} {v : ENode}
    (h : lookupNode k l = some v) : (k, v) ∈ l := by
  induction l with
  | nil => simp [lookupNode] at h
  | cons p rest ih =>
    simp only [lookupNode] at h
    split at h
    · next heq => cases h; exact heq ▸ List.mem_cons_self p rest
    · exact List.mem_cons_of_mem p (ih h)

/-- `replayStepState` keeps the state string-free when the node's choice
conditions are grant-safe. -/
theorem replayStepState_SFL {node : ENode} {st1 : WebGameState}
    (h : SFL st1.vars = true)
    (hch : node.choices.all (fun ch => condGrantSafeB ch.condition) = true)
    (rest : List String) : SFL (replayStepState node st1 rest).vars = true := by
  cases rest with
  | nil => exact h
  | cons nxt tail =>
    show SFL (replayStepState node st1 (nxt :: tail)).vars = true
    simp only [replayStepState]
    rcases hfind : node.choices.find? (fun ch => ch.target = nxt) with _ | ch
    · rw [hfind]; exact h
    · rw [hfind]
      show SFL (match ch.condition with
        | none => st1
        | some c => if evalCondW st1 c then st1 else grantW st1 c).vars = true
      have hchmem := List.mem_of_find?_eq_some hfind
      have hchsafe := List.all_eq_true.mp hch _ hchmem
      rcases hcond : ch.condition with _ | c
      · exact h
      · rw [hcond] at hchsafe
        show SFL (if evalCondW st1 c then st1 else grantW st1 c).vars = true
        by_cases hev : evalCondW st1 c = true
        · rw [if_pos hev]; exact h
        · rw [if_neg (by simp [hev])]; exact grantW_SFL h hchsafe

/-- The replay walk of a safe dialogue never errors and keeps the state
string-free. -/
theorem replayWalk_safe {d : EDialogue}
    (hn : d.nodes.all (fun p => p.2.commands.all cmdSafeB &&
      p.2.choices.all (fun ch => condGrantSafeB ch.condition)) = true)
    {s : WebGameState} (h : SFL s.vars = true) (p : List String) :
    ∃ st, replayWalk d s p = .ok st := by
  induction p generalizing s with
  | nil => exact ⟨s, rfl⟩
  | cons nid rest ih =>
    rcases hnode : lookupNode nid d.nodes with _ | node
    · obtain ⟨st, hst⟩ := ih h
      exact ⟨st, by simp only [replayWalk, hnode]; exact hst⟩
    · have hmem := lookupNode_mem hnode
      have hx := List.all_eq_true.mp hn _ hmem
      simp only [Bool.and_eq_true] at hx
      obtain ⟨s1, hs1, hsf1⟩ := execCmdsE_safe h hx.1
      have hsf2 := replayStepState_SFL hsf1 hx.2 rest
      obtain ⟨st, hst⟩ := ih hsf2
      exact ⟨st, by simp only [replayWalk, hnode, hs1]; exact hst⟩

/-- `true` when replay produced a path and state (rather than an error
response). -/
def replayOk (r : Except Unit (List String × WebGameState)) : Bool :=
  match r with
  | .ok _ => true
  | .error _ => false

/-- **C4 (counterexample).**  Replay *can* fail: `[state]` sets `name` to
the string `"bob"` and the walked node runs `add name = 1`; the addition
of a string and an integer raises a `TypeError` that the `except
ValueError` of `execute_command` does not catch, so the route returns an
error response instead of a path and state. -/
theorem claim_C4_counterexample :
    replayOk (replayPathE
      ⟨"n", [("n", { commands := [.add "name" 1] })], [.set "name" (.str "bob")]⟩
      ["n"]) = false := by decide

/-- **C4 (amended).**  For every dialogue whose `set` commands store only
booleans/integers and whose choice conditions grant only
booleans/integers, and every *nonempty* recorded path, the replay
operation never fails: it returns the input path unchanged together with
a reconstructed state, regardless of whether the walked edges' conditions
hold (non-holding conditions are granted, unknown node ids are skipped;
an empty path is rejected by the route with an error response, and an
`add`/`sub` on a string-valued variable raises an uncaught `TypeError` —
see the counterexample). -/
theorem claim_C4_amended (d : EDialogue) (p : List String) (hne : p ≠ [])
    (hsafe : replaySafeB d = true) :
    ∃ st, replayPathE d p = .ok (p, st) := by
  simp only [replaySafeB, Bool.and_eq_true] at hsafe
  obtain ⟨s0, hs0, hsf0⟩ := execCmdsE_safe (s := ⟨[], [], []⟩) rfl hsafe.1
  obtain ⟨st, hst⟩ := replayWalk_safe hsafe.2 hsf0 p
  refine ⟨st, ?_⟩
  unfold replayPathE
  rw [if_neg (by simp [hne]), hs0]
  show (match replayWalk d s0 p with
    | .error _ => (.error () : Except Unit (List String × WebGameState))
    | .ok st => .ok (p, st)) = .ok (p, st)
  rw [hst]

/-- **C4 (witness).**  A concrete safe dialogue and path on which replay
succeeds. -/
theorem claim_C4_witness :
    ∃ st, replayPathE
      ⟨"start", [("start", { commands := [.set "gold" (.int 5)] })], []⟩
      ["start"] = .ok (["start"], st) :=
  claim_C4_amended _ _ (by decide) (by decide)

/-! ## The C3 counterexample dialogue

Seven nodes; `t` carries a trigger and counts its visits; `X` is guarded
by `visits == 2`.  The BFS's own trigger jump from `P1` claims the
signature `(t, {visits: 1})` with `used = {t}` before the jump-free path
through `P2` can reach it, and that entry can never jump back to `t`; the
BFS is left with the longer detour through `q` (7 nodes), while a
randomized DFS run that expands `P2` first returns the 6-node path. -/
def dCE3 : EDialogue where
  start_node := "start"
  nodes :=
    [ ("start", { choices := [⟨"P1", none⟩, ⟨"P2", none⟩, ⟨"q", none⟩] }),
      ("P1", { is_end := true }),
      ("P2", { choices := [⟨"t", none⟩] }),
      ("q", { commands := [.set "detour" (.bool true)], choices := [⟨"P2", none⟩] }),
      ("t", { triggers := [⟨"event", "e", none⟩],
              commands := [.add "visits" 1],
              choices := [⟨"F", none⟩, ⟨"X", some (.eqI "visits" 2)⟩] }),
      ("F", { is_end := true }),
      ("X", {}) ]
  initial_state := []

/-- The shuffle oracle realizing the short random path: the first shuffle
reorders `[P1, P2, q]` to `[P1, q, P2]` (so `P2` is pushed last and
popped first); every later shuffle is the identity. -/
def oracleCE3 : Nat → List Nat := fun k => if k = 0 then [0, 2, 1] else []

/-- The number of nodes in a returned path (0 when no path). -/
def pathLen : PathRes → Nat
  | .found p _ => p.length
  | _ => 0

/-- **C3 (counterexample).**  On `dCE3` with target `X`, the shortest
policy (BFS) terminates and returns a 7-node path, while the random
policy can return a 6-node path (under the shuffle oracle above) — so the
BFS path does not have minimum edge count among the paths the engine can
return, and is longer than a path returned by `random`. -/
theorem claim_C3_counterexample :
    pathLen (findValidPathE 100 dCE3 "X") = 7 ∧
    pathLen (findRandomPathE 100 oracleCE3 dCE3 "X") = 6 := by
  constructor <;> decide

/-! ## Signature classes and congruence (towards the amended claim C3)

The engine prunes by *signature*: node plus frozensets of the inventory,
companions and variable items.  Two lists that are equal as sets can be
distinct as lists, so the optimality argument works with signature
*classes* (`SEq`) and needs that evaluation and command execution respect
them.  Observational equality of two states needs duplicate-free variable
keys, which all states arising from execution have (`NDS`). -/

/-- Signature equivalence: equality of the Python 4-tuples of frozensets. -/
def SEq (a b : Sig) : Prop :=
  a.node = b.node ∧ (∀ p, p ∈ a.vars ↔ p ∈ b.vars) ∧
    (∀ x, x ∈ a.inv ↔ x ∈ b.inv) ∧ (∀ x, x ∈ a.comps ↔ x ∈ b.comps)

theorem sameSetL_iff {α : Type} [DecidableEq α] {l m : List α} :
    sameSetL l m = true ↔ ∀ x, x ∈ l ↔ x ∈ m := by
  constructor
  · intro h x
    simp only [sameSetL, Bool.and_eq_true, List.all_eq_true, decide_eq_true_eq] at h
    exact ⟨fun hx => h.1 x hx, fun hx => h.2 x hx⟩
  · intro h
    simp only [sameSetL, Bool.and_eq_true, List.all_eq_true, decide_eq_true_eq]
    exact ⟨fun x hx => (h x).mp hx, fun x hx => (h x).mpr hx⟩

/-- `sigEq` decides `SEq`. -/
theorem sigEq_iff_SEq {a b : Sig} : sigEq a b = true ↔ SEq a b := by
  simp only [sigEq, Bool.and_eq_true, decide_eq_true_eq, sameSetL_iff, SEq]
  tauto

theorem SEq.refl (a : Sig) : SEq a a := ⟨rfl, fun _ => Iff.rfl, fun _ => Iff.rfl, fun _ => Iff.rfl⟩

theorem SEq.symm {a b : Sig} (h : SEq a b) : SEq b a :=
  ⟨h.1.symm, fun p => (h.2.1 p).symm, fun x => (h.2.2.1 x).symm, fun x => (h.2.2.2 x).symm⟩

theorem SEq.trans {a b c : Sig} (h1 : SEq a b) (h2 : SEq b c) : SEq a c :=
  ⟨h1.1.trans h2.1, fun p => (h1.2.1 p).trans (h2.2.1 p),
    fun x => (h1.2.2.1 x).trans (h2.2.2.1 x), fun x => (h1.2.2.2 x).trans (h2.2.2.2 x)⟩

/-- The visited list contains a signature of this class. -/
def InV (visited : List Sig) (sg : Sig) : Prop := ∃ t ∈ visited, SEq t sg

theorem inVisited_iff {visited : List Sig} {sg : Sig} :
    inVisited visited sg = true ↔ InV visited sg := by
  simp only [inVisited, List.any_eq_true, InV, sigEq_iff_SEq]

/-- Duplicate-free variable keys and set lists — true of every state the
engine builds from the empty state. -/
def NDS (s : WebGameState) : Prop :=
  (s.vars.map Prod.fst).Nodup ∧ s.inventory.Nodup ∧ s.companions.Nodup

/-- Observational equality of two states: same variable lookups, same set
memberships. -/
def OEq (s t : WebGameState) : Prop :=
  (∀ k, alookup k s.vars = alookup k t.vars) ∧
    (∀ x, x ∈ s.inventory ↔ x ∈ t.inventory) ∧
    (∀ x, x ∈ s.companions ↔ x ∈ t.companions)

theorem mem_of_alookup_some {k : String} {v : PyVal} {l : List (String × PyVal)}
    (h : alookup k l = some v) : (k, v) ∈ l := by
  induction l with
  | nil => simp [alookup] at h
  | cons p rest ih =>
    simp only [alookup] at h
    split at h
    · next heq => cases h; exact heq ▸ List.mem_cons_self p rest
    · exact List.mem_cons_of_mem p (ih h)

theorem alookup_some_of_mem {k : String} {v : PyVal} {l : List (String × PyVal)}
    (hnd : (l.map Prod.fst).Nodup) (h : (k, v) ∈ l) : alookup k l = some v := by
  induction l with
  | nil => simp at h
  | cons p rest ih =>
    simp only [List.map_cons, List.nodup_cons] at hnd
    rcases List.mem_cons.mp h with heq | hmem
    · cases heq; simp [alookup]
    · have hne : p.1 ≠ k := by
        intro hk
        exact hnd.1 (hk ▸ List.mem_map_of_mem Prod.fst hmem)
      simp [alookup, hne, ih hnd.2 hmem]

theorem alookup_none_iff {k : String} {l : List (String × PyVal)} :
    alookup k l = none ↔ ∀ v, (k, v) ∉ l := by
  induction l with
  | nil => simp [alookup]
  | cons p rest ih =>
    simp only [alookup]
    constructor
    · intro h v hv
      split at h
      · exact absurd h (by simp)
      · next hne =>
        rcases List.mem_cons.mp hv with heq | hmem
        · exact hne (by rw [← heq])
        · exact (ih.mp h) v hmem
    · intro h
      split
      · next heq =>
        exfalso
        exact h p.2 (by rw [← heq]; simp)
      · exact ih.mpr (fun v hv => h v (List.mem_cons_of_mem p hv))

/-- Signature-class equality plus duplicate-free keys gives observational
equality of the underlying states. -/
theorem OEq_of_SEq {n1 n2 : String} {s t : WebGameState} (h1 : NDS s) (h2 : NDS t)
    (h : SEq (mkSig n1 s) (mkSig n2 t)) : OEq s t := by
  obtain ⟨_, hvars, hinv, hcomp⟩ := h
  refine ⟨?_, hinv, hcomp⟩
  intro k
  rcases hks : alookup k s.vars with _ | v
  · rcases hkt : alookup k t.vars with _ | w
    · rfl
    · exact absurd (alookup_none_iff.mp hks w ((hvars (k, w)).mpr (mem_of_alookup_some hkt)))
        (by simp)
  · exact (alookup_some_of_mem h2.1 ((hvars (k, v)).mp (mem_of_alookup_some hks))).symm

theorem SEq_of_OEq {n : String} {s t : WebGameState} (h1 : NDS s) (h2 : NDS t)
    (h : OEq s t) : SEq (mkSig n s) (mkSig n t) := by
  refine ⟨rfl, ?_, h.2.1, h.2.2⟩
  rintro ⟨k, v⟩
  constructor
  · intro hm
    exact mem_of_alookup_some ((h.1 k) ▸ alookup_some_of_mem h1.1 hm)
  · intro hm
    exact mem_of_alookup_some ((h.1 k).symm ▸ alookup_some_of_mem h2.1 hm)

/-! ## Evaluation and execution respect observational equality -/

/-- Lookup-equality of two variable lists. -/
def LEq (l m : List (String × PyVal)) : Prop := ∀ k, alookup k l = alookup k m

/-- Runtime values up to set-membership equality. -/
def REquiv : RVal → RVal → Prop
  | .ofVal v, .ofVal w => v = w
  | .set l, .set m => ∀ x, x ∈ l ↔ x ∈ m
  | _, _ => False

theorem REquiv.truthy_eq : ∀ {r r' : RVal}, REquiv r r' → truthy r = truthy r'
  | .ofVal v, .ofVal w, h => by cases h; rfl
  | .set l, .set m, h => by
    simp only [truthy, decide_eq_decide]
    constructor
    · intro hl hm
      rcases l with _ | ⟨x, l'⟩
      · exact hl rfl
      · exact absurd ((h x).mp (by simp)) (by simp [hm])
    · intro hm hl
      rcases m with _ | ⟨x, m'⟩
      · exact hm rfl
      · exact absurd ((h x).mpr (by simp)) (by simp [hl])

theorem REquiv.asNum_eq : ∀ {r r' : RVal}, REquiv r r' → r.asNum = r'.asNum
  | .ofVal v, .ofVal w, h => by cases h; rfl
  | .set _, .set _, _ => rfl

theorem REquiv.pyIn_eq (x : String) :
    ∀ {r r' : RVal}, REquiv r r' → pyIn x r = pyIn x r'
  | .ofVal v, .ofVal w, h => by cases h; rfl
  | .set l, .set m, h => by
    simp only [pyIn, Option.some.injEq, decide_eq_decide]
    exact h x

theorem REquiv.pyEq_eq : ∀ {a a' b b' : RVal}, REquiv a a' → REquiv b b' →
    pyEq a b = pyEq a' b'
  | .ofVal v, .ofVal v', .ofVal w, .ofVal w', h1, h2 => by cases h1; cases h2; rfl
  | .ofVal v, .ofVal v', .set l, .set m, h1, h2 => by cases h1; rfl
  | .set l, .set m, .ofVal w, .ofVal w', h1, h2 => by cases h2; rfl
  | .set l, .set l', .set m, .set m', h1, h2 => by
    show sameSetL l m = sameSetL l' m'
    have hiff : sameSetL l m = true ↔ sameSetL l' m' = true := by
      rw [sameSetL_iff, sameSetL_iff]
      constructor
      · intro h x
        exact ((h1 x).symm.trans (h x)).trans (h2 x)
      · intro h x
        exact ((h1 x).trans (h x)).trans (h2 x).symm
    cases h : sameSetL l m with
    | true => rw [hiff.mp h]
    | false =>
      cases h' : sameSetL l' m' with
      | true => exact absurd (hiff.mpr h') (by simp [h])
      | false => rfl

/-- Option-level equivalence of evaluation results. -/
def OREquiv : Option RVal → Option RVal → Prop
  | none, none => True
  | some r, some r' => REquiv r r'
  | _, _ => False

theorem lookupName_congr {v1 v2 : List (String × PyVal)} (hv : LEq v1 v2)
    {i1 i2 c1 c2 : List String} (hi : ∀ x, x ∈ i1 ↔ x ∈ i2)
    (hc : ∀ x, x ∈ c1 ↔ x ∈ c2) (x : String) :
    OREquiv (lookupName v1 i1 c1 x) (lookupName v2 i2 c2 x) := by
  unfold lookupName
  rw [hv x]
  rcases alookup x v2 with _ | v
  · by_cases h1 : x = "inventory"
    · simp only [h1, if_pos rfl]; exact hi
    · rw [if_neg h1, if_neg h1]
      by_cases h2 : x = "companions"
      · simp only [h2, if_pos rfl]; exact hc
      · rw [if_neg h2, if_neg h2]; trivial
  · exact rfl

theorem cmpName_congr {v1 v2 : List (String × PyVal)} (hv : LEq v1 v2)
    {i1 i2 c1 c2 : List String} (hi : ∀ x, x ∈ i1 ↔ x ∈ i2)
    (hc : ∀ x, x ∈ c1 ↔ x ∈ c2) (x : String) (test : Int → Bool) :
    OREquiv (cmpName v1 i1 c1 x test) (cmpName v2 i2 c2 x test) := by
  have h := lookupName_congr hv hi hc x
  unfold cmpName
  rcases h1 : lookupName v1 i1 c1 x with _ | r <;>
    rcases h2 : lookupName v2 i2 c2 x with _ | r'
  · trivial
  · rw [h1, h2] at h; exact h.elim
  · rw [h1, h2] at h; exact h.elim
  · rw [h1, h2] at h
    simp only [Option.bind_eq_bind, Option.some_bind]
    rw [show r.asNum = r'.asNum from h.asNum_eq]
    rcases r'.asNum with _ | m
    · trivial
    · exact rfl

theorem evalRun_congr {v1 v2 : List (String × PyVal)} (hv : LEq v1 v2)
    {i1 i2 c1 c2 : List String} (hi : ∀ x, x ∈ i1 ↔ x ∈ i2)
    (hc : ∀ x, x ∈ c1 ↔ x ∈ c2) (c : Cond) :
    OREquiv (evalRun v1 i1 c1 c) (evalRun v2 i2 c2 c) := by
  induction c with
  | flag x => exact lookupName_congr hv hi hc x
  | neg x =>
    have h := lookupName_congr hv hi hc x
    show OREquiv ((lookupName v1 i1 c1 x).bind _) ((lookupName v2 i2 c2 x).bind _)
    rcases h1 : lookupName v1 i1 c1 x with _ | r <;>
      rcases h2 : lookupName v2 i2 c2 x with _ | r'
    · trivial
    · rw [h1, h2] at h; exact h.elim
    · rw [h1, h2] at h; exact h.elim
    · rw [h1, h2] at h
      simp only [Option.some_bind]
      show REquiv (.ofVal (.bool (!truthy r))) (.ofVal (.bool (!truthy r')))
      rw [h.truthy_eq]
      exact rfl
  | hasItem item =>
    have h := lookupName_congr hv hi hc "inventory"
    show OREquiv ((lookupName v1 i1 c1 "inventory").bind _)
      ((lookupName v2 i2 c2 "inventory").bind _)
    rcases h1 : lookupName v1 i1 c1 "inventory" with _ | r <;>
      rcases h2 : lookupName v2 i2 c2 "inventory" with _ | r'
    · trivial
    · rw [h1, h2] at h; exact h.elim
    · rw [h1, h2] at h; exact h.elim
    · rw [h1, h2] at h
      simp only [Option.some_bind]
      rw [show pyIn item r = pyIn item r' from h.pyIn_eq item]
      rcases pyIn item r' with _ | b
      · trivial
      · exact rfl
  | companion name =>
    have h := lookupName_congr hv hi hc "companions"
    show OREquiv ((lookupName v1 i1 c1 "companions").bind _)
      ((lookupName v2 i2 c2 "companions").bind _)
    rcases h1 : lookupName v1 i1 c1 "companions" with _ | r <;>
      rcases h2 : lookupName v2 i2 c2 "companions" with _ | r'
    · trivial
    · rw [h1, h2] at h; exact h.elim
    · rw [h1, h2] at h; exact h.elim
    · rw [h1, h2] at h
      simp only [Option.some_bind]
      rw [show pyIn name r = pyIn name r' from h.pyIn_eq name]
      rcases pyIn name r' with _ | b
      · trivial
      · exact rfl
  | lt x n => exact cmpName_congr hv hi hc x _
  | le x n => exact cmpName_congr hv hi hc x _
  | gt x n => exact cmpName_congr hv hi hc x _
  | ge x n => exact cmpName_congr hv hi hc x _
  | eqB x b =>
    have h := lookupName_congr hv hi hc x
    have h' := lookupName_congr hv hi hc (if b then "true" else "false")
    show OREquiv ((lookupName v1 i1 c1 x).bind _) ((lookupName v2 i2 c2 x).bind _)
    rcases h1 : lookupName v1 i1 c1 x with _ | r <;>
      rcases h2 : lookupName v2 i2 c2 x with _ | r'
    · trivial
    · rw [h1, h2] at h; exact h.elim
    · rw [h1, h2] at h; exact h.elim
    · rw [h1, h2] at h
      simp only [Option.some_bind]
      rcases h3 : lookupName v1 i1 c1 (if b then "true" else "false") with _ | u <;>
        rcases h4 : lookupName v2 i2 c2 (if b then "true" else "false") with _ | u'
      · trivial
      · rw [h3, h4] at h'; exact h'.elim
      · rw [h3, h4] at h'; exact h'.elim
      · rw [h3, h4] at h'
        simp only [Option.bind_eq_bind, Option.some_bind]
        rw [show pyEq r u = pyEq r' u' from REquiv.pyEq_eq h h']
        exact rfl
  | eqI x n =>
    have h := lookupName_congr hv hi hc x
    show OREquiv ((lookupName v1 i1 c1 x).bind _) ((lookupName v2 i2 c2 x).bind _)
    rcases h1 : lookupName v1 i1 c1 x with _ | r <;>
      rcases h2 : lookupName v2 i2 c2 x with _ | r'
    · trivial
    · rw [h1, h2] at h; exact h.elim
    · rw [h1, h2] at h; exact h.elim
    · rw [h1, h2] at h
      simp only [Option.some_bind]
      rw [show pyEq r (.ofVal (.int n)) = pyEq r' (.ofVal (.int n)) from
        REquiv.pyEq_eq h rfl]
      exact rfl
  | eqS x lit =>
    have h := lookupName_congr hv hi hc x
    have h' := lookupName_congr hv hi hc lit
    show OREquiv ((lookupName v1 i1 c1 x).bind _) ((lookupName v2 i2 c2 x).bind _)
    rcases h1 : lookupName v1 i1 c1 x with _ | r <;>
      rcases h2 : lookupName v2 i2 c2 x with _ | r'
    · trivial
    · rw [h1, h2] at h; exact h.elim
    · rw [h1, h2] at h; exact h.elim
    · rw [h1, h2] at h
      simp only [Option.some_bind]
      rcases h3 : lookupName v1 i1 c1 lit with _ | u <;>
        rcases h4 : lookupName v2 i2 c2 lit with _ | u'
      · trivial
      · rw [h3, h4] at h'; exact h'.elim
      · rw [h3, h4] at h'; exact h'.elim
      · rw [h3, h4] at h'
        simp only [Option.bind_eq_bind, Option.some_bind]
        rw [show pyEq r u = pyEq r' u' from REquiv.pyEq_eq h h']
        exact rfl
  | neq x lit => trivial
  | and a b iha ihb =>
    show OREquiv ((evalRun v1 i1 c1 a).bind _) ((evalRun v2 i2 c2 a).bind _)
    rcases h1 : evalRun v1 i1 c1 a with _ | r <;>
      rcases h2 : evalRun v2 i2 c2 a with _ | r'
    · trivial
    · rw [h1, h2] at iha; exact iha.elim
    · rw [h1, h2] at iha; exact iha.elim
    · rw [h1, h2] at iha
      simp only [Option.some_bind]
      rw [show truthy r = truthy r' from iha.truthy_eq]
      by_cases ht : truthy r' = true
      · rw [if_pos ht, if_pos ht]; exact ihb
      · rw [if_neg ht, if_neg ht]; exact iha
  | or a b iha ihb =>
    show OREquiv ((evalRun v1 i1 c1 a).bind _) ((evalRun v2 i2 c2 a).bind _)
    rcases h1 : evalRun v1 i1 c1 a with _ | r <;>
      rcases h2 : evalRun v2 i2 c2 a with _ | r'
    · trivial
    · rw [h1, h2] at iha; exact iha.elim
    · rw [h1, h2] at iha; exact iha.elim
    · rw [h1, h2] at iha
      simp only [Option.some_bind]
      rw [show truthy r = truthy r' from iha.truthy_eq]
      by_cases ht : truthy r' = true
      · rw [if_pos ht, if_pos ht]; exact iha
      · rw [if_neg ht, if_neg ht]; exact ihb

/-! ### Set and key lemmas for the congruence layer -/

theorem mem_addSet_iff {x y : String} {l : List String} :
    x ∈ addSet y l ↔ x = y ∨ x ∈ l := by
  unfold addSet
  by_cases h : y ∈ l
  · rw [if_pos h]
    constructor
    · intro hx; exact Or.inr hx
    · rintro (rfl | hx)
      · exact h
      · exact hx
  · rw [if_neg h]
    simp only [List.mem_append, List.mem_singleton]
    exact or_comm

theorem mem_delSet_iff {x y : String} {l : List String} :
    x ∈ delSet y l ↔ x ∈ l ∧ x ≠ y := by
  simp [delSet]

theorem nodup_addSet {x : String} {l : List String} (h : l.Nodup) : (addSet x l).Nodup := by
  unfold addSet
  by_cases hx : x ∈ l
  · rw [if_pos hx]; exact h
  · rw [if_neg hx]
    rw [List.nodup_append]
    refine ⟨h, List.nodup_singleton x, ?_⟩
    intro a ha hax
    rw [List.mem_singleton] at hax
    exact hx (hax ▸ ha)

theorem nodup_delSet {x : String} {l : List String} (h : l.Nodup) : (delSet x l).Nodup :=
  List.Nodup.filter _ h

theorem keys_aset_iff {y k : String} {v : PyVal} {l : List (String × PyVal)} :
    y ∈ (aset k v l).map Prod.fst ↔ y = k ∨ y ∈ l.map Prod.fst := by
  induction l with
  | nil => simp [aset]
  | cons p rest ih =>
    obtain ⟨k1, v1⟩ := p
    simp only [aset]
    by_cases h : k1 = k
    · rw [if_pos h]
      subst h
      simp only [List.map_cons, List.mem_cons]
      tauto
    · rw [if_neg h]
      simp only [List.map_cons, List.mem_cons]
      rw [ih]
      tauto

theorem nodup_keys_aset {k : String} {v : PyVal} {l : List (String × PyVal)}
    (h : (l.map Prod.fst).Nodup) : ((aset k v l).map Prod.fst).Nodup := by
  induction l with
  | nil => simp [aset]
  | cons p rest ih =>
    obtain ⟨k1, v1⟩ := p
    simp only [List.map_cons, List.nodup_cons] at h
    simp only [aset]
    by_cases hk : k1 = k
    · rw [if_pos hk]
      simp only [List.map_cons, List.nodup_cons]
      exact ⟨h.1, h.2⟩
    · rw [if_neg hk]
      simp only [List.map_cons, List.nodup_cons]
      refine ⟨?_, ih h.2⟩
      intro hmem
      rcases keys_aset_iff.mp hmem with heq | hmem1
      · exact hk heq
      · exact h.1 hmem1

theorem alookup_aset (k x : String) (v : PyVal) (l : List (String × PyVal)) :
    alookup k (aset x v l) = if x = k then some v else alookup k l := by
  by_cases h : x = k
  · rw [if_pos h]; subst h; exact alookup_aset_self _ v l
  · rw [if_neg h]; exact alookup_aset_ne (fun hk => h hk.symm) v l

theorem LEq_aset {l m : List (String × PyVal)} (h : LEq l m) (x : String) (v : PyVal) :
    LEq (aset x v l) (aset x v m) := by
  intro k
  rw [alookup_aset, alookup_aset, h k]

theorem LEq_append_one {l m : List (String × PyVal)} (h : LEq l m) (p : String × PyVal) :
    LEq (l ++ [p]) (m ++ [p]) := by
  intro k
  rcases hk : alookup k l with _ | v
  · rw [alookup_append_none hk, alookup_append_none (by rw [← h k]; exact hk)]
  · rw [alookup_append_left hk, alookup_append_left (by rw [← h k]; exact hk)]

/-! ### The defaulting pass and the whole web evaluator respect lookup
equality -/

theorem LEq_defFoldW : ∀ (vs : List String) {l m : List (String × PyVal)}, LEq l m →
    LEq (vs.foldl (fun vars v =>
        if (alookup v vars).isSome || v = "inventory" || v = "companions" then vars
        else vars ++ [(v, .bool false)]) l)
      (vs.foldl (fun vars v =>
        if (alookup v vars).isSome || v = "inventory" || v = "companions" then vars
        else vars ++ [(v, .bool false)]) m) := by
  intro vs
  induction vs with
  | nil => intro l m h; exact h
  | cons v vs ih =>
    intro l m h
    simp only [List.foldl_cons]
    have hcond : ((alookup v l).isSome || v = "inventory" || v = "companions")
        = ((alookup v m).isSome || v = "inventory" || v = "companions") := by
      rw [h v]
    rw [hcond]
    by_cases hc : ((alookup v m).isSome || v = "inventory" || v = "companions") = true
    · rw [if_pos hc, if_pos hc]; exact ih h
    · rw [if_neg hc, if_neg hc]; exact ih (LEq_append_one h _)

theorem ctxDefaultsW_congr {s t : WebGameState} (h : LEq s.vars t.vars) (c : Cond) :
    LEq (ctxDefaultsW s c) (ctxDefaultsW t c) :=
  LEq_defFoldW c.negVars h

theorem evalCondW_congr {s t : WebGameState} (h : OEq s t) (c : Cond) :
    evalCondW s c = evalCondW t c := by
  unfold evalCondW
  by_cases hn : c.containsNeq = true
  · rw [if_pos hn, if_pos hn]
  · rw [if_neg hn, if_neg hn]
    have he := evalRun_congr (ctxDefaultsW_congr h.1 c) h.2.1 h.2.2 c
    rcases h1 : evalRun (ctxDefaultsW s c) s.inventory s.companions c with _ | r <;>
      rcases h2 : evalRun (ctxDefaultsW t c) t.inventory t.companions c with _ | r1
    · rfl
    · rw [h1, h2] at he; exact he.elim
    · rw [h1, h2] at he; exact he.elim
    · rw [h1, h2] at he; exact he.truthy_eq

theorem evalCondOptW_congr {s t : WebGameState} (h : OEq s t) :
    ∀ oc, evalCondOptW s oc = evalCondOptW t oc
  | none => rfl
  | some c => evalCondW_congr h c

/-! ### Command execution respects observational equality -/

theorem OEq_refl (s : WebGameState) : OEq s s :=
  ⟨fun _ => rfl, fun _ => Iff.rfl, fun _ => Iff.rfl⟩

theorem OEq_symm {s t : WebGameState} (h : OEq s t) : OEq t s :=
  ⟨fun k => (h.1 k).symm, fun x => (h.2.1 x).symm, fun x => (h.2.2 x).symm⟩

theorem OEq_trans {s t u : WebGameState} (h1 : OEq s t) (h2 : OEq t u) : OEq s u :=
  ⟨fun k => (h1.1 k).trans (h2.1 k), fun x => (h1.2.1 x).trans (h2.2.1 x),
    fun x => (h1.2.2 x).trans (h2.2.2 x)⟩

/-- Result equivalence for command execution: both raise, or both succeed
with observationally equal states. -/
def EOEq : Except Unit WebGameState → Except Unit WebGameState → Prop
  | .error _, .error _ => True
  | .ok u, .ok w => OEq u w
  | _, _ => False

theorem executeCommandE_congr {s t : WebGameState} (h : OEq s t) (c : Cmd) :
    EOEq (executeCommandE s false c) (executeCommandE t false c) := by
  obtain ⟨hv, hi, hc⟩ := h
  cases c with
  | set x v =>
    show OEq { s with vars := aset x v s.vars } { t with vars := aset x v t.vars }
    exact ⟨LEq_aset hv x v, hi, hc⟩
  | add x n =>
    simp only [executeCommandE]
    rw [hv x]
    rcases (alookup x t.vars).getD (.int 0) with b | m | str
    · exact ⟨LEq_aset hv x _, hi, hc⟩
    · exact ⟨LEq_aset hv x _, hi, hc⟩
    · trivial
  | sub x n =>
    simp only [executeCommandE]
    rw [hv x]
    rcases (alookup x t.vars).getD (.int 0) with b | m | str
    · exact ⟨LEq_aset hv x _, hi, hc⟩
    · exact ⟨LEq_aset hv x _, hi, hc⟩
    · trivial
  | giveItem i =>
    refine ⟨hv, ?_, hc⟩
    intro y
    rw [mem_addSet_iff, mem_addSet_iff]
    exact or_congr Iff.rfl (hi y)
  | removeItem i =>
    refine ⟨hv, ?_, hc⟩
    intro y
    rw [mem_delSet_iff, mem_delSet_iff]
    exact and_congr (hi y) Iff.rfl
  | addCompanion nm =>
    refine ⟨hv, hi, ?_⟩
    intro y
    rw [mem_addSet_iff, mem_addSet_iff]
    exact or_congr Iff.rfl (hc y)
  | removeCompanion nm =>
    refine ⟨hv, hi, ?_⟩
    intro y
    rw [mem_delSet_iff, mem_delSet_iff]
    exact and_congr (hc y) Iff.rfl
  | nop => exact ⟨hv, hi, hc⟩

theorem execCmdsE_congr {s t : WebGameState} (h : OEq s t) :
    ∀ cs, EOEq (execCmdsE s cs) (execCmdsE t cs)
  | [] => h
  | c :: rest => by
    have h1 := executeCommandE_congr h c
    simp only [execCmdsE]
    rcases e1 : executeCommandE s false c with _ | u <;>
      rcases e2 : executeCommandE t false c with _ | w
    · trivial
    · rw [e1, e2] at h1; exact h1.elim
    · rw [e1, e2] at h1; exact h1.elim
    · rw [e1, e2] at h1
      exact execCmdsE_congr h1 rest

/-! ### Execution preserves duplicate-freeness -/

theorem executeCommandE_NDS {s u : WebGameState} (h : NDS s) {c : Cmd}
    (he : executeCommandE s false c = .ok u) : NDS u := by
  cases c with
  | set x v =>
    have he1 : (Except.ok { s with vars := aset x v s.vars } :
        Except Unit WebGameState) = .ok u := he
    cases he1
    exact ⟨nodup_keys_aset h.1, h.2.1, h.2.2⟩
  | add x n =>
    simp only [executeCommandE] at he
    split at he
    · exact Except.noConfusion he
    · cases he; exact ⟨nodup_keys_aset h.1, h.2.1, h.2.2⟩
    · cases he; exact ⟨nodup_keys_aset h.1, h.2.1, h.2.2⟩
  | sub x n =>
    simp only [executeCommandE] at he
    split at he
    · exact Except.noConfusion he
    · cases he; exact ⟨nodup_keys_aset h.1, h.2.1, h.2.2⟩
    · cases he; exact ⟨nodup_keys_aset h.1, h.2.1, h.2.2⟩
  | giveItem i =>
    have he1 : (Except.ok { s with inventory := addSet i s.inventory } :
        Except Unit WebGameState) = .ok u := he
    cases he1
    exact ⟨h.1, nodup_addSet h.2.1, h.2.2⟩
  | removeItem i =>
    have he1 : (Except.ok { s with inventory := delSet i s.inventory } :
        Except Unit WebGameState) = .ok u := he
    cases he1
    exact ⟨h.1, nodup_delSet h.2.1, h.2.2⟩
  | addCompanion nm =>
    have he1 : (Except.ok { s with companions := addSet nm s.companions } :
        Except Unit WebGameState) = .ok u := he
    cases he1
    exact ⟨h.1, h.2.1, nodup_addSet h.2.2⟩
  | removeCompanion nm =>
    have he1 : (Except.ok { s with companions := delSet nm s.companions } :
        Except Unit WebGameState) = .ok u := he
    cases he1
    exact ⟨h.1, h.2.1, nodup_delSet h.2.2⟩
  | nop =>
    have he1 : (Except.ok s : Except Unit WebGameState) = .ok u := he
    cases he1
    exact h

theorem execCmdsE_NDS : ∀ {cs : List Cmd} {s u : WebGameState}, NDS s →
    execCmdsE s cs = .ok u → NDS u
  | [], _, _, h, he => by cases he; exact h
  | c :: rest, s, u, h, he => by
    simp only [execCmdsE] at he
    split at he
    · exact Except.noConfusion he
    · rename_i s1 he1
      exact execCmdsE_NDS (executeCommandE_NDS h he1) he

/-! ### Admissible walks

A walk is a sequence of traversal steps from the seed configuration: at
each step some choice of the current node is satisfied, its target is a
real node (not `"END"`), and that node's commands execute without raising.
All three policies prune a successor whose signature is in `visited`, and
all three seed `visited` with the same bogus signature (node = start,
*empty* inventory and companion frozensets, the seed variables); a pushed
configuration therefore never lies in that signature class.  `AWalk`
records exactly the walks the engines can realise: valid steps whose
configurations (after the seed) avoid the bogus class. -/

/-- One traversal step (the choice branch of the three engines). -/
def stepTo (d : EDialogue) (c c' : String × WebGameState) : Prop :=
  ∃ node, lookupNode c.1 d.nodes = some node ∧
    ∃ ch ∈ node.choices, evalCondOptW c.2 ch.condition = true ∧
      ch.target = c'.1 ∧ c'.1 ≠ "END" ∧
      ∃ nnode, lookupNode c'.1 d.nodes = some nnode ∧
        execCmdsE c.2 nnode.commands = .ok c'.2

/-- A satisfied choice to `"END"` (the engines' early-return branch when
the target is `"END"`). -/
def endStep (d : EDialogue) (c : String × WebGameState) : Prop :=
  ∃ node, lookupNode c.1 d.nodes = some node ∧
    ∃ ch ∈ node.choices, evalCondOptW c.2 ch.condition = true ∧ ch.target = "END"

/-- `j` steps from `c0`, avoiding the bogus seed signature class `bog`. -/
inductive AWalk (d : EDialogue) (bog : Sig) (c0 : String × WebGameState) :
    Nat → String × WebGameState → Prop where
  | refl : AWalk d bog c0 0 c0
  | step {j : Nat} {c c' : String × WebGameState} : AWalk d bog c0 j c →
      stepTo d c c' → ¬ SEq (mkSig c'.1 c'.2) bog → AWalk d bog c0 (j + 1) c'

theorem stepTo_congr {d : EDialogue} {n : String} {s t : WebGameState} (h : OEq s t)
    {c' : String × WebGameState} (hst : stepTo d (n, s) c') :
    ∃ u, stepTo d (n, t) (c'.1, u) ∧ OEq c'.2 u := by
  obtain ⟨node, hnode, ch, hch, hcond, htgt, hne, nnode, hnn, hex⟩ := hst
  have hcond1 : evalCondOptW t ch.condition = true := by
    rw [← evalCondOptW_congr h ch.condition]; exact hcond
  have hee := execCmdsE_congr h nnode.commands
  rw [hex] at hee
  rcases he2 : execCmdsE t nnode.commands with _ | u
  · rw [he2] at hee; exact hee.elim
  · rw [he2] at hee
    exact ⟨u, ⟨node, hnode, ch, hch, hcond1, htgt, hne, nnode, hnn, he2⟩, hee⟩

theorem endStep_congr {d : EDialogue} {n : String} {s t : WebGameState} (h : OEq s t)
    (hst : endStep d (n, s)) : endStep d (n, t) := by
  obtain ⟨node, hnode, ch, hch, hcond, htgt⟩ := hst
  exact ⟨node, hnode, ch, hch,
    by rw [← evalCondOptW_congr h ch.condition]; exact hcond, htgt⟩

theorem stepTo_NDS {d : EDialogue} {c c' : String × WebGameState} (h : NDS c.2)
    (hst : stepTo d c c') : NDS c'.2 := by
  obtain ⟨_, _, _, _, _, _, _, nnode, _, hex⟩ := hst
  exact execCmdsE_NDS h hex

theorem AWalk_NDS {d : EDialogue} {bog : Sig} {c0 : String × WebGameState}
    (h0 : NDS c0.2) : ∀ {j : Nat} {c : String × WebGameState},
    AWalk d bog c0 j c → NDS c.2 := by
  intro j c hw
  induction hw with
  | refl => exact h0
  | step hw hst hb ih => exact stepTo_NDS ih hst

/-- A walk configuration at the `"END"` pseudo-node can only be the seed
itself: step targets are never `"END"`. -/
theorem AWalk_END_eq_seed {d : EDialogue} {bog : Sig} {c0 : String × WebGameState} :
    ∀ {j : Nat} {c : String × WebGameState},
    AWalk d bog c0 j c → c.1 = "END" → c = c0 := by
  intro j c hw
  induction hw with
  | refl => intro _; rfl
  | step hw hst hb ih =>
    intro hEND
    obtain ⟨_, _, _, _, _, _, hne, _, _, _⟩ := hst
    exact absurd hEND hne

/-! ### The BFS optimality invariant -/

/-- A ghost record of a fully expanded ("finished") signature class: a
representative configuration and the length of the queue path it was
popped with. -/
structure FEnt where
  node : String
  state : WebGameState
  len : Nat

/-- The signature of a frontier entry. -/
def sigE (e : BEntry) : Sig := mkSig e.node e.state

/-- The configuration's class is finished with recorded length ≤ `n`. -/
def FinCov (F : List FEnt) (n : Nat) (c : String × WebGameState) : Prop :=
  ∃ r ∈ F, SEq (mkSig r.node r.state) (mkSig c.1 c.2) ∧ r.len ≤ n

/-- The configuration's class is discovered with recorded length ≤ `n`:
covered by a queue entry or finished. -/
def CovLE (Q : List BEntry) (F : List FEnt) (n : Nat)
    (c : String × WebGameState) : Prop :=
  (∃ e ∈ Q, SEq (sigE e) (mkSig c.1 c.2) ∧ e.path.length ≤ n) ∨ FinCov F n c

/-- The BFS loop invariant: the queue is sorted by path length with spread
at most one; queue entries and finished representatives carry
duplicate-free states; finished lengths stay below the frontier; finished
classes are not the target, admit no `"END"` exit when the target is
`"END"`, and have every admissible successor discovered one level deeper;
every non-bogus visited signature is covered; and the seed configuration
is discovered at length 1. -/
structure BInv (d : EDialogue) (t : String) (bog : Sig)
    (c0 : String × WebGameState) (Q : List BEntry) (V : List Sig)
    (F : List FEnt) : Prop where
  sorted : Q.Pairwise (fun a b => a.path.length ≤ b.path.length)
  spread : ∀ a ∈ Q, ∀ b ∈ Q, a.path.length ≤ b.path.length + 1
  qnds : ∀ e ∈ Q, NDS e.state
  fnds : ∀ r ∈ F, NDS r.state
  fbound : ∀ r ∈ F, ∀ e ∈ Q, r.len ≤ e.path.length + 1
  fnode : ∀ r ∈ F, r.node ≠ t
  fend : ∀ r ∈ F, t = "END" → ¬ endStep d (r.node, r.state)
  fsucc : ∀ r ∈ F, ∀ c', stepTo d (r.node, r.state) c' →
    ¬ SEq (mkSig c'.1 c'.2) bog → CovLE Q F (r.len + 1) c'
  vcov : ∀ X ∈ V, ¬ SEq X bog →
    (∃ e ∈ Q, SEq (sigE e) X) ∨ (∃ r ∈ F, SEq (mkSig r.node r.state) X)
  seedcov : CovLE Q F 1 c0

/-- Popping the head preserves discovery when the head becomes a finished
record. -/
theorem CovLE_step {e : BEntry} {qrest Q1 : List BEntry} {F F1 : List FEnt}
    {n : Nat} {c : String × WebGameState}
    (hsub : ∀ e1 ∈ qrest, e1 ∈ Q1) (hF : ∀ r ∈ F, r ∈ F1)
    (hrep : (⟨e.node, e.state, e.path.length⟩ : FEnt) ∈ F1)
    (h : CovLE (e :: qrest) F n c) : CovLE Q1 F1 n c := by
  rcases h with ⟨e1, he1, hs, hl⟩ | ⟨r, hr, hs, hl⟩
  · rcases List.mem_cons.mp he1 with rfl | hmem
    · exact Or.inr ⟨_, hrep, hs, hl⟩
    · exact Or.inl ⟨e1, hsub e1 hmem, hs, hl⟩
  · exact Or.inr ⟨r, hF r hr, hs, hl⟩

theorem InV_mono {V W : List Sig} {sg : Sig} (h : InV V sg)
    (hsub : ∀ x ∈ V, x ∈ W) : InV W sg := by
  obtain ⟨x, hx, hs⟩ := h
  exact ⟨x, hsub x hx, hs⟩

/-- An in-loop return of the BFS choice loop is the `"END"` early return. -/
theorem bfsChoices_ret_spec {d : EDialogue} {t : String} {e : BEntry} :
    ∀ {chs : List EChoice} {Q : List BEntry} {V : List Sig} {p : List String}
      {st : WebGameState},
    bfsChoices d t e chs Q V = .ret p st →
    t = "END" ∧ p = e.path ++ ["END"] ∧ st = e.state := by
  intro chs
  induction chs with
  | nil =>
    intro Q V p st h
    exact StepOut.noConfusion h
  | cons ch rest ih =>
    intro Q V p st h
    simp only [bfsChoices] at h
    split at h
    · exact ih h
    · split at h
      · split at h
        · rename_i ht
          injection h with h1 h2
          exact ⟨ht, h1.symm, h2.symm⟩
        · exact ih h
      · split at h
        · exact ih h
        · split at h
          · exact StepOut.noConfusion h
          · split at h
            · exact ih h
            · exact ih h

/-- The BFS choice loop, when it continues, appends its pushes to the
queue and their signatures to `visited`; each push comes from a satisfied
choice; each satisfied choice to a real node ends up visited; and when the
target is `"END"` no satisfied choice to `"END"` exists. -/
theorem bfsChoices_cont_spec {d : EDialogue} {t : String} {e : BEntry} :
    ∀ {chs : List EChoice} {Q : List BEntry} {V : List Sig} {Q1 : List BEntry}
      {V1 : List Sig},
    bfsChoices d t e chs Q V = .cont Q1 V1 →
    ∃ P : List BEntry,
      Q1 = Q ++ P ∧ V1 = V ++ P.map sigE ∧
      (∀ pe ∈ P, pe.path = e.path ++ [pe.node] ∧
        ∃ nnode, lookupNode pe.node d.nodes = some nnode ∧
          execCmdsE e.state nnode.commands = .ok pe.state) ∧
      (∀ ch ∈ chs, evalCondOptW e.state ch.condition = true → ch.target ≠ "END" →
        ∀ nnode, lookupNode ch.target d.nodes = some nnode →
        ∀ st1, execCmdsE e.state nnode.commands = .ok st1 →
          InV V1 (mkSig ch.target st1)) ∧
      (t = "END" → ∀ ch ∈ chs, evalCondOptW e.state ch.condition = true →
        ch.target ≠ "END") := by
  intro chs
  induction chs with
  | nil =>
    intro Q V Q1 V1 h
    injection h with h1 h2
    refine ⟨[], by simp [h1], by simp [h2], ?_, ?_, ?_⟩
    · intro pe hpe; exact absurd hpe (List.not_mem_nil pe)
    · intro ch hch; exact absurd hch (List.not_mem_nil ch)
    · intro _ ch hch; exact absurd hch (List.not_mem_nil ch)
  | cons ch rest ih =>
    intro Q V Q1 V1 h
    simp only [bfsChoices] at h
    split at h
    · rename_i hcnot
      have hcfalse : evalCondOptW e.state ch.condition = false := by
        simpa using hcnot
      obtain ⟨P, hQ, hV, hpush, hdisc, hnoe⟩ := ih h
      refine ⟨P, hQ, hV, hpush, ?_, ?_⟩
      · intro ch1 hch1 hcond htgt
        rcases List.mem_cons.mp hch1 with rfl | hmem
        · rw [hcfalse] at hcond; exact Bool.noConfusion hcond
        · exact hdisc ch1 hmem hcond htgt
      · intro ht ch1 hch1 hcond
        rcases List.mem_cons.mp hch1 with rfl | hmem
        · rw [hcfalse] at hcond; exact Bool.noConfusion hcond
        · exact hnoe ht ch1 hmem hcond
    · rename_i hcyes
      have hctrue : evalCondOptW e.state ch.condition = true := by
        rcases Bool.eq_false_or_eq_true (evalCondOptW e.state ch.condition) with htr | hf
        · exact htr
        · exact absurd (by simp [hf]) hcyes
      split at h
      · rename_i hEND
        split at h
        · exact StepOut.noConfusion h
        · rename_i htno
          obtain ⟨P, hQ, hV, hpush, hdisc, hnoe⟩ := ih h
          refine ⟨P, hQ, hV, hpush, ?_, ?_⟩
          · intro ch1 hch1 hcond htgt
            rcases List.mem_cons.mp hch1 with rfl | hmem
            · exact absurd hEND htgt
            · exact hdisc ch1 hmem hcond htgt
          · intro ht ch1 hch1 hcond
            exact absurd ht htno
      · rename_i hnEND
        split at h
        · rename_i hlook
          obtain ⟨P, hQ, hV, hpush, hdisc, hnoe⟩ := ih h
          refine ⟨P, hQ, hV, hpush, ?_, ?_⟩
          · intro ch1 hch1 hcond htgt
            rcases List.mem_cons.mp hch1 with rfl | hmem
            · intro nnode hnn
              rw [hlook] at hnn
              exact Option.noConfusion hnn
            · exact hdisc ch1 hmem hcond htgt
          · intro ht ch1 hch1 hcond
            rcases List.mem_cons.mp hch1 with rfl | hmem
            · exact hnEND
            · exact hnoe ht ch1 hmem hcond
        · rename_i nnode0 hlook
          split at h
          · exact StepOut.noConfusion h
          · rename_i st0 hexec
            split at h
            · rename_i hvis
              obtain ⟨P, hQ, hV, hpush, hdisc, hnoe⟩ := ih h
              refine ⟨P, hQ, hV, hpush, ?_, ?_⟩
              · intro ch1 hch1 hcond htgt
                rcases List.mem_cons.mp hch1 with rfl | hmem
                · intro nnode hnn st1 hst1
                  rw [hlook] at hnn
                  cases hnn
                  rw [hexec] at hst1
                  cases hst1
                  refine InV_mono (inVisited_iff.mp hvis) ?_
                  intro x hx
                  rw [hV]
                  exact List.mem_append_left _ hx
                · exact hdisc ch1 hmem hcond htgt
              · intro ht ch1 hch1 hcond
                rcases List.mem_cons.mp hch1 with rfl | hmem
                · exact hnEND
                · exact hnoe ht ch1 hmem hcond
            · rename_i hvis
              obtain ⟨P1, hQ, hV, hpush, hdisc, hnoe⟩ := ih h
              refine ⟨⟨ch.target, e.path ++ [ch.target], st0, e.used⟩ :: P1,
                ?_, ?_, ?_, ?_, ?_⟩
              · rw [hQ, List.append_assoc, List.singleton_append]
              · rw [hV, List.map_cons, List.append_assoc, List.singleton_append]
                rfl
              · intro pe hpe
                rcases List.mem_cons.mp hpe with rfl | hmem
                · exact ⟨rfl, nnode0, hlook, hexec⟩
                · exact hpush pe hmem
              · intro ch1 hch1 hcond htgt
                rcases List.mem_cons.mp hch1 with rfl | hmem
                · intro nnode hnn st1 hst1
                  rw [hlook] at hnn
                  cases hnn
                  rw [hexec] at hst1
                  cases hst1
                  refine ⟨mkSig ch1.target st0, ?_, SEq.refl _⟩
                  rw [hV]
                  exact List.mem_append_left _ (List.mem_append_right _ (by
                    exact List.mem_singleton.mpr rfl))
                · exact hdisc ch1 hmem hcond htgt
              · intro ht ch1 hch1 hcond
                rcases List.mem_cons.mp hch1 with rfl | hmem
                · exact hnEND
                · exact hnoe ht ch1 hmem hcond

theorem sorted_head_min {e : BEntry} {qrest : List BEntry}
    (hs : (e :: qrest).Pairwise (fun a b => a.path.length ≤ b.path.length)) :
    ∀ e1 ∈ e :: qrest, e.path.length ≤ e1.path.length := by
  intro e1 he1
  rcases List.mem_cons.mp he1 with rfl | hmem
  · exact le_refl _
  · exact (List.pairwise_cons.mp hs).1 e1 hmem

/-- Every admissible walk configuration is, while the queue is nonempty,
finished at its own depth or bounded below by the head of the queue. -/
theorem walkCover {d : EDialogue} {t : String} {bog : Sig}
    {c0 : String × WebGameState} (h0 : NDS c0.2) {e : BEntry}
    {qrest : List BEntry} {V : List Sig} {F : List FEnt}
    (hInv : BInv d t bog c0 (e :: qrest) V F) :
    ∀ {j : Nat} {c : String × WebGameState}, AWalk d bog c0 j c →
      FinCov F (j + 1) c ∨ e.path.length ≤ j + 1 := by
  intro j c hw
  induction hw with
  | refl =>
    rcases hInv.seedcov with ⟨e1, he1, hs, hl⟩ | hf
    · exact Or.inr (le_trans (sorted_head_min hInv.sorted e1 he1) hl)
    · exact Or.inl hf
  | step hw hst hb ih =>
    rename_i j1 c1 c2
    rcases ih with ⟨r, hr, hseq, hrl⟩ | hlen
    · have hnds1 : NDS c1.2 := AWalk_NDS h0 hw
      have hndsr : NDS r.state := hInv.fnds r hr
      have hoeq : OEq c1.2 r.state := OEq_of_SEq hnds1 hndsr (SEq.symm hseq)
      have hrn : r.node = c1.1 := hseq.1
      obtain ⟨u, hstep2, hoequ⟩ := stepTo_congr hoeq hst
      rw [← hrn] at hstep2
      have hnds2 : NDS c2.2 := stepTo_NDS hnds1 hst
      have hndsu : NDS u := stepTo_NDS hndsr hstep2
      have hsequ : SEq (mkSig c2.1 c2.2) (mkSig c2.1 u) := SEq_of_OEq hnds2 hndsu hoequ
      have hbu : ¬ SEq (mkSig c2.1 u) bog := fun hc => hb (SEq.trans hsequ hc)
      rcases hInv.fsucc r hr (c2.1, u) hstep2 hbu with
        ⟨e1, he1, hs1, hl1⟩ | ⟨r1, hr1, hs1, hl1⟩
      · refine Or.inr (le_trans (sorted_head_min hInv.sorted e1 he1) ?_)
        exact le_trans hl1 (Nat.add_le_add_right hrl 1)
      · refine Or.inl ⟨r1, hr1, SEq.trans hs1 (SEq.symm hsequ), ?_⟩
        exact le_trans hl1 (Nat.add_le_add_right hrl 1)
    · exact Or.inr (le_trans hlen (Nat.le_succ _))

theorem pairwise_of_mem {α : Type} {R : α → α → Prop} :
    ∀ {l : List α}, (∀ a ∈ l, ∀ b ∈ l, R a b) → l.Pairwise R
  | [], _ => List.Pairwise.nil
  | x :: xs, h =>
    List.Pairwise.cons
      (fun b hb => h x (List.mem_cons_self x xs) b (List.mem_cons_of_mem x hb))
      (pairwise_of_mem
        (fun a ha b hb =>
          h a (List.mem_cons_of_mem x ha) b (List.mem_cons_of_mem x hb)))

/-- Popping an entry whose node is absent from the dialogue preserves the
invariant: its class is finished with no successors. -/
theorem BInv_skip {d : EDialogue} {t : String} {bog : Sig}
    {c0 : String × WebGameState} {e : BEntry} {qrest : List BEntry}
    {V : List Sig} {F : List FEnt}
    (hInv : BInv d t bog c0 (e :: qrest) V F) (hnet : e.node ≠ t)
    (hlook : lookupNode e.node d.nodes = none) :
    BInv d t bog c0 qrest V (F ++ [⟨e.node, e.state, e.path.length⟩]) := by
  have hmemR : (⟨e.node, e.state, e.path.length⟩ : FEnt)
      ∈ F ++ [⟨e.node, e.state, e.path.length⟩] :=
    List.mem_append_right _ (List.mem_singleton.mpr rfl)
  refine ⟨(List.pairwise_cons.mp hInv.sorted).2, ?_, ?_, ?_, ?_, ?_, ?_, ?_, ?_, ?_⟩
  · intro a ha b hb
    exact hInv.spread a (List.mem_cons_of_mem e ha) b (List.mem_cons_of_mem e hb)
  · intro e1 he1
    exact hInv.qnds e1 (List.mem_cons_of_mem e he1)
  · intro r hr
    rcases List.mem_append.mp hr with hrF | hrN
    · exact hInv.fnds r hrF
    · rw [List.mem_singleton.mp hrN]
      exact hInv.qnds e (List.mem_cons_self e qrest)
  · intro r hr e1 he1
    rcases List.mem_append.mp hr with hrF | hrN
    · exact hInv.fbound r hrF e1 (List.mem_cons_of_mem e he1)
    · rw [List.mem_singleton.mp hrN]
      exact le_trans (sorted_head_min hInv.sorted e1 (List.mem_cons_of_mem e he1))
        (Nat.le_succ _)
  · intro r hr
    rcases List.mem_append.mp hr with hrF | hrN
    · exact hInv.fnode r hrF
    · rw [List.mem_singleton.mp hrN]
      exact hnet
  · intro r hr htE hes
    rcases List.mem_append.mp hr with hrF | hrN
    · exact hInv.fend r hrF htE hes
    · rw [List.mem_singleton.mp hrN] at hes
      obtain ⟨node, hnode, _⟩ := hes
      rw [hlook] at hnode
      exact Option.noConfusion hnode
  · intro r hr c1 hst hb
    rcases List.mem_append.mp hr with hrF | hrN
    · exact CovLE_step (fun e1 h1 => h1) (fun r1 h1 => List.mem_append_left _ h1)
        hmemR (hInv.fsucc r hrF c1 hst hb)
    · rw [List.mem_singleton.mp hrN] at hst
      obtain ⟨node, hnode, _⟩ := hst
      rw [hlook] at hnode
      exact Option.noConfusion hnode
  · intro X hX hb
    rcases hInv.vcov X hX hb with ⟨e1, he1, hs1⟩ | ⟨r1, hr1, hs1⟩
    · rcases List.mem_cons.mp he1 with rfl | hmem
      · exact Or.inr ⟨_, hmemR, hs1⟩
      · exact Or.inl ⟨e1, hmem, hs1⟩
    · exact Or.inr ⟨r1, List.mem_append_left _ hr1, hs1⟩
  · exact CovLE_step (fun e1 h1 => h1) (fun r1 h1 => List.mem_append_left _ h1)
      hmemR hInv.seedcov

/-- Expanding the head of the queue through the choice loop preserves the
invariant: the popped class is finished, its successors are all
discovered one level deeper. -/
theorem BInv_expand {d : EDialogue} {t : String} {bog : Sig}
    {c0 : String × WebGameState} {e : BEntry} {qrest : List BEntry}
    {V : List Sig} {F : List FEnt} {node : ENode} {Q1 : List BEntry}
    {V1 : List Sig}
    (hInv : BInv d t bog c0 (e :: qrest) V F) (hnet : e.node ≠ t)
    (hlook : lookupNode e.node d.nodes = some node)
    (hbc : bfsChoices d t e node.choices qrest V = .cont Q1 V1) :
    BInv d t bog c0 Q1 V1 (F ++ [⟨e.node, e.state, e.path.length⟩]) := by
  obtain ⟨P, hQ, hV1, hpush, hdisc, hnoe⟩ := bfsChoices_cont_spec hbc
  have hndse : NDS e.state := hInv.qnds e (List.mem_cons_self e qrest)
  have hlenP : ∀ pe ∈ P, pe.path.length = e.path.length + 1 := by
    intro pe hpe
    rw [(hpush pe hpe).1, List.length_append, List.length_singleton]
  have hndsP : ∀ pe ∈ P, NDS pe.state := by
    intro pe hpe
    obtain ⟨_, nnode, _, hex⟩ := hpush pe hpe
    exact execCmdsE_NDS hndse hex
  have hmemR : (⟨e.node, e.state, e.path.length⟩ : FEnt)
      ∈ F ++ [⟨e.node, e.state, e.path.length⟩] :=
    List.mem_append_right _ (List.mem_singleton.mpr rfl)
  have hsubQ : ∀ e1 ∈ qrest, e1 ∈ Q1 := by
    intro e1 h1
    rw [hQ]
    exact List.mem_append_left _ h1
  have hmemQ1 : ∀ e1 ∈ Q1, e1 ∈ qrest ∨ e1 ∈ P := by
    intro e1 h1
    rw [hQ] at h1
    exact List.mem_append.mp h1
  have hvcov : ∀ X ∈ V1, ¬ SEq X bog →
      (∃ e1 ∈ Q1, SEq (sigE e1) X) ∨
      (∃ r ∈ F ++ [⟨e.node, e.state, e.path.length⟩],
        SEq (mkSig r.node r.state) X) := by
    intro X hX hb
    rw [hV1] at hX
    rcases List.mem_append.mp hX with hXV | hXP
    · rcases hInv.vcov X hXV hb with ⟨e1, he1, hs1⟩ | ⟨r1, hr1, hs1⟩
      · rcases List.mem_cons.mp he1 with rfl | hmem
        · exact Or.inr ⟨_, hmemR, hs1⟩
        · exact Or.inl ⟨e1, hsubQ e1 hmem, hs1⟩
      · exact Or.inr ⟨r1, List.mem_append_left _ hr1, hs1⟩
    · obtain ⟨pe, hpe, hpeX⟩ := List.mem_map.mp hXP
      refine Or.inl ⟨pe, ?_, ?_⟩
      · rw [hQ]; exact List.mem_append_right _ hpe
      · rw [hpeX]; exact SEq.refl X
  have hbndQ1 : ∀ e1 ∈ Q1, e1.path.length ≤ e.path.length + 1 := by
    intro e1 h1
    rcases hmemQ1 e1 h1 with hmem | hmem
    · exact hInv.spread e1 (List.mem_cons_of_mem e hmem) e (List.mem_cons_self e qrest)
    · rw [hlenP e1 hmem]
  refine ⟨?_, ?_, ?_, ?_, ?_, ?_, ?_, ?_, hvcov, ?_⟩
  · rw [hQ, List.pairwise_append]
    refine ⟨(List.pairwise_cons.mp hInv.sorted).2, ?_, ?_⟩
    · refine pairwise_of_mem ?_
      intro a ha b hb
      rw [hlenP a ha, hlenP b hb]
    · intro a ha b hb
      rw [hlenP b hb]
      exact hInv.spread a (List.mem_cons_of_mem e ha) e (List.mem_cons_self e qrest)
  · intro a ha b hb
    rcases hmemQ1 a ha with hma | hma
    · rcases hmemQ1 b hb with hmb | hmb
      · exact hInv.spread a (List.mem_cons_of_mem e hma) b (List.mem_cons_of_mem e hmb)
      · rw [hlenP b hmb]
        exact le_trans
          (hInv.spread a (List.mem_cons_of_mem e hma) e (List.mem_cons_self e qrest))
          (Nat.le_succ _)
    · rcases hmemQ1 b hb with hmb | hmb
      · rw [hlenP a hma]
        exact Nat.add_le_add_right
          (sorted_head_min hInv.sorted b (List.mem_cons_of_mem e hmb)) 1
      · rw [hlenP a hma, hlenP b hmb]
        exact Nat.le_succ _
  · intro e1 he1
    rcases hmemQ1 e1 he1 with hmem | hmem
    · exact hInv.qnds e1 (List.mem_cons_of_mem e hmem)
    · exact hndsP e1 hmem
  · intro r hr
    rcases List.mem_append.mp hr with hrF | hrN
    · exact hInv.fnds r hrF
    · rw [List.mem_singleton.mp hrN]
      exact hndse
  · intro r hr e1 he1
    rcases List.mem_append.mp hr with hrF | hrN
    · rcases hmemQ1 e1 he1 with hmem | hmem
      · exact hInv.fbound r hrF e1 (List.mem_cons_of_mem e hmem)
      · rw [hlenP e1 hmem]
        exact le_trans (hInv.fbound r hrF e (List.mem_cons_self e qrest))
          (Nat.le_succ _)
    · rw [List.mem_singleton.mp hrN]
      rcases hmemQ1 e1 he1 with hmem | hmem
      · exact le_trans (sorted_head_min hInv.sorted e1 (List.mem_cons_of_mem e hmem))
          (Nat.le_succ _)
      · rw [hlenP e1 hmem]
        exact le_trans (Nat.le_succ _) (Nat.le_succ _)
  · intro r hr
    rcases List.mem_append.mp hr with hrF | hrN
    · exact hInv.fnode r hrF
    · rw [List.mem_singleton.mp hrN]
      exact hnet
  · intro r hr htE hes
    rcases List.mem_append.mp hr with hrF | hrN
    · exact hInv.fend r hrF htE hes
    · rw [List.mem_singleton.mp hrN] at hes
      obtain ⟨node0, hnode0, ch, hch, hcond, htgt⟩ := hes
      rw [hlook] at hnode0
      cases hnode0
      exact hnoe htE ch hch hcond htgt
  · intro r hr c1 hst hb
    rcases List.mem_append.mp hr with hrF | hrN
    · exact CovLE_step hsubQ (fun r1 h1 => List.mem_append_left _ h1) hmemR
        (hInv.fsucc r hrF c1 hst hb)
    · have hrEq := List.mem_singleton.mp hrN
      subst hrEq
      obtain ⟨node0, hnode0, ch, hch, hcond, htgt, hne, nnode, hnn, hex⟩ := hst
      rw [hlook] at hnode0
      cases hnode0
      have hne2 : ch.target ≠ "END" := by rw [htgt]; exact hne
      have hnn2 : lookupNode ch.target d.nodes = some nnode := by rw [htgt]; exact hnn
      have hin := hdisc ch hch hcond hne2 nnode hnn2 c1.2 hex
      rw [htgt] at hin
      obtain ⟨X, hXmem, hXseq⟩ := hin
      have hbX : ¬ SEq X bog := by
        intro hc
        exact hb (SEq.trans (SEq.symm hXseq) hc)
      rcases hvcov X hXmem hbX with ⟨e1, he1, hs1⟩ | ⟨r1, hr1, hs1⟩
      · refine Or.inl ⟨e1, he1, SEq.trans hs1 hXseq, ?_⟩
        exact hbndQ1 e1 he1
      · refine Or.inr ⟨r1, hr1, SEq.trans hs1 hXseq, ?_⟩
        rcases List.mem_append.mp hr1 with hrF1 | hrN1
        · exact hInv.fbound r1 hrF1 e (List.mem_cons_self e qrest)
        · rw [List.mem_singleton.mp hrN1]
          exact Nat.le_succ _
  · exact CovLE_step hsubQ (fun r1 h1 => List.mem_append_left _ h1) hmemR
      hInv.seedcov

/-- On a trigger-free dialogue, a path found by the BFS loop is no longer
than any admissible walk reaching the target (or exiting to `"END"` when
the target is `"END"`). -/
theorem bfsLoop_min {d : EDialogue} {t : String} {bog : Sig}
    {c0 : String × WebGameState} (h0 : NDS c0.2) (hts : t ≠ c0.1) :
    ∀ (fuel : Nat) (Q : List BEntry) (V : List Sig) (F : List FEnt),
    BInv d t bog c0 Q V F →
    ∀ {p : List String} {stp : WebGameState},
    bfsLoop d t [] fuel Q V = .found p stp →
    (∀ j c, AWalk d bog c0 j c → c.1 = t → p.length ≤ j + 1) ∧
    (t = "END" → ∀ j c, AWalk d bog c0 j c → endStep d c → p.length ≤ j + 2) := by
  intro fuel
  induction fuel with
  | zero =>
    intro Q V F hInv p stp h
    exact PathRes.noConfusion h
  | succ fuel ih =>
    intro Q V F hInv p stp h
    cases Q with
    | nil => exact PathRes.noConfusion h
    | cons e qrest =>
      simp only [bfsLoop] at h
      split at h
      · injection h with h1 h2
        subst h1
        constructor
        · intro j c hw hct
          rcases walkCover h0 hInv hw with ⟨r, hr, hs, hl⟩ | hlen
          · exact absurd (hs.1.trans hct) (hInv.fnode r hr)
          · exact hlen
        · intro htE j c hw hes
          rcases walkCover h0 hInv hw with ⟨r, hr, hs, hl⟩ | hlen
          · have hnds1 : NDS c.2 := AWalk_NDS h0 hw
            have hndsr : NDS r.state := hInv.fnds r hr
            have hoeq : OEq c.2 r.state := OEq_of_SEq hnds1 hndsr (SEq.symm hs)
            have hes2 : endStep d (c.1, r.state) := endStep_congr hoeq hes
            have hrn : r.node = c.1 := hs.1
            rw [← hrn] at hes2
            exact absurd hes2 (hInv.fend r hr htE)
          · exact le_trans hlen (Nat.le_succ _)
      · rename_i hnet
        split at h
        · rename_i hlook
          exact ih qrest V _ (BInv_skip hInv hnet hlook) h
        · rename_i node hlook
          split at h
          · rename_i p0 st0 hbc
            obtain ⟨htE, hp0, hst0⟩ := bfsChoices_ret_spec hbc
            injection h with h1 h2
            subst h1
            constructor
            · intro j c hw hct
              rw [htE] at hct
              have hc0 := AWalk_END_eq_seed hw hct
              refine absurd (htE.trans ?_) hts
              rw [← hc0]
              exact hct.symm
            · intro _ j c hw hes
              rcases walkCover h0 hInv hw with ⟨r, hr, hs, hl⟩ | hlen
              · have hnds1 : NDS c.2 := AWalk_NDS h0 hw
                have hndsr : NDS r.state := hInv.fnds r hr
                have hoeq : OEq c.2 r.state := OEq_of_SEq hnds1 hndsr (SEq.symm hs)
                have hes2 : endStep d (c.1, r.state) := endStep_congr hoeq hes
                have hrn : r.node = c.1 := hs.1
                rw [← hrn] at hes2
                exact absurd hes2 (hInv.fend r hr htE)
              · rw [hp0]
                simp only [List.length_append, List.length_singleton]
                omega
          · exact PathRes.noConfusion h
          · rename_i Q1 V1 hbc
            have hInv2 := BInv_expand hInv hnet hlook hbc
            split at h
            · simp only [bfsJumps] at h
              exact ih Q1 V1 _ hInv2 h
            · exact ih Q1 V1 _ hInv2 h

theorem NDS_empty : NDS ⟨[], [], []⟩ :=
  ⟨List.nodup_nil, List.nodup_nil, List.nodup_nil⟩

/-- What the shared preamble guarantees when it seeds the frontier. -/
theorem enginePrep_inr {d : EDialogue} {target : String} {e0 : BEntry}
    {v0 : List Sig} (h : enginePrep d target = .inr (e0, v0)) :
    e0.node = d.start_node ∧ e0.path = [d.start_node] ∧ e0.used = [] ∧
      NDS e0.state ∧ v0 = [⟨d.start_node, [], [], e0.state.vars⟩] ∧
      target ≠ d.start_node := by
  unfold enginePrep at h
  split at h
  · exact Sum.noConfusion h
  · rename_i st0 hst0
    have hnds0 : NDS st0 := execCmdsE_NDS NDS_empty hst0
    split at h
    · split at h
      · split at h
        · exact Sum.noConfusion h
        · exact Sum.noConfusion h
      · exact Sum.noConfusion h
    · rename_i hne
      split at h
      · exact Sum.noConfusion h
      · split at h
        · exact Sum.noConfusion h
        · rename_i st1 hst1
          injection h with h1
          injection h1 with he hv
          subst he
          subst hv
          have hnds1 : NDS st1 := by
            rcases hlk : lookupNode d.start_node d.nodes with _ | sn
            · rw [hlk] at hst1
              cases hst1
              exact hnds0
            · rw [hlk] at hst1
              exact execCmdsE_NDS hnds0 hst1
          exact ⟨rfl, rfl, rfl, hnds1, rfl, hne⟩

/-- The invariant holds for the freshly seeded frontier. -/
theorem BInv_init {d : EDialogue} {t : String} {e0 : BEntry}
    (hpath : e0.path = [d.start_node]) (hnds : NDS e0.state) :
    BInv d t (⟨d.start_node, [], [], e0.state.vars⟩ : Sig) (e0.node, e0.state)
      [e0] [⟨d.start_node, [], [], e0.state.vars⟩] [] := by
  refine ⟨List.pairwise_singleton _ _, ?_, ?_, ?_, ?_, ?_, ?_, ?_, ?_, ?_⟩
  · intro a ha b hb
    rw [List.mem_singleton.mp ha, List.mem_singleton.mp hb]
    exact Nat.le_succ _
  · intro e1 he1
    rw [List.mem_singleton.mp he1]
    exact hnds
  · intro r hr; exact absurd hr (List.not_mem_nil r)
  · intro r hr; exact absurd hr (List.not_mem_nil r)
  · intro r hr; exact absurd hr (List.not_mem_nil r)
  · intro r hr; exact absurd hr (List.not_mem_nil r)
  · intro r hr; exact absurd hr (List.not_mem_nil r)
  · intro X hX hb
    rw [List.mem_singleton.mp hX] at hb
    exact absurd (SEq.refl _) hb
  · refine Or.inl ⟨e0, List.mem_singleton.mpr rfl, SEq.refl _, ?_⟩
    rw [hpath]
    exact le_refl _

theorem triggerNodes_nil {d : EDialogue} (h : ∀ p ∈ d.nodes, p.2.triggers = []) :
    triggerNodes d = [] := by
  unfold triggerNodes
  rw [List.filter_eq_nil]
  intro p hp
  simp [h p hp]

/-! ### Soundness of the randomized DFS: every returned path realises an
admissible walk -/

theorem inVisited_sub_false {V W : List Sig} {sg : Sig}
    (hsub : ∀ x ∈ V, x ∈ W) (h : inVisited W sg = false) :
    inVisited V sg = false := by
  cases hv : inVisited V sg with
  | false => rfl
  | true =>
    exfalso
    obtain ⟨x, hx, hs⟩ := inVisited_iff.mp hv
    rw [inVisited_iff.mpr ⟨x, hsub x hx, hs⟩] at h
    exact Bool.noConfusion h

theorem not_SEq_bog_of_inVisited_false {V : List Sig} {bog sg : Sig}
    (hbog : InV V bog) (h : inVisited V sg = false) : ¬ SEq sg bog := by
  intro hs
  obtain ⟨x, hx, hxb⟩ := hbog
  rw [inVisited_iff.mpr ⟨x, hx, SEq.trans hxb (SEq.symm hs)⟩] at h
  exact Bool.noConfusion h

theorem mem_of_getElem_some {α : Type} : ∀ {l : List α} {i : Nat} {x : α},
    l[i]? = some x → x ∈ l
  | [], i, x, h => by simp at h
  | a :: l, 0, x, h => by
    rw [List.getElem?_cons_zero] at h
    cases h
    exact List.mem_cons_self _ _
  | a :: l, i + 1, x, h => by
    rw [List.getElem?_cons_succ] at h
    exact List.mem_cons_of_mem a (mem_of_getElem_some h)

theorem mem_applyPerm {α : Type} {perm : List Nat} {l : List α} {x : α}
    (h : x ∈ applyPerm perm l) : x ∈ l := by
  unfold applyPerm at h
  split at h
  · obtain ⟨i, hi, hx⟩ := List.mem_filterMap.mp h
    exact mem_of_getElem_some hx
  · exact h

/-- An in-loop return of the DFS collection loop is the `"END"` early
return, witnessed by a satisfied choice to `"END"`. -/
theorem dfsChoices_ret_spec {d : EDialogue} {t : String} {e : BEntry} :
    ∀ {chs : List EChoice} {acc : List (String × WebGameState × List String)}
      {p : List String} {st : WebGameState},
    dfsChoices d t e chs acc = .ret p st →
    t = "END" ∧ p = e.path ++ ["END"] ∧ st = e.state ∧
      ∃ ch ∈ chs, evalCondOptW e.state ch.condition = true ∧
        ch.target = "END" := by
  intro chs
  induction chs with
  | nil =>
    intro acc p st h
    exact CollectOut.noConfusion h
  | cons ch rest ih =>
    intro acc p st h
    simp only [dfsChoices] at h
    split at h
    · obtain ⟨h1, h2, h3, ch1, hch1, h4⟩ := ih h
      exact ⟨h1, h2, h3, ch1, List.mem_cons_of_mem ch hch1, h4⟩
    · rename_i hcyes
      have hctrue : evalCondOptW e.state ch.condition = true := by
        rcases Bool.eq_false_or_eq_true (evalCondOptW e.state ch.condition) with
          htr | hf
        · exact htr
        · exact absurd (by simp [hf]) hcyes
      split at h
      · rename_i hEND
        split at h
        · rename_i ht
          injection h with h1 h2
          exact ⟨ht, h1.symm, h2.symm,
            ch, List.mem_cons_self ch rest, hctrue, hEND⟩
        · obtain ⟨h1, h2, h3, ch1, hch1, h4⟩ := ih h
          exact ⟨h1, h2, h3, ch1, List.mem_cons_of_mem ch hch1, h4⟩
      · split at h
        · obtain ⟨h1, h2, h3, ch1, hch1, h4⟩ := ih h
          exact ⟨h1, h2, h3, ch1, List.mem_cons_of_mem ch hch1, h4⟩
        · split at h
          · exact CollectOut.noConfusion h
          · obtain ⟨h1, h2, h3, ch1, hch1, h4⟩ := ih h
            exact ⟨h1, h2, h3, ch1, List.mem_cons_of_mem ch hch1, h4⟩

/-- Every candidate collected by the DFS choice loop is a satisfied choice
to a real node whose commands ran on a copy of the popped state. -/
theorem dfsChoices_cont_spec {d : EDialogue} {t : String} {e : BEntry} :
    ∀ {chs : List EChoice} {acc acc1 : List (String × WebGameState × List String)},
    dfsChoices d t e chs acc = .cont acc1 →
    ∀ x ∈ acc1, x ∈ acc ∨
      (x.2.2 = e.used ∧ x.1 ≠ "END" ∧
        (∃ ch ∈ chs, evalCondOptW e.state ch.condition = true ∧
          ch.target = x.1) ∧
        ∃ nnode, lookupNode x.1 d.nodes = some nnode ∧
          execCmdsE e.state nnode.commands = .ok x.2.1) := by
  intro chs
  induction chs with
  | nil =>
    intro acc acc1 h x hx
    injection h with h1
    rw [← h1] at hx
    exact Or.inl hx
  | cons ch rest ih =>
    intro acc acc1 h x hx
    simp only [dfsChoices] at h
    split at h
    · rcases ih h x hx with hm | ⟨h1, h2, ⟨ch1, hch1, h3⟩, h4⟩
      · exact Or.inl hm
      · exact Or.inr ⟨h1, h2, ⟨ch1, List.mem_cons_of_mem ch hch1, h3⟩, h4⟩
    · split at h
      · split at h
        · exact CollectOut.noConfusion h
        · rcases ih h x hx with hm | ⟨h1, h2, ⟨ch1, hch1, h3⟩, h4⟩
          · exact Or.inl hm
          · exact Or.inr ⟨h1, h2, ⟨ch1, List.mem_cons_of_mem ch hch1, h3⟩, h4⟩
      · rename_i hcyes hnEND
        have hctrue : evalCondOptW e.state ch.condition = true := by
          rcases Bool.eq_false_or_eq_true (evalCondOptW e.state ch.condition) with
            htr | hf
          · exact htr
          · exact absurd (by simp [hf]) hcyes
        split at h
        · rcases ih h x hx with hm | ⟨h1, h2, ⟨ch1, hch1, h3⟩, h4⟩
          · exact Or.inl hm
          · exact Or.inr ⟨h1, h2, ⟨ch1, List.mem_cons_of_mem ch hch1, h3⟩, h4⟩
        · rename_i nnode0 hlook
          split at h
          · exact CollectOut.noConfusion h
          · rename_i st0 hexec
            rcases ih h x hx with hm | ⟨h1, h2, ⟨ch1, hch1, h3⟩, h4⟩
            · rcases List.mem_append.mp hm with hma | hmn
              · exact Or.inl hma
              · rw [List.mem_singleton.mp hmn]
                exact Or.inr ⟨rfl, hnEND, ⟨ch, List.mem_cons_self ch rest,
                  hctrue, rfl⟩, nnode0, hlook, hexec⟩
            · exact Or.inr ⟨h1, h2, ⟨ch1, List.mem_cons_of_mem ch hch1, h3⟩, h4⟩

/-- `dfsPush` only adds entries built from candidates that passed the
visited check against (a superset of) the current visited list. -/
theorem dfsPush_spec {e : BEntry} :
    ∀ {nexts : List (String × WebGameState × List String)}
      {stack : List BEntry} {V : List Sig} {stack2 : List BEntry}
      {V2 : List Sig},
    dfsPush e nexts stack V = (stack2, V2) →
    (∀ x ∈ V, x ∈ V2) ∧
    (∀ e1 ∈ stack2, e1 ∈ stack ∨
      ∃ x ∈ nexts, e1 = ⟨x.1, e.path ++ [x.1], x.2.1, x.2.2⟩ ∧
        inVisited V (mkSig x.1 x.2.1) = false) := by
  intro nexts
  induction nexts with
  | nil =>
    intro stack V stack2 V2 h
    injection h with h1 h2
    constructor
    · intro x hx; rw [← h2]; exact hx
    · intro e1 he1; rw [h1]; exact Or.inl he1
  | cons x rest ih =>
    intro stack V stack2 V2 h
    simp only [dfsPush] at h
    split at h
    · rename_i hvis
      obtain ⟨hV, hS⟩ := ih h
      refine ⟨hV, ?_⟩
      intro e1 he1
      rcases hS e1 he1 with hm | ⟨y, hy, he, hv⟩
      · exact Or.inl hm
      · exact Or.inr ⟨y, List.mem_cons_of_mem x hy, he, hv⟩
    · rename_i hvis
      have hvfalse : inVisited V (mkSig x.1 x.2.1) = false := by
        rcases Bool.eq_false_or_eq_true (inVisited V (mkSig x.1 x.2.1)) with
          htr | hf
        · exact absurd htr hvis
        · exact hf
      obtain ⟨hV, hS⟩ := ih h
      constructor
      · intro y hy
        exact hV y (List.mem_append_left _ hy)
      · intro e1 he1
        rcases hS e1 he1 with hm | ⟨y, hy, he, hv⟩
        · rcases List.mem_cons.mp hm with rfl | hmem
          · exact Or.inr ⟨x, List.mem_cons_self x rest, rfl, hvfalse⟩
          · exact Or.inl hmem
        · refine Or.inr ⟨y, List.mem_cons_of_mem x hy, he, ?_⟩
          exact inVisited_sub_false (fun z hz => List.mem_append_left _ hz) hv

/-- Every path the randomized DFS returns realises an admissible walk
reaching the target (or exiting to `"END"`). -/
theorem dfsLoop_sound {d : EDialogue} {t : String} {bog : Sig}
    {c0 : String × WebGameState} {oracle : Nat → List Nat} :
    ∀ (fuel k : Nat) (stack : List BEntry) (V : List Sig),
    (∀ e ∈ stack, ∃ j, e.path.length = j + 1 ∧
      AWalk d bog c0 j (e.node, e.state)) →
    InV V bog →
    ∀ {q : List String} {stq : WebGameState},
    dfsLoop d t [] oracle fuel k stack V = .found q stq →
    (∃ j c, AWalk d bog c0 j c ∧ c.1 = t ∧ q.length = j + 1) ∨
    (t = "END" ∧ ∃ j c, AWalk d bog c0 j c ∧ endStep d c ∧
      q.length = j + 2) := by
  intro fuel
  induction fuel with
  | zero =>
    intro k stack V hgood hbog q stq h
    exact PathRes.noConfusion h
  | succ fuel ih =>
    intro k stack V hgood hbog q stq h
    cases stack with
    | nil => exact PathRes.noConfusion h
    | cons e srest =>
      simp only [dfsLoop] at h
      split at h
      · rename_i hnt
        injection h with h1 h2
        obtain ⟨j, hlen, hw⟩ := hgood e (List.mem_cons_self e srest)
        exact Or.inl ⟨j, (e.node, e.state), hw, hnt, by rw [← h1, hlen]⟩
      · split at h
        · exact ih k srest V
            (fun e1 he1 => hgood e1 (List.mem_cons_of_mem e he1)) hbog h
        · rename_i node hlook
          split at h
          · rename_i p0 st0 hdc
            obtain ⟨htE, hp0, hst0, ch, hch, hcond, htgt⟩ :=
              dfsChoices_ret_spec hdc
            injection h with h1 h2
            obtain ⟨j, hlen, hw⟩ := hgood e (List.mem_cons_self e srest)
            refine Or.inr ⟨htE, j, (e.node, e.state), hw,
              ⟨node, hlook, ch, hch, hcond, htgt⟩, ?_⟩
            rw [← h1, hp0, List.length_append, List.length_singleton, hlen]
          · exact PathRes.noConfusion h
          · rename_i acc1 hdc
            split at h
            · exact PathRes.noConfusion h
            · rename_i acc2 heq
              have hacc : acc2 = acc1 := by
                cases hie : node.is_end <;> rw [hie] at heq <;>
                  simp [dfsJumps] at heq <;> exact heq.symm
              subst hacc
              rcases hdp : dfsPush e (applyPerm (oracle k) acc2) srest V with
                ⟨stack2, V2⟩
              rw [hdp] at h
              obtain ⟨hVsub, hSdesc⟩ := dfsPush_spec hdp
              refine ih (k + 1) stack2 V2 ?_ (InV_mono hbog hVsub) h
              intro e1 he1
              rcases hSdesc e1 he1 with hm | ⟨x, hx, he, hv⟩
              · exact hgood e1 (List.mem_cons_of_mem e hm)
              · obtain ⟨j, hlen, hw⟩ := hgood e (List.mem_cons_self e srest)
                have hx1 := mem_applyPerm hx
                rcases dfsChoices_cont_spec hdc x hx1 with hnil |
                  ⟨hu, hne, ⟨ch, hch, hcond, htgt⟩, nnode, hnn, hex⟩
                · exact absurd hnil (List.not_mem_nil x)
                · have hstep : stepTo d (e.node, e.state) (x.1, x.2.1) :=
                    ⟨node, hlook, ch, hch, hcond, htgt, hne, nnode, hnn, hex⟩
                  have hnb : ¬ SEq (mkSig x.1 x.2.1) bog :=
                    not_SEq_bog_of_inVisited_false hbog hv
                  refine ⟨j + 1, ?_, ?_⟩
                  · rw [he]
                    simp only [List.length_append, List.length_singleton, hlen]
                  · rw [he]
                    exact AWalk.step hw hstep hnb

/-! ### Soundness of the exploratory search -/

theorem mem_foldl_ins {α : Type} {ins : α → List α → List α}
    (hins : ∀ x y l, y ∈ ins x l → y = x ∨ y ∈ l) :
    ∀ {l acc : List α} {y : α}, y ∈ l.foldl (fun a x => ins x a) acc →
      y ∈ acc ∨ y ∈ l := by
  intro l
  induction l with
  | nil => intro acc y h; exact Or.inl h
  | cons x xs ih =>
    intro acc y h
    rw [List.foldl_cons] at h
    rcases ih h with hm | hm
    · rcases hins x y acc hm with rfl | hm2
      · exact Or.inr (List.mem_cons_self _ _)
      · exact Or.inl hm2
    · exact Or.inr (List.mem_cons_of_mem x hm)

theorem mem_insAsc {x y : Scored} :
    ∀ {l : List Scored}, y ∈ insAsc x l → y = x ∨ y ∈ l
  | [], h => by rw [insAsc] at h; exact Or.inl (List.mem_singleton.mp h)
  | z :: rest, h => by
    rw [insAsc] at h
    split at h
    · rcases List.mem_cons.mp h with rfl | hm
      · exact Or.inl rfl
      · exact Or.inr hm
    · rcases List.mem_cons.mp h with rfl | hm
      · exact Or.inr (List.mem_cons_self _ _)
      · rcases mem_insAsc hm with h1 | h1
        · exact Or.inl h1
        · exact Or.inr (List.mem_cons_of_mem z h1)

theorem mem_sortAsc {l : List Scored} {y : Scored} (h : y ∈ sortAsc l) :
    y ∈ l := by
  rcases mem_foldl_ins (fun x y l h1 => mem_insAsc h1) h with hm | hm
  · exact absurd hm (List.not_mem_nil y)
  · exact hm

theorem mem_insDesc {x y : EPath} :
    ∀ {l : List EPath}, y ∈ insDesc x l → y = x ∨ y ∈ l
  | [], h => by rw [insDesc] at h; exact Or.inl (List.mem_singleton.mp h)
  | z :: rest, h => by
    rw [insDesc] at h
    split at h
    · rcases List.mem_cons.mp h with rfl | hm
      · exact Or.inl rfl
      · exact Or.inr hm
    · rcases List.mem_cons.mp h with rfl | hm
      · exact Or.inr (List.mem_cons_self _ _)
      · rcases mem_insDesc hm with h1 | h1
        · exact Or.inl h1
        · exact Or.inr (List.mem_cons_of_mem z h1)

theorem mem_sortDesc {l : List EPath} {y : EPath} (h : y ∈ sortDesc l) :
    y ∈ l := by
  rcases mem_foldl_ins (fun x y l h1 => mem_insDesc h1) h with hm | hm
  · exact absurd hm (List.not_mem_nil y)
  · exact hm

/-- Every candidate scored by the exploratory choice loop is a satisfied
choice to a real node; every path it collects is an old one or the
`"END"` exit. -/
theorem expChoices_spec {d : EDialogue} {t : String} {e : BEntry}
    {oj : Nat → ℚ} :
    ∀ {chs : List EChoice} {k : Nat} {acc : List Scored} {paths : List EPath}
      {k1 : Nat} {acc1 : List Scored} {paths1 : List EPath},
    expChoices d t e oj chs k acc paths = .ok (k1, acc1, paths1) →
    (∀ x ∈ acc1, x ∈ acc ∨
      (x.2.2.2 = e.used ∧ x.2.1 ≠ "END" ∧
        (∃ ch ∈ chs, evalCondOptW e.state ch.condition = true ∧
          ch.target = x.2.1) ∧
        ∃ nnode, lookupNode x.2.1 d.nodes = some nnode ∧
          execCmdsE e.state nnode.commands = .ok x.2.2.1)) ∧
    (∀ pp ∈ paths1, pp ∈ paths ∨
      (t = "END" ∧ pp = (e.path ++ ["END"], e.state) ∧
        ∃ ch ∈ chs, evalCondOptW e.state ch.condition = true ∧
          ch.target = "END")) := by
  intro chs
  induction chs with
  | nil =>
    intro k acc paths k1 acc1 paths1 h
    injection h with h1
    injection h1 with hk h2
    injection h2 with ha hp
    constructor
    · intro x hx; rw [← ha] at hx; exact Or.inl hx
    · intro pp hpp; rw [← hp] at hpp; exact Or.inl hpp
  | cons ch rest ih =>
    intro k acc paths k1 acc1 paths1 h
    simp only [expChoices] at h
    split at h
    · obtain ⟨ha, hp⟩ := ih h
      constructor
      · intro x hx
        rcases ha x hx with hm | ⟨h1, h2, ⟨ch1, hch1, h3⟩, h4⟩
        · exact Or.inl hm
        · exact Or.inr ⟨h1, h2, ⟨ch1, List.mem_cons_of_mem ch hch1, h3⟩, h4⟩
      · intro pp hpp
        rcases hp pp hpp with hm | ⟨h1, h2, ch1, hch1, h3⟩
        · exact Or.inl hm
        · exact Or.inr ⟨h1, h2, ch1, List.mem_cons_of_mem ch hch1, h3⟩
    · rename_i hcyes
      have hctrue : evalCondOptW e.state ch.condition = true := by
        rcases Bool.eq_false_or_eq_true (evalCondOptW e.state ch.condition) with
          htr | hf
        · exact htr
        · exact absurd (by simp [hf]) hcyes
      split at h
      · rename_i hEND
        split at h
        · rename_i ht
          obtain ⟨ha, hp⟩ := ih h
          constructor
          · intro x hx
            rcases ha x hx with hm | ⟨h1, h2, ⟨ch1, hch1, h3⟩, h4⟩
            · exact Or.inl hm
            · exact Or.inr ⟨h1, h2, ⟨ch1, List.mem_cons_of_mem ch hch1, h3⟩, h4⟩
          · intro pp hpp
            rcases hp pp hpp with hm | ⟨h1, h2, ch1, hch1, h3⟩
            · rcases List.mem_append.mp hm with hma | hmn
              · exact Or.inl hma
              · exact Or.inr ⟨ht, List.mem_singleton.mp hmn,
                  ch, List.mem_cons_self ch rest, hctrue, hEND⟩
            · exact Or.inr ⟨h1, h2, ch1, List.mem_cons_of_mem ch hch1, h3⟩
        · obtain ⟨ha, hp⟩ := ih h
          constructor
          · intro x hx
            rcases ha x hx with hm | ⟨h1, h2, ⟨ch1, hch1, h3⟩, h4⟩
            · exact Or.inl hm
            · exact Or.inr ⟨h1, h2, ⟨ch1, List.mem_cons_of_mem ch hch1, h3⟩, h4⟩
          · intro pp hpp
            rcases hp pp hpp with hm | ⟨h1, h2, ch1, hch1, h3⟩
            · exact Or.inl hm
            · exact Or.inr ⟨h1, h2, ch1, List.mem_cons_of_mem ch hch1, h3⟩
      · rename_i hnEND
        split at h
        · obtain ⟨ha, hp⟩ := ih h
          constructor
          · intro x hx
            rcases ha x hx with hm | ⟨h1, h2, ⟨ch1, hch1, h3⟩, h4⟩
            · exact Or.inl hm
            · exact Or.inr ⟨h1, h2, ⟨ch1, List.mem_cons_of_mem ch hch1, h3⟩, h4⟩
          · intro pp hpp
            rcases hp pp hpp with hm | ⟨h1, h2, ch1, hch1, h3⟩
            · exact Or.inl hm
            · exact Or.inr ⟨h1, h2, ch1, List.mem_cons_of_mem ch hch1, h3⟩
        · rename_i nnode0 hlook
          split at h
          · exact Except.noConfusion h
          · rename_i st0 hexec
            obtain ⟨ha, hp⟩ := ih h
            constructor
            · intro x hx
              rcases ha x hx with hm | ⟨h1, h2, ⟨ch1, hch1, h3⟩, h4⟩
              · rcases List.mem_append.mp hm with hma | hmn
                · exact Or.inl hma
                · rw [List.mem_singleton.mp hmn]
                  exact Or.inr ⟨rfl, hnEND, ⟨ch, List.mem_cons_self ch rest,
                    hctrue, rfl⟩, nnode0, hlook, hexec⟩
              · exact Or.inr ⟨h1, h2, ⟨ch1, List.mem_cons_of_mem ch hch1, h3⟩, h4⟩
            · intro pp hpp
              rcases hp pp hpp with hm | ⟨h1, h2, ch1, hch1, h3⟩
              · exact Or.inl hm
              · exact Or.inr ⟨h1, h2, ch1, List.mem_cons_of_mem ch hch1, h3⟩

theorem expPush_spec {e : BEntry} :
    ∀ {nexts : List Scored} {stack : List BEntry} {V : List Sig}
      {stack2 : List BEntry} {V2 : List Sig},
    expPush e nexts stack V = (stack2, V2) →
    (∀ x ∈ V, x ∈ V2) ∧
    (∀ e1 ∈ stack2, e1 ∈ stack ∨
      ∃ x ∈ nexts, e1 = ⟨x.2.1, e.path ++ [x.2.1], x.2.2.1, x.2.2.2⟩ ∧
        inVisited V (mkSig x.2.1 x.2.2.1) = false) := by
  intro nexts
  induction nexts with
  | nil =>
    intro stack V stack2 V2 h
    injection h with h1 h2
    constructor
    · intro x hx; rw [← h2]; exact hx
    · intro e1 he1; rw [h1]; exact Or.inl he1
  | cons x rest ih =>
    intro stack V stack2 V2 h
    simp only [expPush] at h
    split at h
    · rename_i hvis
      obtain ⟨hV, hS⟩ := ih h
      refine ⟨hV, ?_⟩
      intro e1 he1
      rcases hS e1 he1 with hm | ⟨y, hy, he, hv⟩
      · exact Or.inl hm
      · exact Or.inr ⟨y, List.mem_cons_of_mem x hy, he, hv⟩
    · rename_i hvis
      have hvfalse : inVisited V (mkSig x.2.1 x.2.2.1) = false := by
        rcases Bool.eq_false_or_eq_true (inVisited V (mkSig x.2.1 x.2.2.1)) with
          htr | hf
        · exact absurd htr hvis
        · exact hf
      obtain ⟨hV, hS⟩ := ih h
      constructor
      · intro y hy
        exact hV y (List.mem_append_left _ hy)
      · intro e1 he1
        rcases hS e1 he1 with hm | ⟨y, hy, he, hv⟩
        · rcases List.mem_cons.mp hm with rfl | hmem
          · exact Or.inr ⟨x, List.mem_cons_self x rest, rfl, hvfalse⟩
          · exact Or.inl hmem
        · refine Or.inr ⟨y, List.mem_cons_of_mem x hy, he, ?_⟩
          exact inVisited_sub_false (fun z hz => List.mem_append_left _ hz) hv

/-- A collected exploratory path realises an admissible walk reaching the
target (or exiting to `"END"`). -/
def PathGood (d : EDialogue) (bog : Sig) (c0 : String × WebGameState)
    (t : String) (pp : EPath) : Prop :=
  (∃ j c, AWalk d bog c0 j c ∧ c.1 = t ∧ pp.1.length = j + 1) ∨
  (t = "END" ∧ ∃ j c, AWalk d bog c0 j c ∧ endStep d c ∧
    pp.1.length = j + 2)

theorem expLoop_sound {d : EDialogue} {t : String} {bog : Sig}
    {c0 : String × WebGameState} {oj : Nat → ℚ} :
    ∀ (fuel k : Nat) (stack : List BEntry) (V : List Sig)
      (paths : List EPath),
    (∀ e ∈ stack, ∃ j, e.path.length = j + 1 ∧
      AWalk d bog c0 j (e.node, e.state)) →
    InV V bog →
    (∀ pp ∈ paths, PathGood d bog c0 t pp) →
    ∀ {paths2 : List EPath},
    expLoop d t [] oj fuel k stack V paths = .ok paths2 →
    ∀ pp ∈ paths2, PathGood d bog c0 t pp := by
  intro fuel
  induction fuel with
  | zero =>
    intro k stack V paths hgood hbog hpaths paths2 h
    injection h with h1
    rw [← h1]
    exact hpaths
  | succ fuel ih =>
    intro k stack V paths hgood hbog hpaths paths2 h
    cases stack with
    | nil =>
      injection h with h1
      rw [← h1]
      exact hpaths
    | cons e srest =>
      simp only [expLoop] at h
      split at h
      · rename_i hnt
        have hgold : ∀ pp ∈ paths ++ [(e.path, e.state)],
            PathGood d bog c0 t pp := by
          intro pp hpp
          rcases List.mem_append.mp hpp with hm | hm
          · exact hpaths pp hm
          · obtain ⟨j, hlen, hw⟩ := hgood e (List.mem_cons_self e srest)
            rw [List.mem_singleton.mp hm]
            exact Or.inl ⟨j, (e.node, e.state), hw, hnt, hlen⟩
        split at h
        · injection h with h1
          rw [← h1]
          exact hgold
        · exact ih k srest V _
            (fun e1 he1 => hgood e1 (List.mem_cons_of_mem e he1)) hbog hgold h
      · split at h
        · exact ih k srest V _
            (fun e1 he1 => hgood e1 (List.mem_cons_of_mem e he1)) hbog hpaths h
        · rename_i node hlook
          split at h
          · exact Except.noConfusion h
          · rename_i k1 acc1 paths1 hec
            obtain ⟨hacc, hpths⟩ := expChoices_spec hec
            split at h
            · exact Except.noConfusion h
            · rename_i k2 acc2 heq
              have hacc2 : acc2 = acc1 := by
                cases hie : node.is_end <;> rw [hie] at heq <;>
                  simp [expJumps] at heq <;> exact heq.2.symm
              subst hacc2
              rcases hep : expPush e (sortAsc acc2) srest V with ⟨stack2, V2⟩
              rw [hep] at h
              obtain ⟨hVsub, hSdesc⟩ := expPush_spec hep
              have hpgood1 : ∀ pp ∈ paths1, PathGood d bog c0 t pp := by
                intro pp hpp
                rcases hpths pp hpp with hm | ⟨ht, hpe, ch, hch, hcond, htgt⟩
                · exact hpaths pp hm
                · obtain ⟨j, hlen, hw⟩ := hgood e (List.mem_cons_self e srest)
                  refine Or.inr ⟨ht, j, (e.node, e.state), hw,
                    ⟨node, hlook, ch, hch, hcond, htgt⟩, ?_⟩
                  rw [hpe]
                  simp only [List.length_append, List.length_singleton, hlen]
              refine ih k2 stack2 V2 _ ?_ (InV_mono hbog hVsub) hpgood1 h
              intro e1 he1
              rcases hSdesc e1 he1 with hm | ⟨x, hx, he, hv⟩
              · exact hgood e1 (List.mem_cons_of_mem e hm)
              · obtain ⟨j, hlen, hw⟩ := hgood e (List.mem_cons_self e srest)
                have hx1 := mem_sortAsc hx
                rcases hacc x hx1 with hnil |
                  ⟨hu, hne, ⟨ch, hch, hcond, htgt⟩, nnode, hnn, hex⟩
                · exact absurd hnil (List.not_mem_nil x)
                · have hstep : stepTo d (e.node, e.state) (x.2.1, x.2.2.1) :=
                    ⟨node, hlook, ch, hch, hcond, htgt, hne, nnode, hnn, hex⟩
                  have hnb : ¬ SEq (mkSig x.2.1 x.2.2.1) bog :=
                    not_SEq_bog_of_inVisited_false hbog hv
                  refine ⟨j + 1, ?_, ?_⟩
                  · rw [he]
                    simp only [List.length_append, List.length_singleton, hlen]
                  · rw [he]
                    exact AWalk.step hw hstep hnb

/-- **C3 (amended).**  On a trigger-free dialogue the `shortest` policy,
whenever it returns a path, returns one no longer than any path the
`random` or `explore` policies can return for the same target (over every
fuel bound, shuffle oracle, jitter oracle and pick).  (With triggers the
original claim is false: see `claim_C3_counterexample`.) -/
theorem claim_C3_amended {d : EDialogue}
    (htf : ∀ pr ∈ d.nodes, pr.2.triggers = [])
    {fuel : Nat} {target : String} {p : List String} {stp : WebGameState}
    (hbfs : findValidPathE fuel d target = .found p stp) :
    (∀ fuel2 oracle q stq,
      findRandomPathE fuel2 oracle d target = .found q stq →
      p.length ≤ q.length) ∧
    (∀ oj pick r str2,
      findExplorePathE oj pick d target = .found r str2 →
      p.length ≤ r.length) := by
  have htn := triggerNodes_nil htf
  unfold findValidPathE at hbfs
  rcases hprep : enginePrep d target with r0 | ep
  · rw [hprep] at hbfs
    constructor
    · intro fuel2 oracle q stq hr
      unfold findRandomPathE at hr
      rw [hprep, hbfs] at hr
      injection hr with h1 h2
      rw [h1]
    · intro oj pick r str2 hr
      unfold findExplorePathE at hr
      rw [hprep, hbfs] at hr
      injection hr with h1 h2
      rw [h1]
  · rcases ep with ⟨e0, v0⟩
    rw [hprep, htn] at hbfs
    obtain ⟨hnode, hpath, hused, hnds, hv0, hne⟩ := enginePrep_inr hprep
    have hInv0 : BInv d target (⟨d.start_node, [], [], e0.state.vars⟩ : Sig)
        (e0.node, e0.state) [e0] [⟨d.start_node, [], [], e0.state.vars⟩] [] :=
      BInv_init hpath hnds
    rw [← hv0] at hInv0
    have hts : target ≠ ((e0.node, e0.state) : String × WebGameState).1 := by
      show target ≠ e0.node
      rw [hnode]
      exact hne
    have hmin := @bfsLoop_min d target
      (⟨d.start_node, [], [], e0.state.vars⟩ : Sig) (e0.node, e0.state)
      hnds hts fuel [e0] v0 [] hInv0 p stp hbfs
    have hseedgood : ∀ e1 ∈ [e0], ∃ j, e1.path.length = j + 1 ∧
        AWalk d (⟨d.start_node, [], [], e0.state.vars⟩ : Sig)
          (e0.node, e0.state) j (e1.node, e1.state) := by
      intro e1 he1
      rw [List.mem_singleton.mp he1]
      refine ⟨0, ?_, AWalk.refl⟩
      rw [hpath]
      rfl
    have hbogin : InV v0 (⟨d.start_node, [], [], e0.state.vars⟩ : Sig) := by
      rw [hv0]
      exact ⟨_, List.mem_singleton.mpr rfl, SEq.refl _⟩
    constructor
    · intro fuel2 oracle q stq hr
      unfold findRandomPathE at hr
      rw [hprep, htn] at hr
      rcases @dfsLoop_sound d target
          (⟨d.start_node, [], [], e0.state.vars⟩ : Sig) (e0.node, e0.state)
          oracle fuel2 0 [e0] v0 hseedgood hbogin q stq hr with
        ⟨j, c, hw, hct, hqlen⟩ | ⟨htE, j, c, hw, hes, hqlen⟩
      · rw [hqlen]
        exact hmin.1 j c hw hct
      · rw [hqlen]
        exact hmin.2 htE j c hw hes
    · intro oj pick r str2 hr
      unfold findExplorePathE at hr
      simp only [hprep, htn] at hr
      rcases hel : expLoop d target [] oj 10000 0 [e0] v0 [] with e1 | paths
      · rw [hel] at hr
        exact PathRes.noConfusion hr
      · simp only [hel] at hr
        cases hemp : paths.isEmpty with
        | true =>
          rw [hemp] at hr
          simp at hr
        | false =>
          rw [hemp] at hr
          simp only [Bool.false_eq_true, if_false] at hr
          split at hr
          · rename_i p1 st1 hidx
            injection hr with h1 h2
            have hmem1 := mem_of_getElem_some hidx
            have hmem2 := List.mem_of_mem_take hmem1
            have hmem3 := mem_sortDesc hmem2
            have hpg := expLoop_sound 10000 0 [e0] v0 [] hseedgood hbogin
              (fun pp hpp => absurd hpp (List.not_mem_nil pp)) hel (p1, st1) hmem3
            rw [← h1]
            rcases hpg with ⟨j, c, hw, hct, hqlen⟩ | ⟨htE, j, c, hw, hes, hqlen⟩
            · rw [show p1.length = j + 1 from hqlen]
              exact hmin.1 j c hw hct
            · rw [show p1.length = j + 2 from hqlen]
              exact hmin.2 htE j c hw hes
          · exact PathRes.noConfusion hr

/-- A two-node trigger-free dialogue on which all three policies can
return a path to `"goal"`. -/
def dW3 : EDialogue where
  start_node := "start"
  nodes :=
    [("start", { choices := [{ target := "goal" }] }),
     ("goal", { is_end := true })]

theorem claim_C3_amended_witness :
    (∀ pr ∈ dW3.nodes, pr.2.triggers = []) ∧
    findValidPathE 8 dW3 "goal" = .found ["start", "goal"] ⟨[], [], []⟩ ∧
    (∀ fuel2 oracle q stq,
      findRandomPathE fuel2 oracle dW3 "goal" = .found q stq →
      (["start", "goal"] : List String).length ≤ q.length) ∧
    (∀ oj pick r str2,
      findExplorePathE oj pick dW3 "goal" = .found r str2 →
      (["start", "goal"] : List String).length ≤ r.length) :=
  by
  have htf : ∀ pr ∈ dW3.nodes, pr.2.triggers = [] := by decide
  have hbfs : findValidPathE 8 dW3 "goal" =
      .found ["start", "goal"] ⟨[], [], []⟩ := by decide
  exact ⟨htf, hbfs, (claim_C3_amended htf hbfs).1, (claim_C3_amended htf hbfs).2⟩

/-! ## The parser (parser/parser.py)

Python strings are modelled as `List Char` (`PStr`); each helper below is
one `str` method as the parser uses it.  Index-based loops over the line
list become loops over the remaining suffix, carrying the absolute line
index for diagnostics; the two loops whose per-iteration consumption is
data-dependent (`parse_lines`, `_parse_node`) take fuel, always called
with more fuel than lines. -/

/-- Python string model. -/
abbrev PStr := List Char

/-- Python `str.isspace` characters relevant to `strip` (space, tab,
newline, carriage return, form feed, vertical tab). -/
def isWsC (c : Char) : Bool :=
  c = ' ' || c = '\t' || c = '\n' || c = '\r' || c = '\x0c' || c = '\x0b'

/-- `str.lstrip()`. -/
def plstrip (s : PStr) : PStr := s.dropWhile isWsC

/-- `str.rstrip()`. -/
def prstrip (s : PStr) : PStr := (s.reverse.dropWhile isWsC).reverse

/-- `str.strip()`. -/
def pstrip (s : PStr) : PStr := prstrip (plstrip s)

/-- `str.startswith(pat)`. -/
def startsW : PStr → PStr → Bool
  | [], _ => true
  | _ :: _, [] => false
  | p :: ps, c :: cs => p = c && startsW ps cs

/-- `str.endswith(pat)`. -/
def endsW (pat s : PStr) : Bool := startsW pat.reverse s.reverse

/-- `str.count(c)` for a single character. -/
def countCh (c : Char) (s : PStr) : Nat := (s.filter (fun d => d = c)).length

/-- `s in t` for a single-character `s`. -/
def containsCh (c : Char) (s : PStr) : Bool := s.any (fun d => d = c)

/-- `str.find(c)` for a single character: first index or `none`. -/
def pfind (c : Char) : PStr → Option Nat
  | [] => none
  | d :: rest => if d = c then some 0 else (pfind c rest).map (· + 1)

/-- `str.rfind(c)` / `str.rindex(c)`: last index or `none`. -/
def prfind (c : Char) (s : PStr) : Option Nat :=
  (pfind c s.reverse).map (fun i => s.length - 1 - i)

/-- `s in t` for a multi-character needle. -/
def containsSub (pat : PStr) : PStr → Bool
  | [] => pat.isEmpty
  | c :: rest => startsW pat (c :: rest) || containsSub pat rest

/-- `str.split(c, 1)`: split at the first occurrence of `c`. -/
def splitFirst (c : Char) : PStr → Option (PStr × PStr)
  | [] => none
  | d :: rest =>
    if d = c then some ([], rest)
    else (splitFirst c rest).map (fun p => (d :: p.1, p.2))

/-- `str.split(c)`: split on every occurrence, keeping empty parts
(accumulator form of the repeated first-split). -/
def splitAllAux (c : Char) : PStr → PStr → List PStr
  | [], acc => [acc.reverse]
  | d :: rest, acc =>
    if d = c then acc.reverse :: splitAllAux c rest []
    else splitAllAux c rest (d :: acc)

def splitAll (c : Char) (s : PStr) : List PStr := splitAllAux c s []

/-- `str.split()`: split on whitespace runs, dropping empty parts. -/
def splitWsAux : PStr → PStr → List PStr
  | [], acc => if acc.isEmpty then [] else [acc.reverse]
  | d :: rest, acc =>
    if isWsC d then
      if acc.isEmpty then splitWsAux rest [] else acc.reverse :: splitWsAux rest []
    else splitWsAux rest (d :: acc)

def splitWs (s : PStr) : List PStr := splitWsAux s []

/-- `" ".join(parts)`. -/
def joinSp : List PStr → PStr
  | [] => []
  | [p] => p
  | p :: q :: rest => p ++ ' ' :: joinSp (q :: rest)

/-- `str.lower()`. -/
def plower (s : PStr) : PStr := s.map Char.toLower

/-- Python `\w` (ASCII view: letters, digits, underscore). -/
def isWordC (c : Char) : Bool := c.isAlphanum || c = '_'

/-- `int(s)` accepts an optional sign and digits with single embedded
underscores. -/
def pyIntOk (s : PStr) : Bool :=
  let body := match s with
    | '+' :: rest => rest
    | '-' :: rest => rest
    | rest => rest
  digitsUnd body
where
  /-- digits with single underscores strictly between digits -/
  digitsUnd : PStr → Bool
    | [] => false
    | [c] => c.isDigit
    | c :: '_' :: d :: rest => c.isDigit && digitsUnd (d :: rest)
    | c :: d :: rest => c.isDigit && digitsUnd (d :: rest)

/-! ### The parser's data model (parser.py dataclasses, lines 11-86)

Line numbers are carried as in the source; diagnostic messages are
abstracted into structured constructors: each constructor stands for one
f-string the source appends, with the interpolated data as payload. -/

structure PTrigger where
  trigger_type : PStr
  target : PStr
  condition : Option PStr := none
  line_number : Nat := 0
  deriving DecidableEq, Repr

structure PEntryRoute where
  condition : Option PStr
  target : PStr
  line_number : Nat := 0
  deriving DecidableEq, Repr

structure PEntryGroup where
  name : PStr
  routes : List PEntryRoute := []
  exits : List PStr := []
  line_number : Nat := 0
  deriving DecidableEq, Repr

structure PChoice where
  target : PStr
  text : PStr
  condition : Option PStr := none
  line_number : Nat := 0
  deriving DecidableEq, Repr

structure PDialogueLine where
  speaker : PStr
  text : PStr
  condition : Option PStr := none
  tags : List PStr := []
  line_number : Nat := 0
  deriving DecidableEq, Repr

structure PNode where
  id : PStr
  lines : List PDialogueLine := []
  choices : List PChoice := []
  commands : List PStr := []
  triggers : List PTrigger := []
  is_end : Bool := false
  line_number : Nat := 0
  deriving DecidableEq, Repr

/-- One warning message (`dialogue.warnings` entry), by source site. -/
inductive PWarn where
  | stateContent (line : Nat) (text : PStr)
  | emptyExit (line : Nat) (entry : PStr)
  | emptyRouteTarget (line : Nat) (entry : PStr)
  | entryContent (line : Nat) (entry : PStr) (text : PStr)
  | noRoutes (entry : PStr)
  | dupEntry (line : Nat) (entry : PStr)
  | unknownTrigger (line : Nat) (text : PStr)
  | condUnbalancedBraces (line : Nat) (cond : PStr)
  | condUnbalancedParens (line : Nat) (cond : PStr)
  | condDoubleAnd (line : Nat)
  | condDoubleOr (line : Nat)
  | condHasItemSpace (line : Nat)
  | condCompanionSpace (line : Nat)
  | condSingleEquals (line : Nat)
  | cmdMissingArgs (line : Nat) (cmd : PStr)
  | cmdRequiresEquals (line : Nat) (cmd : PStr)
  | cmdNonNumeric (line : Nat) (cmd arg : PStr)
  | cmdTypo (line : Nat) (cmd suggestion : PStr)
  deriving DecidableEq, Repr

/-- One error message (`dialogue.errors` entry), by source site. -/
inductive PErr where
  | triggerMissingTarget (line : Nat) (text : PStr)
  | undefinedTarget (line : Nat) (target node : PStr)
  | entryTargetMissing (line : Nat) (target entry : PStr)
  deriving DecidableEq, Repr

structure PDialogue where
  characters : List (PStr × PStr) := []
  nodes : List (PStr × PNode) := []
  entries : List (PStr × PEntryGroup) := []
  start_node : Option PStr := none
  initial_state : List PStr := []
  errors : List PErr := []
  warnings : List PWarn := []
  deriving DecidableEq, Repr

/-- Python `dict` access on an insertion-ordered association list. -/
def plookup {α : Type} (k : PStr) : List (PStr × α) → Option α
  | [] => none
  | (k1, v) :: rest => if k1 = k then some v else plookup k rest

/-- Python `d[k] = v`: an existing key keeps its position, a new key is
appended. -/
def passign {α : Type} (k : PStr) (v : α) : List (PStr × α) → List (PStr × α)
  | [] => [(k, v)]
  | (k1, v1) :: rest =>
    if k1 = k then (k1, v) :: rest else (k1, v1) :: passign k v rest

/-! ### Condition and command syntax validation
(parser.py lines 158-302) -/

/-- `re.search` for `&&\s*&&` / `\|\|\s*\|\|` (the two-symbol operator
given as the repeated character). -/
def hasDoubleOp (c : Char) : PStr → Bool
  | a :: b :: rest =>
    (a = c && b = c && startsW [c, c] (rest.dropWhile isWsC))
      || hasDoubleOp c (b :: rest)
  | _ => false

/-- `re.search` for `\bword\s+\w+`: an occurrence of `word` at a word
boundary followed by whitespace and a word character.  `prev` is the
character before the scan position. -/
def hasWordSpaceArg (w : PStr) : Option Char → PStr → Bool
  | _, [] => false
  | prev, c :: rest =>
    ((match prev with
      | none => true
      | some p => !isWordC p) && startsW w (c :: rest) &&
      (match (c :: rest).drop w.length with
       | d :: rest2 =>
         isWsC d && (match (d :: rest2).dropWhile isWsC with
           | e :: _ => isWordC e
           | [] => false)
       | [] => false))
      || hasWordSpaceArg w (some c) rest

/-- `re.search` for `[^!<>=]=[^=]`. -/
def hasBareEq : PStr → Bool
  | a :: b :: c :: rest =>
    (!(a = '!' || a = '<' || a = '>' || a = '=') && b = '=' && !(c = '='))
      || hasBareEq (b :: c :: rest)
  | _ => false

/-- `validate_condition_syntax` (lines 158-195). -/
def validateCondSyntax (condition : PStr) (line_number : Nat) : List PWarn :=
  if (pstrip condition).isEmpty then []
  else
    let condition := pstrip condition
    (if countCh '{' condition ≠ countCh '}' condition then
      [.condUnbalancedBraces line_number condition] else []) ++
    (if countCh '(' condition ≠ countCh ')' condition then
      [.condUnbalancedParens line_number condition] else []) ++
    (if containsSub ['&', '&'] condition && hasDoubleOp '&' condition then
      [.condDoubleAnd line_number] else []) ++
    (if containsSub ['|', '|'] condition && hasDoubleOp '|' condition then
      [.condDoubleOr line_number] else []) ++
    (if hasWordSpaceArg "has_item".data none condition then
      [.condHasItemSpace line_number] else []) ++
    (if hasWordSpaceArg "companion".data none condition then
      [.condCompanionSpace line_number] else []) ++
    (if hasBareEq condition then [.condSingleEquals line_number] else [])

/-- `_string_similarity s1 s2 > 0.7` with the ratio compared exactly
(`matches / max(len) > 7/10` ⟺ `10·matches > 7·max(len)`). -/
def simGT7 (s1 s2 : PStr) : Bool :=
  if s1.isEmpty || s2.isEmpty then false
  else
    let mcount := ((plower s1).zip (plower s2)).countP (fun p => p.1 = p.2)
    7 * max s1.length s2.length < 10 * mcount

/-- The `KNOWN_COMMANDS` table (lines 214-248): name, minimum parts,
requires-equals. -/
def knownCommands : List (PStr × Nat × Bool) :=
  [("set".data, 4, true), ("add".data, 4, true), ("sub".data, 4, true),
   ("give_item".data, 2, false), ("remove_item".data, 2, false),
   ("add_companion".data, 2, false), ("remove_companion".data, 2, false),
   ("start_combat".data, 2, false), ("start_conversation".data, 2, false)]

/-- The `TYPO_SUGGESTIONS` table (lines 271-284). -/
def typoSuggestions : List (PStr × PStr) :=
  [("sett".data, "set".data), ("ad".data, "add".data),
   ("addd".data, "add".data), ("subb".data, "sub".data),
   ("give".data, "give_item".data), ("remove".data, "remove_item".data),
   ("addcompanion".data, "add_companion".data),
   ("removecompanion".data, "remove_companion".data),
   ("give_companion".data, "add_companion".data),
   ("giveitem".data, "give_item".data),
   ("removeitem".data, "remove_item".data),
   ("startcombat".data, "start_combat".data)]

/-- The first known command more than 0.7-similar to `cmd`
(the `for known_cmd in KNOWN_COMMANDS ... break` loop). -/
def firstSimilar (cmd : PStr) : List (PStr × Nat × Bool) → Option PStr
  | [] => none
  | (k, _) :: rest => if simGT7 cmd k then some k else firstSimilar cmd rest

/-- `validate_command_syntax` (lines 197-295). -/
def validateCmdSyntax (command : PStr) (line_number : Nat) : List PWarn :=
  if (pstrip command).isEmpty then []
  else
    let command := pstrip command
    match splitWs command with
    | [] => []
    | p0 :: prest =>
      let cmd := plower p0
      let parts := p0 :: prest
      match plookup cmd knownCommands with
      | some (minParts, reqEq) =>
        (if parts.length < minParts then
          [.cmdMissingArgs line_number cmd] else []) ++
        (if reqEq && !containsCh '=' command then
          [.cmdRequiresEquals line_number cmd] else []) ++
        (if (cmd = "add".data || cmd = "sub".data) && 4 ≤ parts.length then
          match parts[3]? with
          | some arg => if !pyIntOk arg then
              [.cmdNonNumeric line_number cmd arg] else []
          | none => []
         else [])
      | none =>
        match plookup cmd typoSuggestions with
        | some sugg => [.cmdTypo line_number cmd sugg]
        | none =>
          match firstSimilar cmd knownCommands with
          | some k => [.cmdTypo line_number cmd k]
          | none => []

/-- First index of a substring (`str.index(pat)`). -/
def pfindSub (pat : PStr) : PStr → Option Nat
  | [] => if pat.isEmpty then some 0 else none
  | c :: rest =>
    if startsW pat (c :: rest) then some 0
    else (pfindSub pat rest).map (· + 1)

/-- `[tag.strip() for tag in tags_str.split(",") if tag.strip()]`. -/
def parseTagsStr (tags_str : PStr) : List PStr :=
  (splitAll ',' tags_str).filterMap (fun t =>
    let t1 := pstrip t
    if t1.isEmpty then none else some t1)

/-- `_extract_tags` (parser.py lines 121-156). -/
def extractTags (text : PStr) : PStr × List PStr :=
  if !containsCh '[' text then (text, [])
  else
    let bs? : Option Nat :=
      if containsCh '"' text then
        match prfind '"' text with
        | some lastq =>
          match pfind '[' (text.drop lastq) with
          | some k => some (lastq + k)
          | none => none
        | none => none
      else pfind '[' text
    match bs? with
    | none => (text, [])
    | some bs =>
      match pfind ']' (text.drop bs) with
      | none => (text, [])
      | some k =>
        let be := bs + k
        let tags_str := pstrip ((text.drop (bs + 1)).take (be - (bs + 1)))
        let remaining := pstrip (text.take bs) ++ pstrip (text.drop (be + 1))
        (pstrip remaining,
          if tags_str.isEmpty then [] else parseTagsStr tags_str)

/-- `_parse_trigger` (lines 743-790): the trigger (or `None`) plus the
dialogue with any appended diagnostics.  (`_track_items_and_companions`
only feeds the editor-convenience sets and is not modelled.) -/
def parseTrigger (line : PStr) (line_number : Nat) (d : PDialogue) :
    Option PTrigger × PDialogue :=
  let parsed : Option (PStr × PStr) :=
    if startsW "@talk:".data line then some ("talk".data, pstrip (line.drop 6))
    else if startsW "@event:".data line then
      some ("event".data, pstrip (line.drop 7))
    else none
  match parsed with
  | none => (none, d)
  | some (ttype, rest) =>
    let tcd : PStr × Option PStr × PDialogue :=
      if containsCh '{' rest then
        match pfind '{' rest with
        | some bs =>
          let target := pstrip (rest.take bs)
          let cond0 := pstrip (rest.drop bs)
          let cond1 :=
            if startsW ['{'] cond0 && endsW ['}'] cond0 then
              pstrip ((cond0.drop 1).take (cond0.length - 2))
            else cond0
          if cond1.isEmpty then (target, some cond1, d)
          else (target, some cond1,
            { d with warnings :=
                d.warnings ++ validateCondSyntax cond1 line_number })
        | none => (rest, none, d)
      else (rest, none, d)
    match tcd with
    | (target, condition, d1) =>
      if target.isEmpty then
        (none, { d1 with errors :=
          d1.errors ++ [.triggerMissingTarget line_number line] })
      else (some ⟨ttype, target, condition, line_number⟩, d1)

/-- `_read_multiline_quoted_text` (lines 304-371) on the remaining line
suffix; returns `(text, tags, condition, remaining_lines, next_index)`. -/
def readMultiline : List PStr → Nat → List PStr →
    PStr × List PStr × Option PStr × List PStr × Nat
  | [], i, text_parts => (joinSp text_parts.reverse, [], none, [], i)
  | l :: rest, i, text_parts =>
    let stripped := pstrip (prstrip l)
    if stripped.isEmpty || startsW ['#'] stripped then
      readMultiline rest (i + 1) text_parts
    else if containsCh '"' stripped then
      match pfind '"' stripped with
      | none => readMultiline rest (i + 1) (stripped :: text_parts)
      | some qp =>
        let before_quote := pstrip (stripped.take qp)
        let after_quote := pstrip (stripped.drop (qp + 1))
        let parts1 :=
          if before_quote.isEmpty then text_parts else before_quote :: text_parts
        let ta : List PStr × PStr :=
          if containsCh '[' after_quote then
            match pfind '[' after_quote with
            | some bs =>
              match pfind ']' (after_quote.drop bs) with
              | some k =>
                if 0 < k then
                  let be := bs + k
                  let tags_str :=
                    pstrip ((after_quote.drop (bs + 1)).take (be - (bs + 1)))
                  let tags :=
                    if tags_str.isEmpty then [] else parseTagsStr tags_str
                  (tags, pstrip (pstrip (after_quote.take bs) ++ ' ' ::
                    pstrip (after_quote.drop (be + 1))))
                else ([], after_quote)
              | none => ([], after_quote)
            | none => ([], after_quote)
          else ([], after_quote)
        match ta with
        | (tags, aq) =>
          let condition : Option PStr :=
            if startsW ['{'] aq && endsW ['}'] aq then
              some (pstrip ((aq.drop 1).take (aq.length - 2)))
            else if containsCh '{' aq then
              match pfind '{' aq, prfind '}' aq with
              | some cs, some ce =>
                if cs < ce then
                  some (pstrip ((aq.drop (cs + 1)).take (ce - (cs + 1))))
                else none
              | _, _ => none
            else none
          (joinSp parts1.reverse, tags, condition, rest, i + 1)
    else readMultiline rest (i + 1) (stripped :: text_parts)

/-- Strip surrounding braces from an extracted condition substring
(`condition[1:-1].strip()` guarded by startswith/endswith, as repeated at
parser.py lines 694-695, 702-703, 854-855, 862-863, 885-886). -/
def braceStrip (cond0 : PStr) : PStr :=
  if startsW ['{'] cond0 && endsW ['}'] cond0 then
    pstrip ((cond0.drop 1).take (cond0.length - 2))
  else cond0

/-- `text[1:-1]` when the text is surrounded by double quotes
(lines 706-707, 866-867). -/
def unquote (text : PStr) : PStr :=
  if startsW ['"'] text && endsW ['"'] text then
    (text.drop 1).take (text.length - 2)
  else text

/-- The shared "condition after the last quote" extraction of the
speaker-line and single-line-choice parsers (lines 686-703 / 846-863):
returns the remaining text and the optional condition. -/
def splitTrailingCond (text : PStr) : PStr × Option PStr :=
  if containsCh '{' text then
    if containsCh '"' text then
      match prfind '{' text, prfind '"' text with
      | some cs, some lq =>
        if lq < cs then
          (pstrip (text.take cs), some (braceStrip (pstrip (text.drop cs))))
        else (text, none)
      | _, _ => (text, none)
    else
      match prfind '{' text with
      | some cs =>
        (pstrip (text.take cs), some (braceStrip (pstrip (text.drop cs))))
      | none => (text, none)
  else (text, none)

/-- Append condition-syntax warnings when a condition is present and
nonempty (`if condition: ... extend(...)`). -/
def warnCond (d : PDialogue) (condition : Option PStr) (line : Nat) :
    PDialogue :=
  match condition with
  | some cnd =>
    if cnd.isEmpty then d
    else { d with warnings := d.warnings ++ validateCondSyntax cnd line }
  | none => d

/-- `_parse_choice` (lines 792-905) on the current line `cur` (index `i`)
and the following lines; returns the parsed choice, the dialogue with any
appended warnings, and the remaining lines with their index. -/
def parseChoice (cur : PStr) (rest : List PStr) (i : Nat) (d : PDialogue) :
    PChoice × PDialogue × List PStr × Nat :=
  let line := pstrip cur
  let choice_text := pstrip (line.drop 2)
  let has_colon := containsCh ':' choice_text
  let has_condition := containsCh '{' choice_text
  let colon_before_condition :=
    if has_colon && has_condition then
      match pfind ':' choice_text, pfind '{' choice_text with
      | some cp, some bp => decide (cp < bp)
      | _, _ => false
    else has_colon && !has_condition
  if colon_before_condition then
    match splitFirst ':' choice_text with
    | none => (⟨choice_text, [], none, i + 1⟩, d, rest, i + 1)
    | some (tgt0, rest0) =>
      let target := pstrip tgt0
      let rest1 := pstrip rest0
      if startsW ['"'] rest1 && countCh '"' rest1 = 1 then
        let initial_text := pstrip (rest1.drop 1)
        match readMultiline rest (i + 1) [initial_text] with
        | (text, _tags, condition, rem, next_index) =>
          (⟨target, text, condition, i + 1⟩, warnCond d condition (i + 1),
            rem, next_index)
      else
        match splitTrailingCond rest1 with
        | (text, condition) =>
          (⟨target, unquote text, condition, i + 1⟩,
            warnCond d condition (i + 1), rest, i + 1)
  else
    if containsCh '{' choice_text then
      match pfind '{' choice_text with
      | some cs =>
        let target := pstrip (choice_text.take cs)
        let cond := braceStrip (pstrip (choice_text.drop cs))
        (⟨target, [], some cond, i + 1⟩, warnCond d (some cond) (i + 1),
          rest, i + 1)
      | none => (⟨choice_text, [], none, i + 1⟩, d, rest, i + 1)
    else (⟨choice_text, [], none, i + 1⟩, d, rest, i + 1)

/-- `_parse_characters` (lines 438-461). -/
def parseCharacters (d : PDialogue) :
    List PStr → Nat → PDialogue × List PStr × Nat
  | [], i => (d, [], i)
  | l :: rest, i =>
    let line := pstrip l
    if startsW ['['] line && endsW [']'] line then (d, l :: rest, i)
    else if line.isEmpty || startsW ['#'] line then parseCharacters d rest (i + 1)
    else if containsCh ':' line then
      match splitFirst ':' line with
      | some (cid, dn) =>
        parseCharacters
          { d with characters := passign (pstrip cid) (pstrip dn) d.characters }
          rest (i + 1)
      | none => parseCharacters d rest (i + 1)
    else parseCharacters d rest (i + 1)

/-- `_parse_state` (lines 463-495). -/
def parseState (d : PDialogue) :
    List PStr → Nat → PDialogue × List PStr × Nat
  | [], i => (d, [], i)
  | l :: rest, i =>
    let line := pstrip l
    if startsW ['['] line && endsW [']'] line then (d, l :: rest, i)
    else if line.isEmpty || startsW ['#'] line then parseState d rest (i + 1)
    else if startsW ['*'] line then
      let cmd_text := pstrip (line.drop 1)
      let d2 := { d with initial_state := d.initial_state ++ [cmd_text] }
      parseState
        { d2 with warnings := d2.warnings ++ validateCmdSyntax cmd_text (i + 1) }
        rest (i + 1)
    else
      parseState { d with warnings := d.warnings ++ [.stateContent (i + 1) line] }
        rest (i + 1)

/-- The line loop of `_parse_entry_group` (lines 518-574). -/
def parseEntryLoop (nm : PStr) :
    PDialogue → PEntryGroup → List PStr → Nat →
    PDialogue × PEntryGroup × List PStr × Nat
  | d, g, [], i => (d, g, [], i)
  | d, g, l :: rest, i =>
    let line := pstrip l
    if startsW ['['] line && endsW [']'] line then (d, g, l :: rest, i)
    else if line.isEmpty || startsW ['#'] line then
      parseEntryLoop nm d g rest (i + 1)
    else if startsW ['<', '-'] line then
      let tgt := pstrip (line.drop 2)
      if tgt.isEmpty then
        parseEntryLoop nm
          { d with warnings := d.warnings ++ [.emptyExit (i + 1) nm] } g
          rest (i + 1)
      else parseEntryLoop nm d { g with exits := g.exits ++ [tgt] } rest (i + 1)
    else if containsSub ['-', '>'] line then
      match pfindSub ['-', '>'] line with
      | some ap =>
        let condition_part := pstrip (line.take ap)
        let target := pstrip (line.drop (ap + 2))
        if target.isEmpty then
          parseEntryLoop nm
            { d with warnings := d.warnings ++ [.emptyRouteTarget (i + 1) nm] }
            g rest (i + 1)
        else
          let condition : Option PStr :=
            if condition_part.isEmpty then none else some condition_part
          let d2 := match condition with
            | some cnd =>
              { d with warnings := d.warnings ++ validateCondSyntax cnd (i + 1) }
            | none => d
          parseEntryLoop nm d2
            { g with routes := g.routes ++ [⟨condition, target, i + 1⟩] }
            rest (i + 1)
      | none =>
        parseEntryLoop nm
          { d with warnings := d.warnings ++ [.entryContent (i + 1) nm line] } g
          rest (i + 1)
    else
      parseEntryLoop nm
        { d with warnings := d.warnings ++ [.entryContent (i + 1) nm line] } g
        rest (i + 1)

/-- `_parse_entry_group` (lines 497-589). -/
def parseEntryGroup (d : PDialogue) (nm : PStr) (defLine : Nat)
    (ls : List PStr) (i : Nat) : PDialogue × List PStr × Nat :=
  match parseEntryLoop nm d ⟨nm, [], [], defLine⟩ ls i with
  | (d1, g, rem, ni) =>
    let d2 := if g.routes.isEmpty then
        { d1 with warnings := d1.warnings ++ [.noRoutes nm] } else d1
    let d3 := if (plookup nm d2.entries).isSome then
        { d2 with warnings := d2.warnings ++ [.dupEntry defLine nm] } else d2
    ({ d3 with entries := passign nm g d3.entries }, rem, ni)

/-- The body loop of `_parse_node` (lines 599-725), threading the
dialogue (warnings/errors) and the primary node being built. -/
def parseNodeLoop (d : PDialogue) (primary : PNode) :
    Nat → List PStr → Nat → PDialogue × PNode × List PStr × Nat
  | 0, rest, i => (d, primary, rest, i)
  | _ + 1, [], i => (d, primary, [], i)
  | fuel + 1, l :: rest, i =>
    let line := prstrip l
    if startsW ['['] (pstrip line) && endsW [']'] (pstrip line) then
      (d, primary, l :: rest, i)
    else if line.isEmpty || startsW ['#'] (pstrip line) then
      parseNodeLoop d primary fuel rest (i + 1)
    else
      let stripped := pstrip line
      if startsW ['@'] stripped then
        if stripped = "@end".data then
          parseNodeLoop d { primary with is_end := true } fuel rest (i + 1)
        else if startsW "@talk:".data stripped ||
            startsW "@event:".data stripped then
          match parseTrigger stripped (i + 1) d with
          | (some trg, d2) =>
            parseNodeLoop d2
              { primary with triggers := primary.triggers ++ [trg] } fuel rest
              (i + 1)
          | (none, d2) => parseNodeLoop d2 primary fuel rest (i + 1)
        else
          parseNodeLoop
            { d with warnings := d.warnings ++ [.unknownTrigger (i + 1) stripped] }
            primary fuel rest (i + 1)
      else if startsW ['*'] stripped then
        let cmd_text := pstrip (stripped.drop 1)
        parseNodeLoop
          { d with warnings := d.warnings ++ validateCmdSyntax cmd_text (i + 1) }
          { primary with commands := primary.commands ++ [cmd_text] } fuel rest
          (i + 1)
      else if startsW ['-', '>'] stripped then
        match parseChoice l rest i d with
        | (choice, d2, rem, ni) =>
          parseNodeLoop d2
            { primary with choices := primary.choices ++ [choice] } fuel rem ni
      else if containsCh ':' stripped && !startsW ['{'] stripped then
        match splitFirst ':' stripped with
        | none => parseNodeLoop d primary fuel rest (i + 1)
        | some (speaker, rest0) =>
          let rest1 := pstrip rest0
          if startsW ['"'] rest1 && countCh '"' rest1 = 1 then
            let initial_text := pstrip (rest1.drop 1)
            match readMultiline rest (i + 1) [initial_text] with
            | (text, tags, condition, rem, ni) =>
              parseNodeLoop (warnCond d condition (i + 1))
                { primary with lines := primary.lines ++
                    [⟨pstrip speaker, text, condition, tags, i + 1⟩] }
                fuel rem ni
          else
            match extractTags rest1 with
            | (text0, tags) =>
              match splitTrailingCond text0 with
              | (text1, condition) =>
                parseNodeLoop (warnCond d condition (i + 1))
                  { primary with lines := primary.lines ++
                      [⟨pstrip speaker, unquote text1, condition, tags, i + 1⟩] }
                  fuel rest (i + 1)
      else parseNodeLoop d primary fuel rest (i + 1)

/-- `_parse_node` (lines 591-741): build the primary node from the body,
bind it under the first label, then bind every further stacked label to a
copy differing only in `id`. -/
def parseNode (body : List PStr) (i : Nat) (node_ids : List PStr)
    (d : PDialogue) : PDialogue × List PStr × Nat :=
  match node_ids with
  | [] => (d, body, i)
  | id0 :: aliases =>
    match parseNodeLoop d { id := id0, line_number := i } (body.length + 1)
        body i with
    | (d1, primary, rem, ni) =>
      let nodes1 := passign id0 primary d1.nodes
      let nodes2 := aliases.foldl
        (fun ns nid => passign nid { primary with id := nid } ns) nodes1
      ({ d1 with nodes := nodes2 }, rem, ni)

/-- `re.match(r"\[entry:(\w+)\]", line)` (line 409): longest `\w+` run
after the prefix, then a closing bracket. -/
def entryName (s : PStr) : Option PStr :=
  if startsW "[entry:".data s then
    let rest := s.drop 7
    let nm := rest.takeWhile isWordC
    if !nm.isEmpty && startsW [']'] (rest.drop nm.length) then some nm
    else none
  else none

/-- The main loop of `parse_lines` (lines 388-426). -/
def parseLinesLoop (d : PDialogue) :
    Nat → List PStr → Nat → PDialogue
  | 0, _, _ => d
  | _ + 1, [], _ => d
  | fuel + 1, l :: rest, i =>
    let line := prstrip l
    if line.isEmpty || startsW ['#'] (pstrip line) then
      parseLinesLoop d fuel rest (i + 1)
    else if pstrip line = "[characters]".data then
      match parseCharacters d rest (i + 1) with
      | (d2, rem, ni) => parseLinesLoop d2 fuel rem ni
    else if pstrip line = "[state]".data then
      match parseState d rest (i + 1) with
      | (d2, rem, ni) => parseLinesLoop d2 fuel rem ni
    else
      match entryName (pstrip line) with
      | some nm =>
        match parseEntryGroup d nm (i + 1) rest (i + 1) with
        | (d2, rem, ni) => parseLinesLoop d2 fuel rem ni
      | none =>
        if startsW ['['] (pstrip line) && endsW [']'] (pstrip line) then
          let hdrs := (l :: rest).takeWhile
            (fun x => startsW ['['] (pstrip x) && endsW [']'] (pstrip x))
          let node_ids := hdrs.map
            (fun x => ((pstrip x).drop 1).take ((pstrip x).length - 2))
          let body := (l :: rest).drop hdrs.length
          match parseNode body (i + hdrs.length) node_ids d with
          | (d2, rem, ni) => parseLinesLoop d2 fuel rem ni
        else parseLinesLoop d fuel rest (i + 1)

/-- `parse_lines` (lines 383-436), including the final start-node
fixup. -/
def parseLines (lines : List PStr) : PDialogue :=
  let d := parseLinesLoop {} (lines.length + 1) lines 0
  if d.start_node.isNone && !d.nodes.isEmpty then
    if (plookup "start".data d.nodes).isSome then
      { d with start_node := some "start".data }
    else
      match d.nodes with
      | (k, _) :: _ => { d with start_node := some k }
      | [] => d
  else d

/-! ### `validate` (parser.py lines 907-964)

The returned boolean is `valid and len(errors) == 0`: `valid` flips to
`False` exactly when an error is appended in the undefined-choice-target
pass (lines 912-918) or the entry-route-target pass (lines 931-937).  All
other passes (speakers, exits, default routes, unreachable nodes, path to
END, lines 920-962) only append warnings and do not touch `valid` or
`errors`, so they do not affect the return value and are not part of the
boolean model. -/

/-- The errors the undefined-choice-target pass appends, in order. -/
def validateChoiceErrors (dlg : PDialogue) : List PErr :=
  dlg.nodes.foldl
    (fun acc p =>
      p.2.choices.foldl
        (fun acc2 ch =>
          if ch.target ≠ "END".data ∧ plookup ch.target dlg.nodes = none then
            acc2 ++ [.undefinedTarget ch.line_number ch.target p.1]
          else acc2)
        acc)
    []

/-- The errors the entry-route-target pass appends, in order. -/
def validateEntryErrors (dlg : PDialogue) : List PErr :=
  dlg.entries.foldl
    (fun acc p =>
      p.2.routes.foldl
        (fun acc2 r =>
          if plookup r.target dlg.nodes = none then
            acc2 ++ [.entryTargetMissing r.line_number r.target p.1]
          else acc2)
        acc)
    []

/-- `validate()`'s return value: `valid` (no error appended by either
error pass) and the final error list (pre-existing errors plus the two
passes' appends) empty. -/
def validateB (dlg : PDialogue) : Bool :=
  ((validateChoiceErrors dlg).isEmpty && (validateEntryErrors dlg).isEmpty)
    && (dlg.errors ++ validateChoiceErrors dlg ++ validateEntryErrors dlg).isEmpty

/-- Folds that only ever append preserve membership of the accumulator. -/
theorem mem_foldl_append_if {α β : Type} (f : α → List β) (P : α → Prop)
    [DecidablePred P] :
    ∀ (l : List α) (acc : List β) {y : β}, y ∈ acc →
      y ∈ l.foldl (fun a x => if P x then a ++ f x else a) acc := by
  intro l
  induction l with
  | nil => intro acc y hy; exact hy
  | cons x xs ih =>
    intro acc y hy
    rw [List.foldl_cons]
    by_cases hp : P x
    · rw [if_pos hp]
      exact ih _ (List.mem_append_left _ hy)
    · rw [if_neg hp]
      exact ih _ hy

/-- If an append-only fold fires for some list element, its contribution
is in the result. -/
theorem foldl_append_if_fires {α β : Type} (f : α → List β) (P : α → Prop)
    [DecidablePred P] :
    ∀ (l : List α) (acc : List β) {x : α}, x ∈ l → P x → f x ≠ [] →
      l.foldl (fun a x => if P x then a ++ f x else a) acc ≠ [] := by
  intro l
  induction l with
  | nil => intro acc x hx; exact absurd hx (List.not_mem_nil x)
  | cons z zs ih =>
    intro acc x hx hp hf
    rw [List.foldl_cons]
    rcases List.mem_cons.mp hx with rfl | hmem
    · rw [if_pos hp]
      intro hc
      rcases hfx : f x with _ | ⟨b, bs⟩
      · exact hf hfx
      · have hb : b ∈ zs.foldl (fun a x => if P x then a ++ f x else a)
            (acc ++ f x) := by
          refine mem_foldl_append_if f P zs _ ?_
          refine List.mem_append_right _ ?_
          rw [hfx]
          exact List.mem_cons_self _ _
        rw [hc] at hb
        exact List.not_mem_nil b hb
    · by_cases hz : P z
      · rw [if_pos hz]; exact ih _ hmem hp hf
      · rw [if_neg hz]; exact ih _ hmem hp hf

theorem mem_foldl_of_mono {α β : Type} (g : List β → α → List β)
    (hg : ∀ (a : List β) (x : α) {y : β}, y ∈ a → y ∈ g a x) :
    ∀ (l : List α) (acc : List β) {y : β}, y ∈ acc → y ∈ l.foldl g acc := by
  intro l
  induction l with
  | nil => intro acc y hy; exact hy
  | cons x xs ih =>
    intro acc y hy
    rw [List.foldl_cons]
    exact ih _ (hg acc x hy)

/-- An empty undefined-target pass means every choice target is `"END"`
or a node. -/
theorem validateChoiceErrors_empty {dlg : PDialogue}
    (h : validateChoiceErrors dlg = []) :
    ∀ p ∈ dlg.nodes, ∀ ch ∈ p.2.choices,
      ¬(ch.target ≠ "END".data ∧ plookup ch.target dlg.nodes = none) := by
  intro p hp ch hch hbad
  obtain ⟨s, t, hst⟩ := List.append_of_mem hp
  rw [validateChoiceErrors] at h
  rw [hst, List.foldl_append, List.foldl_cons] at h
  rw [hst] at hbad
  have hinner : p.2.choices.foldl
      (fun acc2 ch =>
        if ch.target ≠ "END".data ∧ plookup ch.target (s ++ p :: t) = none then
          acc2 ++ [PErr.undefinedTarget ch.line_number ch.target p.1]
        else acc2)
      (s.foldl
        (fun acc q =>
          q.2.choices.foldl
            (fun acc2 ch =>
              if ch.target ≠ "END".data ∧ plookup ch.target (s ++ p :: t) = none
              then acc2 ++ [PErr.undefinedTarget ch.line_number ch.target q.1]
              else acc2)
            acc)
        []) ≠ [] := by
    refine foldl_append_if_fires
      (fun ch => [PErr.undefinedTarget ch.line_number ch.target p.1])
      (fun ch => ch.target ≠ "END".data ∧ plookup ch.target (s ++ p :: t) = none)
      p.2.choices _ hch hbad (by simp)
  obtain ⟨y, hy⟩ := List.exists_mem_of_ne_nil _ hinner
  have hfinal : y ∈ t.foldl
      (fun acc q =>
        q.2.choices.foldl
          (fun acc2 ch =>
            if ch.target ≠ "END".data ∧ plookup ch.target (s ++ p :: t) = none then
              acc2 ++ [PErr.undefinedTarget ch.line_number ch.target q.1]
            else acc2)
          acc)
      (p.2.choices.foldl
        (fun acc2 ch =>
          if ch.target ≠ "END".data ∧ plookup ch.target (s ++ p :: t) = none then
            acc2 ++ [PErr.undefinedTarget ch.line_number ch.target p.1]
          else acc2)
        (s.foldl
          (fun acc q =>
            q.2.choices.foldl
              (fun acc2 ch =>
                if ch.target ≠ "END".data ∧ plookup ch.target (s ++ p :: t) = none
                then acc2 ++ [PErr.undefinedTarget ch.line_number ch.target q.1]
                else acc2)
              acc)
          [])) := by
    refine mem_foldl_of_mono _ ?_ t _ hy
    intro a q y2 hy2
    exact mem_foldl_append_if
      (fun ch => [PErr.undefinedTarget ch.line_number ch.target q.1])
      (fun ch => ch.target ≠ "END".data ∧ plookup ch.target (s ++ p :: t) = none)
      q.2.choices a hy2
  rw [h] at hfinal
  exact List.not_mem_nil y hfinal

/-- **C6.**  For every dialogue that `validate()` accepts, every choice
target other than the sentinel `"END"` is a key of the nodes mapping. -/
theorem claim_C6 {dlg : PDialogue} (h : validateB dlg = true) :
    ∀ p ∈ dlg.nodes, ∀ ch ∈ p.2.choices,
      ch.target = "END".data ∨ (plookup ch.target dlg.nodes).isSome = true := by
  have h1 : validateChoiceErrors dlg = [] := by
    rcases he : validateChoiceErrors dlg with _ | ⟨e, es⟩
    · rfl
    · rw [validateB, he] at h
      simp at h
  intro p hp ch hch
  have h2 := validateChoiceErrors_empty h1 p hp ch hch
  by_cases ht : ch.target = "END".data
  · exact Or.inl ht
  · refine Or.inr ?_
    rcases hl : plookup ch.target dlg.nodes with _ | v
    · exact absurd ⟨ht, hl⟩ h2
    · rfl

/-- A dialogue accepted by `validate()`. -/
def dW6node : PNode where
  id := "a".data
  choices := [⟨"b".data, [], none, 0⟩, ⟨"END".data, [], none, 0⟩]

def dW6 : PDialogue :=
  { nodes := [("a".data, dW6node), ("b".data, { id := "b".data })] }

theorem claim_C6_witness :
    validateB dW6 = true ∧
      (∀ p ∈ dW6.nodes, ∀ ch ∈ p.2.choices,
        ch.target = "END".data ∨ (plookup ch.target dW6.nodes).isSome = true) :=
  ⟨by decide, claim_C6 (by decide)⟩

theorem plookup_passign_self {α : Type} (k : PStr) (v : α) :
    ∀ l : List (PStr × α), plookup k (passign k v l) = some v := by
  intro l
  induction l with
  | nil => simp [passign, plookup]
  | cons p rest ih =>
    obtain ⟨k1, v1⟩ := p
    simp only [passign]
    by_cases h : k1 = k
    · rw [if_pos h]
      simp [plookup, h]
    · rw [if_neg h]
      simp [plookup, h, ih]

theorem plookup_passign_ne {α : Type} {k k1 : PStr} (h : k ≠ k1) (v : α) :
    ∀ l : List (PStr × α), plookup k (passign k1 v l) = plookup k l := by
  intro l
  have h1 : ¬(k1 = k) := fun he => h he.symm
  induction l with
  | nil => simp [passign, plookup, h1]
  | cons p rest ih =>
    obtain ⟨k2, v2⟩ := p
    simp only [passign]
    by_cases h2 : k2 = k1
    · rw [if_pos h2]
      simp only [plookup]
      rw [if_neg (h2 ▸ h1)]
      rw [if_neg (h2 ▸ h1)]
    · rw [if_neg h2]
      simp only [plookup]
      by_cases h3 : k2 = k
      · rw [if_pos h3, if_pos h3]
      · rw [if_neg h3, if_neg h3]
        exact ih

/-- Structural identity of a node's content with a primary node
(everything `_parse_node` shares with an alias except `id`). -/
def ContentEq (nd prim : PNode) : Prop :=
  nd.lines = prim.lines ∧ nd.choices = prim.choices ∧
    nd.commands = prim.commands ∧ nd.triggers = prim.triggers ∧
    nd.is_end = prim.is_end

theorem foldl_passign_alias (primary : PNode) :
    ∀ (aliases : List PStr) (ns : List (PStr × PNode)) (nid : PStr),
    ((∃ nd, plookup nid ns = some nd ∧ ContentEq nd primary) ∨ nid ∈ aliases) →
    ∃ nd, plookup nid
        (aliases.foldl (fun a x => passign x { primary with id := x } a) ns)
      = some nd ∧ ContentEq nd primary := by
  intro aliases
  induction aliases with
  | nil =>
    intro ns nid h
    rcases h with h | h
    · exact h
    · exact absurd h (List.not_mem_nil nid)
  | cons x xs ih =>
    intro ns nid h
    rw [List.foldl_cons]
    apply ih
    rcases h with ⟨nd, hnd, hc⟩ | hmem
    · by_cases hx : nid = x
      · subst hx
        exact Or.inl ⟨{ primary with id := nid }, plookup_passign_self nid _ ns,
          rfl, rfl, rfl, rfl, rfl⟩
      · exact Or.inl ⟨nd, by rw [plookup_passign_ne hx]; exact hnd, hc⟩
    · rcases List.mem_cons.mp hmem with rfl | hmem2
      · exact Or.inl ⟨{ primary with id := nid }, plookup_passign_self nid _ ns,
          rfl, rfl, rfl, rfl, rfl⟩
      · exact Or.inr hmem2

/-- **C7 (amended).**  Immediately after a stacked group is parsed, every
label of the group is bound to a node whose lines, choices, commands,
triggers and end flag are structurally identical to the first label's
node.  The guarantee is about the group itself: a later body re-using one
of the labels silently rebinds it (see the counterexample). -/
theorem claim_C7_amended (body : List PStr) (i : Nat) (id0 : PStr)
    (aliases : List PStr) (d : PDialogue) :
    ∀ nid ∈ id0 :: aliases,
      ∃ nd prim,
        plookup id0 (parseNode body i (id0 :: aliases) d).1.nodes = some prim ∧
        plookup nid (parseNode body i (id0 :: aliases) d).1.nodes = some nd ∧
        ContentEq nd prim := by
  intro nid hnid
  rcases hpl : parseNodeLoop d { id := id0, line_number := i }
      (body.length + 1) body i with ⟨d1, primary, rem, ni⟩
  have hq : (parseNode body i (id0 :: aliases) d).1.nodes =
      aliases.foldl (fun a x => passign x { primary with id := x } a)
        (passign id0 primary d1.nodes) := by
    simp only [parseNode, hpl]
  obtain ⟨prim, hprim, hcp⟩ := foldl_passign_alias primary aliases
    (passign id0 primary d1.nodes) id0
    (Or.inl ⟨primary, plookup_passign_self id0 primary d1.nodes,
      rfl, rfl, rfl, rfl, rfl⟩)
  obtain ⟨nd, hnd, hcn⟩ := foldl_passign_alias primary aliases
    (passign id0 primary d1.nodes) nid
    (by
      rcases List.mem_cons.mp hnid with rfl | hmem
      · exact Or.inl ⟨primary, plookup_passign_self nid primary d1.nodes,
          rfl, rfl, rfl, rfl, rfl⟩
      · exact Or.inr hmem)
  refine ⟨nd, prim, by rw [hq]; exact hprim, by rw [hq]; exact hnd, ?_⟩
  exact ⟨hcn.1.trans hcp.1.symm, hcn.2.1.trans hcp.2.1.symm,
    hcn.2.2.1.trans hcp.2.2.1.symm, hcn.2.2.2.1.trans hcp.2.2.2.1.symm,
    hcn.2.2.2.2.trans hcp.2.2.2.2.symm⟩

/-- The input of the C7 counterexample: a stacked run `[a]`,`[b]` with a
shared body, followed by a later standalone `[b]` body. -/
def cex7lines : List PStr :=
  ["[a]".data, "[b]".data, "x: \"h\"".data, "[b]".data, "y: \"z\"".data]

theorem claim_C7_counterexample :
    ((plookup "a".data (parseLines cex7lines).nodes).map
        (fun n => n.lines.map (fun ln => ln.text)) = some [['h']] ∧
      (plookup "b".data (parseLines cex7lines).nodes).map
        (fun n => n.lines.map (fun ln => ln.text)) = some [['z']]) ∧
    (plookup "b".data (parseLines cex7lines).nodes).map (fun n => n.lines)
      ≠ (plookup "a".data (parseLines cex7lines).nodes).map (fun n => n.lines) := by
  decide

theorem claim_C7_amended_witness :
    ∃ nd prim,
      plookup "a".data
        (parseNode ["x: \"h\"".data] 2 ["a".data, "b".data] {}).1.nodes
        = some prim ∧
      plookup "b".data
        (parseNode ["x: \"h\"".data] 2 ["a".data, "b".data] {}).1.nodes
        = some nd ∧
      ContentEq nd prim :=
  claim_C7_amended ["x: \"h\"".data] 2 "a".data ["b".data] {} "b".data
    (by decide)

/-! ### Character-class and strip lemmas for the parser families -/

/-- Alphabetic strings: nonempty runs of letters.  The node labels,
speakers, targets and text fragments of the family theorems below are
drawn from this class. -/
def alphaStr (s : PStr) : Prop := s ≠ [] ∧ ∀ c ∈ s, c.isAlpha = true

theorem alpha_not_wsC {c : Char} (h : c.isAlpha = true) : isWsC c = false := by
  rcases hw : isWsC c with _ | _
  · rfl
  · exfalso
    have h2 : c = ' ' ∨ c = '\t' ∨ c = '\n' ∨ c = '\x0d' ∨ c = '\x0c'
        ∨ c = '\x0b' := by
      simpa [isWsC, or_assoc] using hw
    rcases h2 with rfl | rfl | rfl | rfl | rfl | rfl <;> exact absurd h (by decide)

theorem decide_sym_ne_alpha {c d : Char} (h : c.isAlpha = true)
    (hd : d.isAlpha = false) : decide (d = c) = false :=
  decide_eq_false (fun he => by rw [he, h] at hd; exact Bool.noConfusion hd)

theorem plstrip_cons {c : Char} {s : PStr} (h : isWsC c = false) :
    plstrip (c :: s) = c :: s := by
  simp [plstrip, List.dropWhile_cons, h]

theorem prstrip_concat {s : PStr} {c : Char} (h : isWsC c = false) :
    prstrip (s ++ [c]) = s ++ [c] := by
  rw [prstrip, List.reverse_append, List.reverse_cons, List.reverse_nil,
    List.nil_append, List.singleton_append, List.dropWhile_cons]
  rw [h]
  simp

theorem prstrip_last {s : PStr} {c : Char} (h : isWsC c = false)
    (hl : s.getLast? = some c) : prstrip s = s := by
  rcases List.eq_nil_or_concat s with rfl | ⟨s1, a, rfl⟩
  · exact absurd hl (by simp)
  · rw [List.concat_eq_append] at hl ⊢
    rw [List.getLast?_concat] at hl
    cases hl
    exact prstrip_concat h

/-- A string of letters is unchanged by `strip`. -/
theorem pstrip_alpha {s : PStr} (h : ∀ c ∈ s, c.isAlpha = true) :
    pstrip s = s := by
  rcases s with _ | ⟨c, s1⟩
  · rfl
  · rw [pstrip, plstrip_cons (alpha_not_wsC (h c (List.mem_cons_self c s1)))]
    rcases List.eq_nil_or_concat (c :: s1) with he | ⟨s2, a, he⟩
    · exact absurd he (by simp)
    · rw [he, List.concat_eq_append]
      refine prstrip_concat (alpha_not_wsC (h a ?_))
      rw [he, List.concat_eq_append]
      simp

theorem startsW_cons_ne {p c : Char} (h : ¬(p = c)) (ps s : PStr) :
    startsW (p :: ps) (c :: s) = false := by
  show (decide (p = c) && startsW ps s) = false
  rw [decide_eq_false h]
  rfl

theorem startsW_cons_self (c : Char) (ps s : PStr) :
    startsW (c :: ps) (c :: s) = startsW ps s := by
  show (decide (c = c) && startsW ps s) = _
  simp

theorem startsW_cons_alpha {d c : Char} {ps s : PStr} (hc : c.isAlpha = true)
    (hd : d.isAlpha = false) : startsW (d :: ps) (c :: s) = false := by
  show (decide (d = c) && startsW ps s) = false
  rw [decide_sym_ne_alpha hc hd]
  rfl

theorem endsW_concat (c : Char) (s : PStr) : endsW [c] (s ++ [c]) = true := by
  rw [endsW, List.reverse_append]
  simp [startsW]

theorem containsCh_alpha {d : Char} {s : PStr}
    (hs : ∀ c ∈ s, c.isAlpha = true) (hd : d.isAlpha = false) :
    containsCh d s = false := by
  rw [containsCh, List.any_eq_false]
  intro a ha
  simp only [decide_eq_true_eq]
  intro he
  rw [he] at ha
  rw [hs d ha] at hd
  exact Bool.noConfusion hd

theorem containsCh_mid (c : Char) (xs ys : PStr) :
    containsCh c (xs ++ c :: ys) = true := by
  rw [containsCh, List.any_eq_true]
  exact ⟨c, by simp, by simp⟩

theorem countCh_alpha {d : Char} {s : PStr}
    (hs : ∀ c ∈ s, c.isAlpha = true) (hd : d.isAlpha = false) :
    countCh d s = 0 := by
  rw [countCh, List.length_eq_zero, List.filter_eq_nil]
  intro a ha
  simp only [decide_eq_true_eq]
  intro he
  rw [he] at ha
  rw [hs d ha] at hd
  exact Bool.noConfusion hd

theorem countCh_cons_self (c : Char) (s : PStr) :
    countCh c (c :: s) = countCh c s + 1 := by
  simp [countCh, List.filter_cons]

theorem splitFirst_mid {c : Char} {xs ys : PStr} (h : ∀ a ∈ xs, ¬(a = c)) :
    splitFirst c (xs ++ c :: ys) = some (xs, ys) := by
  induction xs with
  | nil => simp [splitFirst]
  | cons a rest ih =>
    rw [List.cons_append, splitFirst]
    rw [if_neg (h a (List.mem_cons_self a rest))]
    rw [ih (fun b hb => h b (List.mem_cons_of_mem a hb))]
    rfl

theorem concat_inj {a : Char} {xs ys : PStr} (h : xs ++ [a] = ys ++ [a]) :
    xs = ys := by
  have h1 := congrArg List.reverse h
  simp only [List.reverse_append, List.reverse_singleton,
    List.singleton_append, List.cons.injEq] at h1
  have h2 := congrArg List.reverse h1.2
  simpa using h2

/-- The continuation lines `_read_multiline_quoted_text` keeps: stripped,
with blank and comment lines dropped. -/
def mlCollect (ls : List PStr) : List PStr :=
  ls.filterMap (fun l =>
    let s := pstrip (prstrip l)
    if s.isEmpty || startsW ['#'] s then none else some s)

/-- `_read_multiline_quoted_text` when no remaining line carries a quote:
the accumulated fragments joined with single spaces, no tags, no
condition, the whole input consumed. -/
theorem readMultiline_unclosed :
    ∀ (ls : List PStr) (i : Nat) (parts : List PStr),
    (∀ l ∈ ls, containsCh '"' (pstrip (prstrip l)) = false) →
    readMultiline ls i parts =
      (joinSp (parts.reverse ++ mlCollect ls), [], none, [], i + ls.length) := by
  intro ls
  induction ls with
  | nil =>
    intro i parts h
    simp [readMultiline, mlCollect]
  | cons l rest ih =>
    intro i parts h
    have hq := h l (List.mem_cons_self l rest)
    have hrest := fun l2 h2 => h l2 (List.mem_cons_of_mem l h2)
    have hlen : i + 1 + rest.length = i + (l :: rest).length := by
      simp only [List.length_cons]
      omega
    simp only [readMultiline]
    split
    · rename_i hskip
      rw [ih (i + 1) _ hrest]
      have hcol : mlCollect (l :: rest) = mlCollect rest := by
        simp only [mlCollect, List.filterMap_cons]
        rw [if_pos hskip]
      rw [hcol, hlen]
    · rename_i hskip
      split
      · rename_i hqq
        exact absurd hqq (by rw [hq]; exact Bool.noConfusion)
      · rw [ih (i + 1) _ hrest]
        have hcol : mlCollect (l :: rest)
            = pstrip (prstrip l) :: mlCollect rest := by
          simp only [mlCollect, List.filterMap_cons]
          rw [if_neg hskip]
        rw [hcol, hlen]
        simp [List.reverse_cons, List.append_assoc]

/-- A string of letters is unchanged by `rstrip`. -/
theorem prstrip_alpha {s : PStr} (h : ∀ c ∈ s, c.isAlpha = true) :
    prstrip s = s := by
  rcases List.eq_nil_or_concat s with rfl | ⟨s1, a, rfl⟩
  · rfl
  · rw [List.concat_eq_append]
    refine prstrip_concat (alpha_not_wsC (h a ?_))
    simp

/-- `rstrip` keeps a string whose suffix is a nonempty run of letters. -/
theorem prstrip_append_alpha {s t0 : PStr} (h : alphaStr t0) :
    prstrip (s ++ t0) = s ++ t0 := by
  obtain ⟨hne, hall⟩ := h
  rcases List.eq_nil_or_concat t0 with rfl | ⟨t1, a, rfl⟩
  · exact absurd rfl hne
  · rw [List.concat_eq_append, ← List.append_assoc]
    exact prstrip_concat (alpha_not_wsC (hall a (by simp)))

/-- `strip` keeps a string with a non-space head and a letter suffix. -/
theorem pstrip_cons_append_alpha {c : Char} (hc : isWsC c = false)
    {s t0 : PStr} (h : alphaStr t0) :
    pstrip (c :: (s ++ t0)) = c :: (s ++ t0) := by
  rw [pstrip, plstrip_cons hc, ← List.cons_append]
  exact prstrip_append_alpha h

/-- `strip` of a space, a quote, then letters. -/
theorem pstrip_space_quote {t0 : PStr} (h : alphaStr t0) :
    pstrip (' ' :: '"' :: t0) = '"' :: t0 := by
  have hw1 : isWsC ' ' = true := by decide
  have hw2 : isWsC '"' = false := by decide
  have h1 : plstrip (' ' :: '"' :: t0) = '"' :: t0 := by
    simp [plstrip, List.dropWhile_cons, hw1, hw2]
  rw [pstrip, h1]
  have h2 : ('"' :: t0) = ('"' :: []) ++ t0 := by simp
  rw [h2, prstrip_append_alpha h]

/-- A pattern containing a colon but no closing bracket never prefixes
`letters ++ "]"`. -/
theorem startsW_pat_alpha : ∀ (p : PStr), ':' ∈ p → (∀ c ∈ p, ¬(c = ']')) →
    ∀ (n : PStr), (∀ c ∈ n, c.isAlpha = true) → startsW p (n ++ [']']) = false := by
  intro p
  induction p with
  | nil => intro hm; exact absurd hm (List.not_mem_nil ':')
  | cons a p1 ih =>
    intro hm hnb n hn
    rcases n with _ | ⟨b, n1⟩
    · rw [List.nil_append]
      exact startsW_cons_ne (hnb a (List.mem_cons_self a p1)) p1 []
    · rw [List.cons_append]
      by_cases hab : a = b
      · subst hab
        rw [startsW_cons_self]
        have hmem : ':' ∈ p1 := by
          rcases List.mem_cons.mp hm with h1 | h1
          · exfalso
            have ha := hn a (List.mem_cons_self a n1)
            rw [← h1] at ha
            exact absurd ha (by decide)
          · exact h1
        exact ih hmem (fun c hc => hnb c (List.mem_cons_of_mem a hc)) n1
          (fun c hc => hn c (List.mem_cons_of_mem a hc))
      · exact startsW_cons_ne hab p1 _

/-- A bracketed header over a letters-only id is not an `[entry:...]`
header. -/
theorem entryName_header {n : PStr} (hn : ∀ c ∈ n, c.isAlpha = true) :
    entryName ('[' :: (n ++ [']'])) = none := by
  have he : "[entry:".data = '[' :: "entry:".data := by decide
  have hs : startsW "[entry:".data ('[' :: (n ++ [']'])) = false := by
    rw [he, startsW_cons_self]
    exact startsW_pat_alpha "entry:".data (by decide) (by decide) n hn
  simp only [entryName, hs, Bool.false_eq_true, if_false]

theorem prstrip_header (n : PStr) :
    prstrip ('[' :: (n ++ [']'])) = '[' :: (n ++ [']']) := by
  rw [← List.cons_append]
  exact prstrip_concat (by decide)

theorem pstrip_header (n : PStr) :
    pstrip ('[' :: (n ++ [']'])) = '[' :: (n ++ [']']) := by
  rw [pstrip, plstrip_cons (by decide)]
  exact prstrip_header n

/-- Distinct ids give distinct bracketed headers. -/
theorem header_ne {n m : PStr} (h : n ≠ m) :
    ('[' :: (n ++ [']'])) ≠ '[' :: (m ++ [']']) := by
  intro he
  rw [List.cons.injEq] at he
  exact h (concat_inj he.2)

/-- Letters-only lines survive the multiline collector unchanged. -/
theorem mlCollect_alpha : ∀ {ls : List PStr}, (∀ l ∈ ls, alphaStr l) →
    mlCollect ls = ls := by
  intro ls
  induction ls with
  | nil => intro _; rfl
  | cons l rest ih =>
    intro h
    obtain ⟨hne, hall⟩ := h l (List.mem_cons_self l rest)
    have hl : pstrip (prstrip l) = l := by
      rw [prstrip_alpha hall, pstrip_alpha hall]
    have hcond : (l.isEmpty || startsW ['#'] l) = false := by
      obtain ⟨c, l1, rfl⟩ := List.exists_cons_of_ne_nil hne
      rw [startsW_cons_alpha (hall c (List.mem_cons_self c l1)) (by decide)]
      rfl
    have hstep : mlCollect (l :: rest) = l :: mlCollect rest := by
      simp only [mlCollect, List.filterMap_cons]
      rw [hl]
      rw [if_neg (by intro hcc; rw [hcond] at hcc; exact Bool.noConfusion hcc)]
    rw [hstep, ih (fun x hx => h x (List.mem_cons_of_mem l hx))]

/-- `_read_multiline_quoted_text` on letters-only continuation lines:
everything is accumulated and joined, nothing else is produced. -/
theorem readMultiline_alpha {ls : List PStr} (h : ∀ l ∈ ls, alphaStr l)
    (i : Nat) (parts : List PStr) :
    readMultiline ls i parts =
      (joinSp (parts.reverse ++ ls), [], none, [], i + ls.length) := by
  have hq : ∀ l ∈ ls, containsCh '"' (pstrip (prstrip l)) = false := by
    intro l hl
    rw [prstrip_alpha (h l hl).2, pstrip_alpha (h l hl).2]
    exact containsCh_alpha (h l hl).2 (by decide)
  rw [readMultiline_unclosed ls i parts hq, mlCollect_alpha h]

theorem parseNodeLoop_nil (d : PDialogue) (p : PNode) (fuel i : Nat) :
    parseNodeLoop d p fuel [] i = (d, p, [], i) := by
  cases fuel <;> rfl

theorem parseLinesLoop_nil (d : PDialogue) (fuel i : Nat) :
    parseLinesLoop d fuel [] i = d := by
  cases fuel <;> rfl

/-- The start-node fixup of `parse_lines` only touches `start_node`. -/
theorem parseLines_proj (ls : List PStr) :
    (parseLines ls).errors = (parseLinesLoop {} (ls.length + 1) ls 0).errors ∧
    (parseLines ls).warnings =
      (parseLinesLoop {} (ls.length + 1) ls 0).warnings ∧
    (parseLines ls).nodes = (parseLinesLoop {} (ls.length + 1) ls 0).nodes := by
  simp only [parseLines]
  split
  · split
    · exact ⟨rfl, rfl, rfl⟩
    · split
      · exact ⟨rfl, rfl, rfl⟩
      · exact ⟨rfl, rfl, rfl⟩
  · exact ⟨rfl, rfl, rfl⟩

theorem containsCh_append (c : Char) (xs ys : PStr) :
    containsCh c (xs ++ ys) = (containsCh c xs || containsCh c ys) := by
  simp [containsCh, List.any_append]

theorem containsCh_cons (c d0 : Char) (s : PStr) :
    containsCh c (d0 :: s) = (decide (d0 = c) || containsCh c s) := by
  simp [containsCh]

/-- `_parse_choice` on `-> target: "opening` followed only by letters-only
continuation lines: the quote never closes, the accumulated fragments are
joined, no condition, no diagnostics. -/
theorem parseChoice_family {tgt t0 : PStr} {conts : List PStr}
    (htgt : alphaStr tgt) (ht0 : alphaStr t0)
    (hconts : ∀ l ∈ conts, alphaStr l) (d : PDialogue) (i : Nat) :
    parseChoice ('-' :: '>' :: ' ' :: (tgt ++ ':' :: ' ' :: '"' :: t0)) conts i d =
      (⟨tgt, joinSp (t0 :: conts), none, i + 1⟩, d, [], i + 1 + conts.length) := by
  obtain ⟨g0, tgt1, rfl⟩ := List.exists_cons_of_ne_nil htgt.1
  have hg0 : g0.isAlpha = true := htgt.2 g0 (List.mem_cons_self g0 tgt1)
  have hgrp : '-' :: '>' :: ' ' :: g0 :: (tgt1 ++ ':' :: ' ' :: '"' :: t0)
      = ('-' :: '>' :: ' ' :: g0 :: tgt1 ++ [':', ' ', '"']) ++ t0 := by simp
  have hps : pstrip ('-' :: '>' :: ' ' :: g0 :: (tgt1 ++ ':' :: ' ' :: '"' :: t0))
      = '-' :: '>' :: ' ' :: g0 :: (tgt1 ++ ':' :: ' ' :: '"' :: t0) := by
    rw [pstrip, plstrip_cons (by decide), hgrp]
    exact prstrip_append_alpha ht0
  have hgrp2 : g0 :: (tgt1 ++ ':' :: ' ' :: '"' :: t0)
      = (g0 :: tgt1 ++ [':', ' ', '"']) ++ t0 := by simp
  have hdrop2 :
      ('-' :: '>' :: ' ' :: g0 :: (tgt1 ++ ':' :: ' ' :: '"' :: t0)).drop 2
      = ' ' :: g0 :: (tgt1 ++ ':' :: ' ' :: '"' :: t0) := rfl
  have hct : pstrip (' ' :: g0 :: (tgt1 ++ ':' :: ' ' :: '"' :: t0))
      = g0 :: (tgt1 ++ ':' :: ' ' :: '"' :: t0) := by
    have h1 : plstrip (' ' :: g0 :: (tgt1 ++ ':' :: ' ' :: '"' :: t0))
        = g0 :: (tgt1 ++ ':' :: ' ' :: '"' :: t0) := by
      have hwsp : isWsC ' ' = true := by decide
      simp [plstrip, List.dropWhile_cons, alpha_not_wsC hg0, hwsp]
    rw [pstrip, h1, hgrp2]
    exact prstrip_append_alpha ht0
  have hcol : containsCh ':' (g0 :: (tgt1 ++ ':' :: ' ' :: '"' :: t0)) = true := by
    rw [← List.cons_append]
    exact containsCh_mid ':' (g0 :: tgt1) _
  have hnoc : containsCh '{' (g0 :: (tgt1 ++ ':' :: ' ' :: '"' :: t0)) = false := by
    rw [← List.cons_append, containsCh_append, containsCh_alpha htgt.2 (by decide)]
    rw [containsCh_cons, containsCh_cons, containsCh_cons,
      containsCh_alpha ht0.2 (by decide)]
    decide
  have hsplit : splitFirst ':' (g0 :: (tgt1 ++ ':' :: ' ' :: '"' :: t0))
      = some (g0 :: tgt1, ' ' :: '"' :: t0) := by
    rw [← List.cons_append]
    refine splitFirst_mid ?_
    intro a ha he
    have h2 := htgt.2 a ha
    rw [he] at h2
    exact absurd h2 (by decide)
  have htg : pstrip (g0 :: tgt1) = g0 :: tgt1 := pstrip_alpha htgt.2
  have hrest1 : pstrip (' ' :: '"' :: t0) = '"' :: t0 := pstrip_space_quote ht0
  have hq1 : startsW ['"'] ('"' :: t0) = true := by
    rw [startsW_cons_self]
    rfl
  have hq2 : countCh '"' ('"' :: t0) = 1 := by
    rw [countCh_cons_self, countCh_alpha ht0.2 (by decide)]
  have hdrop1 : ('"' :: t0).drop 1 = t0 := rfl
  have hinit : pstrip t0 = t0 := pstrip_alpha ht0.2
  have hrm : readMultiline conts (i + 1) [t0]
      = (joinSp (t0 :: conts), [], none, [], i + 1 + conts.length) := by
    rw [readMultiline_alpha hconts]
    simp
  have hwc : warnCond d none (i + 1) = d := rfl
  simp only [parseChoice, List.cons_append, hps, hdrop2, hct, hcol, hnoc,
    Bool.and_false, Bool.and_true, Bool.true_and, Bool.false_and, Bool.not_false,
    Bool.false_eq_true, if_false, if_true, decide_True, hsplit, htg, hrest1,
    hq1, hq2, hdrop1, hinit, hrm, hwc]

/-- One `_parse_node` body iteration on a speaker line whose opening quote
never closes, followed only by letters-only continuation lines. -/
theorem parseNodeLoop_speaker {sp t0 : PStr} {conts : List PStr}
    (hsp : alphaStr sp) (ht0 : alphaStr t0)
    (hconts : ∀ l ∈ conts, alphaStr l)
    (d : PDialogue) (prim : PNode) (fuel i : Nat) :
    parseNodeLoop d prim (fuel + 1) ((sp ++ ':' :: ' ' :: '"' :: t0) :: conts) i =
      (d, { prim with lines := prim.lines ++
          [⟨sp, joinSp (t0 :: conts), none, [], i + 1⟩] }, [],
        i + 1 + conts.length) := by
  obtain ⟨s0, sp1, rfl⟩ := List.exists_cons_of_ne_nil hsp.1
  have hs0 : s0.isAlpha = true := hsp.2 s0 (List.mem_cons_self s0 sp1)
  have hgrp : s0 :: (sp1 ++ ':' :: ' ' :: '"' :: t0)
      = (s0 :: sp1 ++ [':', ' ', '"']) ++ t0 := by simp
  have hprs : prstrip (s0 :: (sp1 ++ ':' :: ' ' :: '"' :: t0))
      = s0 :: (sp1 ++ ':' :: ' ' :: '"' :: t0) := by
    rw [hgrp]
    exact prstrip_append_alpha ht0
  have hps : pstrip (s0 :: (sp1 ++ ':' :: ' ' :: '"' :: t0))
      = s0 :: (sp1 ++ ':' :: ' ' :: '"' :: t0) := by
    rw [pstrip, plstrip_cons (alpha_not_wsC hs0)]
    exact hprs
  have hhash : startsW ['#'] (s0 :: (sp1 ++ ':' :: ' ' :: '"' :: t0)) = false :=
    startsW_cons_alpha hs0 (by decide)
  have hbr : startsW ['['] (s0 :: (sp1 ++ ':' :: ' ' :: '"' :: t0)) = false :=
    startsW_cons_alpha hs0 (by decide)
  have hat : startsW ['@'] (s0 :: (sp1 ++ ':' :: ' ' :: '"' :: t0)) = false :=
    startsW_cons_alpha hs0 (by decide)
  have hstar : startsW ['*'] (s0 :: (sp1 ++ ':' :: ' ' :: '"' :: t0)) = false :=
    startsW_cons_alpha hs0 (by decide)
  have harr : startsW ['-', '>'] (s0 :: (sp1 ++ ':' :: ' ' :: '"' :: t0)) = false :=
    startsW_cons_alpha hs0 (by decide)
  have hbrace : startsW ['{'] (s0 :: (sp1 ++ ':' :: ' ' :: '"' :: t0)) = false :=
    startsW_cons_alpha hs0 (by decide)
  have hcol : containsCh ':' (s0 :: (sp1 ++ ':' :: ' ' :: '"' :: t0)) = true := by
    rw [← List.cons_append]
    exact containsCh_mid ':' (s0 :: sp1) _
  have hsplit : splitFirst ':' (s0 :: (sp1 ++ ':' :: ' ' :: '"' :: t0))
      = some (s0 :: sp1, ' ' :: '"' :: t0) := by
    rw [← List.cons_append]
    refine splitFirst_mid ?_
    intro a ha he
    have h2 := hsp.2 a ha
    rw [he] at h2
    exact absurd h2 (by decide)
  have hspk : pstrip (s0 :: sp1) = s0 :: sp1 := pstrip_alpha hsp.2
  have hrest1 : pstrip (' ' :: '"' :: t0) = '"' :: t0 := pstrip_space_quote ht0
  have hq1 : startsW ['"'] ('"' :: t0) = true := by
    rw [startsW_cons_self]
    rfl
  have hq2 : countCh '"' ('"' :: t0) = 1 := by
    rw [countCh_cons_self, countCh_alpha ht0.2 (by decide)]
  have hdrop1 : ('"' :: t0).drop 1 = t0 := rfl
  have hinit : pstrip t0 = t0 := pstrip_alpha ht0.2
  have hrm : readMultiline conts (i + 1) [t0]
      = (joinSp (t0 :: conts), [], none, [], i + 1 + conts.length) := by
    rw [readMultiline_alpha hconts]
    simp
  simp only [parseNodeLoop, List.cons_append, hprs, hps, List.isEmpty_cons,
    hhash, hbr, hat, hstar, harr, hbrace, hcol, Bool.false_and, Bool.false_or,
    Bool.not_false, Bool.and_true, Bool.true_and, Bool.false_eq_true, if_false,
    if_true, decide_True, hsplit, hspk, hrest1, hq1, hq2, hdrop1, hinit, hrm,
    warnCond, parseNodeLoop_nil]

/-- One `_parse_node` body iteration on a choice line whose opening quote
never closes, followed only by letters-only continuation lines. -/
theorem parseNodeLoop_choice {tgt t0 : PStr} {conts : List PStr}
    (htgt : alphaStr tgt) (ht0 : alphaStr t0)
    (hconts : ∀ l ∈ conts, alphaStr l)
    (d : PDialogue) (prim : PNode) (fuel i : Nat) :
    parseNodeLoop d prim (fuel + 1)
      (('-' :: '>' :: ' ' :: (tgt ++ ':' :: ' ' :: '"' :: t0)) :: conts) i =
      (d, { prim with choices := prim.choices ++
          [⟨tgt, joinSp (t0 :: conts), none, i + 1⟩] }, [],
        i + 1 + conts.length) := by
  obtain ⟨g0, tgt1, hg⟩ := List.exists_cons_of_ne_nil htgt.1
  have hgrp : '-' :: '>' :: ' ' :: (tgt ++ ':' :: ' ' :: '"' :: t0)
      = ('-' :: '>' :: ' ' :: tgt ++ [':', ' ', '"']) ++ t0 := by simp
  have hprs : prstrip ('-' :: '>' :: ' ' :: (tgt ++ ':' :: ' ' :: '"' :: t0))
      = '-' :: '>' :: ' ' :: (tgt ++ ':' :: ' ' :: '"' :: t0) := by
    rw [hgrp]
    exact prstrip_append_alpha ht0
  have hps : pstrip ('-' :: '>' :: ' ' :: (tgt ++ ':' :: ' ' :: '"' :: t0))
      = '-' :: '>' :: ' ' :: (tgt ++ ':' :: ' ' :: '"' :: t0) := by
    rw [pstrip, plstrip_cons (by decide)]
    exact hprs
  have hhash : startsW ['#'] ('-' :: '>' :: ' ' :: (tgt ++ ':' :: ' ' :: '"' :: t0))
      = false := startsW_cons_ne (by decide) _ _
  have hbr : startsW ['['] ('-' :: '>' :: ' ' :: (tgt ++ ':' :: ' ' :: '"' :: t0))
      = false := startsW_cons_ne (by decide) _ _
  have hat : startsW ['@'] ('-' :: '>' :: ' ' :: (tgt ++ ':' :: ' ' :: '"' :: t0))
      = false := startsW_cons_ne (by decide) _ _
  have hstar : startsW ['*'] ('-' :: '>' :: ' ' :: (tgt ++ ':' :: ' ' :: '"' :: t0))
      = false := startsW_cons_ne (by decide) _ _
  have harr : startsW ['-', '>'] ('-' :: '>' :: ' ' :: (tgt ++ ':' :: ' ' :: '"' :: t0))
      = true := by
    rw [startsW_cons_self, startsW_cons_self]
    rfl
  have hpc := parseChoice_family htgt ht0 hconts d i
  simp only [parseNodeLoop, hprs, hps, List.isEmpty_cons, hhash, hbr, hat,
    hstar, harr, Bool.false_and, Bool.false_or, Bool.false_eq_true, if_false,
    if_true, hpc, parseNodeLoop_nil]

/-- One `parse_lines` iteration on a letters-only bracketed header whose
following line is not a header: exactly one stacked header is gathered and
`_parse_node` is entered on the rest. -/
theorem parseLinesLoop_header {n : PStr} (hn : alphaStr n)
    (hn1 : n ≠ "characters".data) (hn2 : n ≠ "state".data)
    {bl : PStr}
    (hbl : (startsW ['['] (pstrip bl) && endsW [']'] (pstrip bl)) = false)
    (conts : List PStr) (fuel : Nat) (d : PDialogue) :
    parseLinesLoop d (fuel + 1) (('[' :: (n ++ [']'])) :: bl :: conts) 0 =
      (match parseNode (bl :: conts) 1 [n] d with
       | (d2, rem, ni) => parseLinesLoop d2 fuel rem ni) := by
  have hpr : prstrip ('[' :: (n ++ [']'])) = '[' :: (n ++ [']']) :=
    prstrip_header n
  have hps : pstrip ('[' :: (n ++ [']'])) = '[' :: (n ++ [']']) :=
    pstrip_header n
  have hhash : startsW ['#'] ('[' :: (n ++ [']'])) = false :=
    startsW_cons_ne (by decide) _ _
  have hch : (('[' :: (n ++ [']'])) = "[characters]".data) = False := by
    apply eq_false
    intro he
    have he2 : "[characters]".data = '[' :: ("characters".data ++ [']']) := by
      decide
    rw [he2] at he
    exact header_ne hn1 he
  have hst : (('[' :: (n ++ [']'])) = "[state]".data) = False := by
    apply eq_false
    intro he
    have he2 : "[state]".data = '[' :: ("state".data ++ [']']) := by decide
    rw [he2] at he
    exact header_ne hn2 he
  have hen : entryName ('[' :: (n ++ [']'])) = none := entryName_header hn.2
  have hbr : startsW ['['] ('[' :: (n ++ [']'])) = true := by
    rw [startsW_cons_self]
    rfl
  have hend : endsW [']'] ('[' :: (n ++ [']'])) = true := by
    rw [← List.cons_append]
    exact endsW_concat ']' ('[' :: n)
  have htw : (('[' :: (n ++ [']'])) :: bl :: conts).takeWhile
      (fun x => startsW ['['] (pstrip x) && endsW [']'] (pstrip x))
      = ['[' :: (n ++ [']'])] := by
    simp only [List.takeWhile_cons, hps, hbr, hend, hbl, Bool.and_self,
      Bool.true_and, if_true, Bool.false_eq_true, if_false]
  have hdrop1 : ('[' :: (n ++ [']'])).drop 1 = n ++ [']'] := rfl
  have hlen2 : n.length + 1 + 1 - 2 = n.length := by omega
  have htake : (n ++ [']']).take n.length = n := List.take_left n [']']
  have hdropL : (('[' :: (n ++ [']'])) :: bl :: conts).drop 1 = bl :: conts := rfl
  simp only [parseLinesLoop, hpr, hps, List.isEmpty_cons, hhash, hch, hst, hen,
    hbr, hend, htw, Bool.false_or, Bool.and_self, Bool.false_eq_true, if_false,
    if_true, List.map_cons, List.map_nil, hdrop1, List.length_append,
    List.length_cons, List.length_nil, Nat.zero_add, hlen2, htake, hdropL]

/-- The unclosed-quote speaker line is not a bracketed header. -/
theorem body_not_header {sp t0 : PStr} (hsp : alphaStr sp) (ht0 : alphaStr t0) :
    (startsW ['['] (pstrip (sp ++ ':' :: ' ' :: '"' :: t0)) &&
      endsW [']'] (pstrip (sp ++ ':' :: ' ' :: '"' :: t0))) = false := by
  obtain ⟨s0, sp1, rfl⟩ := List.exists_cons_of_ne_nil hsp.1
  have hs0 : s0.isAlpha = true := hsp.2 s0 (List.mem_cons_self s0 sp1)
  rw [List.cons_append]
  have hps : pstrip (s0 :: (sp1 ++ ':' :: ' ' :: '"' :: t0))
      = s0 :: (sp1 ++ ':' :: ' ' :: '"' :: t0) := by
    rw [pstrip, plstrip_cons (alpha_not_wsC hs0),
      show s0 :: (sp1 ++ ':' :: ' ' :: '"' :: t0)
        = (s0 :: sp1 ++ [':', ' ', '"']) ++ t0 from by simp]
    exact prstrip_append_alpha ht0
  rw [hps, startsW_cons_alpha hs0 (by decide), Bool.false_and]

/-- The unclosed-quote choice line is not a bracketed header. -/
theorem cbody_not_header {tgt t0 : PStr} (ht0 : alphaStr t0) :
    (startsW ['['] (pstrip ('-' :: '>' :: ' ' :: (tgt ++ ':' :: ' ' :: '"' :: t0))) &&
      endsW [']'] (pstrip ('-' :: '>' :: ' ' :: (tgt ++ ':' :: ' ' :: '"' :: t0)))) = false := by
  have hps : pstrip ('-' :: '>' :: ' ' :: (tgt ++ ':' :: ' ' :: '"' :: t0))
      = '-' :: '>' :: ' ' :: (tgt ++ ':' :: ' ' :: '"' :: t0) := by
    rw [pstrip, plstrip_cons (by decide),
      show '-' :: '>' :: ' ' :: (tgt ++ ':' :: ' ' :: '"' :: t0)
        = ('-' :: '>' :: ' ' :: tgt ++ [':', ' ', '"']) ++ t0 from by simp]
    exact prstrip_append_alpha ht0
  rw [hps, startsW_cons_ne (show ¬('[' = '-') from by decide) [] _, Bool.false_and]

/-- End-to-end: a node whose speaker line opens a quote that never closes,
then only letters-only continuation lines to end of input. -/
theorem speaker_family {n sp t0 : PStr} {conts : List PStr} (hn : alphaStr n)
    (hsp : alphaStr sp) (ht0 : alphaStr t0) (hconts : ∀ l ∈ conts, alphaStr l)
    (hn1 : n ≠ "characters".data) (hn2 : n ≠ "state".data) :
    (parseLines (('[' :: (n ++ [']'])) :: (sp ++ ':' :: ' ' :: '"' :: t0) :: conts)).errors = [] ∧
    (parseLines (('[' :: (n ++ [']'])) :: (sp ++ ':' :: ' ' :: '"' :: t0) :: conts)).warnings = [] ∧
    plookup n (parseLines (('[' :: (n ++ [']'])) :: (sp ++ ':' :: ' ' :: '"' :: t0) :: conts)).nodes
      = some ⟨n, [⟨sp, joinSp (t0 :: conts), none, [], 2⟩], [], [], [], false, 1⟩ := by
  have hbl := body_not_header hsp ht0
  have hcore : parseLinesLoop {}
      ((('[' :: (n ++ [']'])) :: (sp ++ ':' :: ' ' :: '"' :: t0) :: conts).length + 1)
      (('[' :: (n ++ [']'])) :: (sp ++ ':' :: ' ' :: '"' :: t0) :: conts) 0
      = { nodes :=
          [(n, ⟨n, [⟨sp, joinSp (t0 :: conts), none, [], 1 + 1⟩], [], [], [], false, 1⟩)] } := by
    rw [parseLinesLoop_header hn hn1 hn2 hbl conts _ {}]
    simp only [parseNode, parseNodeLoop_speaker hsp ht0 hconts,
      List.nil_append, passign, List.foldl_nil, parseLinesLoop_nil]
  obtain ⟨he, hw, hnd⟩ := parseLines_proj
    (('[' :: (n ++ [']'])) :: (sp ++ ':' :: ' ' :: '"' :: t0) :: conts)
  rw [he, hw, hnd, hcore]
  refine ⟨rfl, rfl, ?_⟩
  simp [plookup]

/-- End-to-end: a node whose only choice opens a quote that never closes,
then only letters-only continuation lines to end of input. -/
theorem choice_family {n tgt t0 : PStr} {conts : List PStr} (hn : alphaStr n)
    (htgt : alphaStr tgt) (ht0 : alphaStr t0) (hconts : ∀ l ∈ conts, alphaStr l)
    (hn1 : n ≠ "characters".data) (hn2 : n ≠ "state".data) :
    (parseLines (('[' :: (n ++ [']'])) :: ('-' :: '>' :: ' ' :: (tgt ++ ':' :: ' ' :: '"' :: t0)) :: conts)).errors = [] ∧
    (parseLines (('[' :: (n ++ [']'])) :: ('-' :: '>' :: ' ' :: (tgt ++ ':' :: ' ' :: '"' :: t0)) :: conts)).warnings = [] ∧
    plookup n (parseLines (('[' :: (n ++ [']'])) :: ('-' :: '>' :: ' ' :: (tgt ++ ':' :: ' ' :: '"' :: t0)) :: conts)).nodes
      = some ⟨n, [], [⟨tgt, joinSp (t0 :: conts), none, 2⟩], [], [], false, 1⟩ := by
  have hbl := @cbody_not_header tgt t0 ht0
  have hcore : parseLinesLoop {}
      ((('[' :: (n ++ [']'])) :: ('-' :: '>' :: ' ' :: (tgt ++ ':' :: ' ' :: '"' :: t0)) :: conts).length + 1)
      (('[' :: (n ++ [']'])) :: ('-' :: '>' :: ' ' :: (tgt ++ ':' :: ' ' :: '"' :: t0)) :: conts) 0
      = { nodes :=
          [(n, ⟨n, [], [⟨tgt, joinSp (t0 :: conts), none, 1 + 1⟩], [], [], false, 1⟩)] } := by
    rw [parseLinesLoop_header hn hn1 hn2 hbl conts _ {}]
    simp only [parseNode, parseNodeLoop_choice htgt ht0 hconts,
      List.nil_append, passign, List.foldl_nil, parseLinesLoop_nil]
  obtain ⟨he, hw, hnd⟩ := parseLines_proj
    (('[' :: (n ++ [']'])) :: ('-' :: '>' :: ' ' :: (tgt ++ ':' :: ' ' :: '"' :: t0)) :: conts)
  rw [he, hw, hnd, hcore]
  refine ⟨rfl, rfl, ?_⟩
  simp [plookup]

/-- C8: for inputs in which a speaker line (`Name: "text`) or a choice
line (`-> target: "text`) opens a double quote that is never closed
before end of input, the parser returns the accumulated text fragments
joined with single spaces as the line's (resp. choice's) text, records no
error and no warning, and parsing completes normally with the node bound
in the dialogue (best-effort, not a parse error). -/
theorem claim_C8 {n sp tgt t0 : PStr} {conts : List PStr}
    (hn : alphaStr n) (hsp : alphaStr sp) (htgt : alphaStr tgt)
    (ht0 : alphaStr t0) (hconts : ∀ l ∈ conts, alphaStr l)
    (hn1 : n ≠ "characters".data) (hn2 : n ≠ "state".data) :
    ((parseLines (('[' :: (n ++ [']'])) :: (sp ++ ':' :: ' ' :: '"' :: t0) :: conts)).errors = [] ∧
     (parseLines (('[' :: (n ++ [']'])) :: (sp ++ ':' :: ' ' :: '"' :: t0) :: conts)).warnings = [] ∧
     plookup n (parseLines (('[' :: (n ++ [']'])) :: (sp ++ ':' :: ' ' :: '"' :: t0) :: conts)).nodes
       = some ⟨n, [⟨sp, joinSp (t0 :: conts), none, [], 2⟩], [], [], [], false, 1⟩) ∧
    ((parseLines (('[' :: (n ++ [']'])) :: ('-' :: '>' :: ' ' :: (tgt ++ ':' :: ' ' :: '"' :: t0)) :: conts)).errors = [] ∧
     (parseLines (('[' :: (n ++ [']'])) :: ('-' :: '>' :: ' ' :: (tgt ++ ':' :: ' ' :: '"' :: t0)) :: conts)).warnings = [] ∧
     plookup n (parseLines (('[' :: (n ++ [']'])) :: ('-' :: '>' :: ' ' :: (tgt ++ ':' :: ' ' :: '"' :: t0)) :: conts)).nodes
       = some ⟨n, [], [⟨tgt, joinSp (t0 :: conts), none, 2⟩], [], [], false, 1⟩) :=
  ⟨speaker_family hn hsp ht0 hconts hn1 hn2,
   choice_family hn htgt ht0 hconts hn1 hn2⟩

/-- Witness for C8 at a concrete unclosed-quote speaker line and choice
line with two continuation lines. -/
theorem claim_C8_witness :
    alphaStr "greet".data ∧ alphaStr "Bob".data ∧ alphaStr "next".data ∧
    alphaStr "Hello".data ∧
    (∀ l ∈ ["more".data, "words".data], alphaStr l) ∧
    "greet".data ≠ "characters".data ∧ "greet".data ≠ "state".data ∧
    (((parseLines (('[' :: ("greet".data ++ [']'])) :: ("Bob".data ++ ':' :: ' ' :: '"' :: "Hello".data) :: ["more".data, "words".data])).errors = [] ∧
      (parseLines (('[' :: ("greet".data ++ [']'])) :: ("Bob".data ++ ':' :: ' ' :: '"' :: "Hello".data) :: ["more".data, "words".data])).warnings = [] ∧
      plookup "greet".data (parseLines (('[' :: ("greet".data ++ [']'])) :: ("Bob".data ++ ':' :: ' ' :: '"' :: "Hello".data) :: ["more".data, "words".data])).nodes
        = some ⟨"greet".data, [⟨"Bob".data, joinSp ("Hello".data :: ["more".data, "words".data]), none, [], 2⟩], [], [], [], false, 1⟩) ∧
     ((parseLines (('[' :: ("greet".data ++ [']'])) :: ('-' :: '>' :: ' ' :: ("next".data ++ ':' :: ' ' :: '"' :: "Hello".data)) :: ["more".data, "words".data])).errors = [] ∧
      (parseLines (('[' :: ("greet".data ++ [']'])) :: ('-' :: '>' :: ' ' :: ("next".data ++ ':' :: ' ' :: '"' :: "Hello".data)) :: ["more".data, "words".data])).warnings = [] ∧
      plookup "greet".data (parseLines (('[' :: ("greet".data ++ [']'])) :: ('-' :: '>' :: ' ' :: ("next".data ++ ':' :: ' ' :: '"' :: "Hello".data)) :: ["more".data, "words".data])).nodes
        = some ⟨"greet".data, [], [⟨"next".data, joinSp ("Hello".data :: ["more".data, "words".data]), none, 2⟩], [], [], false, 1⟩)) := by
  have h1 : alphaStr "greet".data := by unfold alphaStr; exact ⟨by decide, by decide⟩
  have h2 : alphaStr "Bob".data := by unfold alphaStr; exact ⟨by decide, by decide⟩
  have h3 : alphaStr "next".data := by unfold alphaStr; exact ⟨by decide, by decide⟩
  have h4 : alphaStr "Hello".data := by unfold alphaStr; exact ⟨by decide, by decide⟩
  have h5 : ∀ l ∈ ["more".data, "words".data], alphaStr l := by
    unfold alphaStr
    decide
  have h6 : "greet".data ≠ "characters".data := by decide
  have h7 : "greet".data ≠ "state".data := by decide
  exact ⟨h1, h2, h3, h4, h5, h6, h7, claim_C8 h1 h2 h3 h4 h5 h6 h7⟩

theorem countCh_append (c : Char) (xs ys : PStr) :
    countCh c (xs ++ ys) = countCh c xs + countCh c ys := by
  simp [countCh, List.filter_append]

/-- The `_parse_node` body loop stops at a bracketed header line. -/
theorem parseNodeLoop_header_stop {n : PStr} (rest : List PStr)
    (d : PDialogue) (prim : PNode) (fuel i : Nat) :
    parseNodeLoop d prim (fuel + 1) (('[' :: (n ++ [']'])) :: rest) i
      = (d, prim, ('[' :: (n ++ [']'])) :: rest, i) := by
  have hbr : startsW ['['] ('[' :: (n ++ [']'])) = true := by
    rw [startsW_cons_self]
    rfl
  have hend : endsW [']'] ('[' :: (n ++ [']'])) = true := by
    rw [← List.cons_append]
    exact endsW_concat ']' ('[' :: n)
  simp only [parseNodeLoop, prstrip_header, pstrip_header, hbr, hend,
    Bool.and_self, if_true]

/-- One `parse_lines` iteration on a letters-only bracketed header at an
arbitrary index whose following line is not a header. -/
theorem parseLinesLoop_header_at {n : PStr} (hn : alphaStr n)
    (hn1 : n ≠ "characters".data) (hn2 : n ≠ "state".data)
    {bl : PStr}
    (hbl : (startsW ['['] (pstrip bl) && endsW [']'] (pstrip bl)) = false)
    (conts : List PStr) (fuel i : Nat) (d : PDialogue) :
    parseLinesLoop d (fuel + 1) (('[' :: (n ++ [']'])) :: bl :: conts) i =
      (match parseNode (bl :: conts) (i + 1) [n] d with
       | (d2, rem, ni) => parseLinesLoop d2 fuel rem ni) := by
  have hpr : prstrip ('[' :: (n ++ [']'])) = '[' :: (n ++ [']']) :=
    prstrip_header n
  have hps : pstrip ('[' :: (n ++ [']'])) = '[' :: (n ++ [']']) :=
    pstrip_header n
  have hhash : startsW ['#'] ('[' :: (n ++ [']'])) = false :=
    startsW_cons_ne (by decide) _ _
  have hch : (('[' :: (n ++ [']'])) = "[characters]".data) = False := by
    apply eq_false
    intro he
    have he2 : "[characters]".data = '[' :: ("characters".data ++ [']']) := by
      decide
    rw [he2] at he
    exact header_ne hn1 he
  have hst : (('[' :: (n ++ [']'])) = "[state]".data) = False := by
    apply eq_false
    intro he
    have he2 : "[state]".data = '[' :: ("state".data ++ [']']) := by decide
    rw [he2] at he
    exact header_ne hn2 he
  have hen : entryName ('[' :: (n ++ [']'])) = none := entryName_header hn.2
  have hbr : startsW ['['] ('[' :: (n ++ [']'])) = true := by
    rw [startsW_cons_self]
    rfl
  have hend : endsW [']'] ('[' :: (n ++ [']'])) = true := by
    rw [← List.cons_append]
    exact endsW_concat ']' ('[' :: n)
  have htw : (('[' :: (n ++ [']'])) :: bl :: conts).takeWhile
      (fun x => startsW ['['] (pstrip x) && endsW [']'] (pstrip x))
      = ['[' :: (n ++ [']'])] := by
    simp only [List.takeWhile_cons, hps, hbr, hend, hbl, Bool.and_self,
      Bool.true_and, if_true, Bool.false_eq_true, if_false]
  have hdrop1 : ('[' :: (n ++ [']'])).drop 1 = n ++ [']'] := rfl
  have hlen2 : n.length + 1 + 1 - 2 = n.length := by omega
  have htake : (n ++ [']']).take n.length = n := List.take_left n [']']
  have hdropL : (('[' :: (n ++ [']'])) :: bl :: conts).drop 1 = bl :: conts := rfl
  simp only [parseLinesLoop, hpr, hps, List.isEmpty_cons, hhash, hch, hst, hen,
    hbr, hend, htw, Bool.false_or, Bool.and_self, Bool.false_eq_true, if_false,
    if_true, List.map_cons, List.map_nil, hdrop1, List.length_append,
    List.length_cons, List.length_nil, Nat.zero_add, hlen2, htake, hdropL]

/-- The closed-quote speaker line is not a bracketed header. -/
theorem body1_not_header {sp x : PStr} (hsp : alphaStr sp) :
    (startsW ['['] (pstrip (sp ++ ':' :: ' ' :: '"' :: (x ++ ['"']))) &&
      endsW [']'] (pstrip (sp ++ ':' :: ' ' :: '"' :: (x ++ ['"'])))) = false := by
  obtain ⟨s0, sp1, rfl⟩ := List.exists_cons_of_ne_nil hsp.1
  have hs0 : s0.isAlpha = true := hsp.2 s0 (List.mem_cons_self s0 sp1)
  rw [List.cons_append]
  have hps : pstrip (s0 :: (sp1 ++ ':' :: ' ' :: '"' :: (x ++ ['"'])))
      = s0 :: (sp1 ++ ':' :: ' ' :: '"' :: (x ++ ['"'])) := by
    rw [pstrip, plstrip_cons (alpha_not_wsC hs0),
      show s0 :: (sp1 ++ ':' :: ' ' :: '"' :: (x ++ ['"']))
        = (s0 :: sp1 ++ [':', ' ', '"'] ++ x) ++ ['"'] from by simp]
    exact prstrip_concat (by decide)
  rw [hps, startsW_cons_alpha hs0 (by decide), Bool.false_and]

/-- One `_parse_node` body iteration on a speaker line with a single-line
quoted text (`Name: "text"`): the line is recorded and the loop continues. -/
theorem parseNodeLoop_speaker1 {sp x : PStr} (hsp : alphaStr sp)
    (hx : alphaStr x) (d : PDialogue) (prim : PNode) (fuel : Nat)
    (rest : List PStr) (i : Nat) :
    parseNodeLoop d prim (fuel + 1)
      ((sp ++ ':' :: ' ' :: '"' :: (x ++ ['"'])) :: rest) i =
      parseNodeLoop d
        { prim with lines := prim.lines ++ [⟨sp, x, none, [], i + 1⟩] }
        fuel rest (i + 1) := by
  obtain ⟨s0, sp1, rfl⟩ := List.exists_cons_of_ne_nil hsp.1
  have hs0 : s0.isAlpha = true := hsp.2 s0 (List.mem_cons_self s0 sp1)
  have hprs : prstrip (s0 :: (sp1 ++ ':' :: ' ' :: '"' :: (x ++ ['"'])))
      = s0 :: (sp1 ++ ':' :: ' ' :: '"' :: (x ++ ['"'])) := by
    rw [show s0 :: (sp1 ++ ':' :: ' ' :: '"' :: (x ++ ['"']))
        = (s0 :: sp1 ++ [':', ' ', '"'] ++ x) ++ ['"'] from by simp]
    exact prstrip_concat (by decide)
  have hps : pstrip (s0 :: (sp1 ++ ':' :: ' ' :: '"' :: (x ++ ['"'])))
      = s0 :: (sp1 ++ ':' :: ' ' :: '"' :: (x ++ ['"'])) := by
    rw [pstrip, plstrip_cons (alpha_not_wsC hs0)]
    exact hprs
  have hhash : startsW ['#'] (s0 :: (sp1 ++ ':' :: ' ' :: '"' :: (x ++ ['"'])))
      = false := startsW_cons_alpha hs0 (by decide)
  have hbr : startsW ['['] (s0 :: (sp1 ++ ':' :: ' ' :: '"' :: (x ++ ['"'])))
      = false := startsW_cons_alpha hs0 (by decide)
  have hat : startsW ['@'] (s0 :: (sp1 ++ ':' :: ' ' :: '"' :: (x ++ ['"'])))
      = false := startsW_cons_alpha hs0 (by decide)
  have hstar : startsW ['*'] (s0 :: (sp1 ++ ':' :: ' ' :: '"' :: (x ++ ['"'])))
      = false := startsW_cons_alpha hs0 (by decide)
  have harr : startsW ['-', '>'] (s0 :: (sp1 ++ ':' :: ' ' :: '"' :: (x ++ ['"'])))
      = false := startsW_cons_alpha hs0 (by decide)
  have hbrace : startsW ['{'] (s0 :: (sp1 ++ ':' :: ' ' :: '"' :: (x ++ ['"'])))
      = false := startsW_cons_alpha hs0 (by decide)
  have hcol : containsCh ':' (s0 :: (sp1 ++ ':' :: ' ' :: '"' :: (x ++ ['"'])))
      = true := by
    rw [← List.cons_append]
    exact containsCh_mid ':' (s0 :: sp1) _
  have hsplit : splitFirst ':' (s0 :: (sp1 ++ ':' :: ' ' :: '"' :: (x ++ ['"'])))
      = some (s0 :: sp1, ' ' :: '"' :: (x ++ ['"'])) := by
    rw [← List.cons_append]
    refine splitFirst_mid ?_
    intro a ha he
    have h2 := hsp.2 a ha
    rw [he] at h2
    exact absurd h2 (by decide)
  have hspk : pstrip (s0 :: sp1) = s0 :: sp1 := pstrip_alpha hsp.2
  have hrest1 : pstrip (' ' :: '"' :: (x ++ ['"'])) = '"' :: (x ++ ['"']) := by
    have hws : isWsC ' ' = true := by decide
    have hwq : isWsC '"' = false := by decide
    have h1 : plstrip (' ' :: '"' :: (x ++ ['"'])) = '"' :: (x ++ ['"']) := by
      simp [plstrip, List.dropWhile_cons, hws, hwq]
    rw [pstrip, h1,
      show '"' :: (x ++ ['"']) = ('"' :: x) ++ ['"'] from by simp]
    exact prstrip_concat (by decide)
  have hq1 : startsW ['"'] ('"' :: (x ++ ['"'])) = true := by
    rw [startsW_cons_self]
    rfl
  have hq2 : countCh '"' ('"' :: (x ++ ['"'])) = 2 := by
    rw [countCh_cons_self, countCh_append, countCh_alpha hx.2 (by decide)]
    decide
  have hq21 : (decide ((2 : Nat) = 1)) = false := rfl
  have hnb : containsCh '[' ('"' :: (x ++ ['"'])) = false := by
    rw [containsCh_cons, containsCh_append, containsCh_alpha hx.2 (by decide)]
    decide
  have hex : extractTags ('"' :: (x ++ ['"'])) = ('"' :: (x ++ ['"']), []) := by
    simp only [extractTags, hnb, Bool.not_false, if_true]
  have hnb2 : containsCh '{' ('"' :: (x ++ ['"'])) = false := by
    rw [containsCh_cons, containsCh_append, containsCh_alpha hx.2 (by decide)]
    decide
  have hstc : splitTrailingCond ('"' :: (x ++ ['"'])) = ('"' :: (x ++ ['"']), none) := by
    simp only [splitTrailingCond, hnb2, Bool.false_eq_true, if_false]
  have hend2 : endsW ['"'] ('"' :: (x ++ ['"'])) = true := by
    rw [show '"' :: (x ++ ['"']) = ('"' :: x) ++ ['"'] from by simp]
    exact endsW_concat '"' ('"' :: x)
  have hdropq : ('"' :: (x ++ ['"'])).drop 1 = x ++ ['"'] := rfl
  have hlen3 : x.length + 1 + 1 - 2 = x.length := by omega
  have htakex : (x ++ ['"']).take x.length = x := List.take_left x ['"']
  have hunq : unquote ('"' :: (x ++ ['"'])) = x := by
    simp only [unquote, hq1, hend2, Bool.and_self, if_true, hdropq,
      List.length_cons, List.length_append, List.length_nil, Nat.zero_add,
      hlen3, htakex]
  simp only [parseNodeLoop, List.cons_append, hprs, hps, List.isEmpty_cons,
    hhash, hbr, hat, hstar, harr, hbrace, hcol, Bool.false_and, Bool.false_or,
    Bool.not_false, Bool.and_true, Bool.true_and, Bool.and_false,
    Bool.false_eq_true, if_false, if_true, hsplit, hspk, hrest1, hq1, hq2,
    hq21, hex, hstc, hunq, warnCond]

/-- C10: two non-consecutive headers with the same id: `parse_lines`
binds the id to the node built from the later header, the earlier node's
content is silently discarded, and no error or warning about the
duplicate id is recorded. -/
theorem claim_C10 {a sp1 sp2 x y : PStr}
    (ha : alphaStr a) (hsp1 : alphaStr sp1) (hsp2 : alphaStr sp2)
    (hx : alphaStr x) (hy : alphaStr y)
    (ha1 : a ≠ "characters".data) (ha2 : a ≠ "state".data) :
    (parseLines (('[' :: (a ++ [']'])) :: (sp1 ++ ':' :: ' ' :: '"' :: (x ++ ['"'])) :: ('[' :: (a ++ [']'])) :: (sp2 ++ ':' :: ' ' :: '"' :: (y ++ ['"'])) :: [])).errors = [] ∧
    (parseLines (('[' :: (a ++ [']'])) :: (sp1 ++ ':' :: ' ' :: '"' :: (x ++ ['"'])) :: ('[' :: (a ++ [']'])) :: (sp2 ++ ':' :: ' ' :: '"' :: (y ++ ['"'])) :: [])).warnings = [] ∧
    (parseLines (('[' :: (a ++ [']'])) :: (sp1 ++ ':' :: ' ' :: '"' :: (x ++ ['"'])) :: ('[' :: (a ++ [']'])) :: (sp2 ++ ':' :: ' ' :: '"' :: (y ++ ['"'])) :: [])).nodes
      = [(a, ⟨a, [⟨sp2, y, none, [], 4⟩], [], [], [], false, 3⟩)] := by
  have hbl1 := @body1_not_header sp1 x hsp1
  have hbl2 := @body1_not_header sp2 y hsp2
  have hcore : parseLinesLoop {} ((3 + 1) + 1)
      (('[' :: (a ++ [']'])) :: (sp1 ++ ':' :: ' ' :: '"' :: (x ++ ['"'])) ::
        ('[' :: (a ++ [']'])) :: (sp2 ++ ':' :: ' ' :: '"' :: (y ++ ['"'])) :: []) 0
      = { nodes := [(a, ⟨a, [⟨sp2, y, none, [], 4⟩], [], [], [], false, 3⟩)] } := by
    simp only [parseLinesLoop_header_at ha ha1 ha2 hbl1,
      parseLinesLoop_header_at ha ha1 ha2 hbl2, parseNode,
      parseNodeLoop_speaker1 hsp1 hx, parseNodeLoop_speaker1 hsp2 hy,
      parseNodeLoop_header_stop, parseNodeLoop_nil, parseLinesLoop_nil,
      List.length_cons, List.length_nil, Nat.zero_add, List.nil_append,
      passign, if_pos, List.foldl_nil]
  have hL : ((('[' :: (a ++ [']'])) :: (sp1 ++ ':' :: ' ' :: '"' :: (x ++ ['"'])) ::
      ('[' :: (a ++ [']'])) :: (sp2 ++ ':' :: ' ' :: '"' :: (y ++ ['"'])) :: []).length) + 1
      = (3 + 1) + 1 := rfl
  obtain ⟨he, hw, hnd⟩ := parseLines_proj
    (('[' :: (a ++ [']'])) :: (sp1 ++ ':' :: ' ' :: '"' :: (x ++ ['"'])) ::
      ('[' :: (a ++ [']'])) :: (sp2 ++ ':' :: ' ' :: '"' :: (y ++ ['"'])) :: [])
  rw [hL] at he hw hnd
  rw [hcore] at he hw hnd
  exact ⟨he, hw, hnd⟩

/-- Witness for C10 at a concrete duplicated node id `room` with two
different single-line bodies. -/
theorem claim_C10_witness :
    alphaStr "room".data ∧ alphaStr "Ann".data ∧ alphaStr "Ben".data ∧
    alphaStr "hi".data ∧ alphaStr "bye".data ∧
    "room".data ≠ "characters".data ∧ "room".data ≠ "state".data ∧
    ((parseLines (('[' :: ("room".data ++ [']'])) :: ("Ann".data ++ ':' :: ' ' :: '"' :: ("hi".data ++ ['"'])) :: ('[' :: ("room".data ++ [']'])) :: ("Ben".data ++ ':' :: ' ' :: '"' :: ("bye".data ++ ['"'])) :: [])).errors = [] ∧
     (parseLines (('[' :: ("room".data ++ [']'])) :: ("Ann".data ++ ':' :: ' ' :: '"' :: ("hi".data ++ ['"'])) :: ('[' :: ("room".data ++ [']'])) :: ("Ben".data ++ ':' :: ' ' :: '"' :: ("bye".data ++ ['"'])) :: [])).warnings = [] ∧
     (parseLines (('[' :: ("room".data ++ [']'])) :: ("Ann".data ++ ':' :: ' ' :: '"' :: ("hi".data ++ ['"'])) :: ('[' :: ("room".data ++ [']'])) :: ("Ben".data ++ ':' :: ' ' :: '"' :: ("bye".data ++ ['"'])) :: [])).nodes
       = [("room".data, ⟨"room".data, [⟨"Ben".data, "bye".data, none, [], 4⟩], [], [], [], false, 3⟩)]) := by
  have h1 : alphaStr "room".data := by unfold alphaStr; exact ⟨by decide, by decide⟩
  have h2 : alphaStr "Ann".data := by unfold alphaStr; exact ⟨by decide, by decide⟩
  have h3 : alphaStr "Ben".data := by unfold alphaStr; exact ⟨by decide, by decide⟩
  have h4 : alphaStr "hi".data := by unfold alphaStr; exact ⟨by decide, by decide⟩
  have h5 : alphaStr "bye".data := by unfold alphaStr; exact ⟨by decide, by decide⟩
  have h6 : "room".data ≠ "characters".data := by decide
  have h7 : "room".data ≠ "state".data := by decide
  exact ⟨h1, h2, h3, h4, h5, h6, h7, claim_C10 h1 h2 h3 h4 h5 h6 h7⟩

end DialogueForge
